import Mathlib

/-!
# Shallow embedding of the TTagger background core

This file embeds the background coordination core of the TTagger browser
extension (tag document manager, follow cache, live tracker) as executable
Lean definitions, and proves or refutes the frozen specification claims
about it.

Modeling conventions:
* JS objects and `Map`s are association lists `List (String × α)`; JS
  guarantees unique keys, which appears as `Nodup` hypotheses where needed.
  First binding wins on lookup; setting an existing key keeps its slot;
  setting a fresh key appends (JS's integer-key enumeration reordering is
  abstracted away — no claim depends on enumeration order of tied entries).
* JS numbers are `Int` (timestamps as `Nat` where they are epoch
  milliseconds); `NaN`/missing numeric fields are `none`.
* `Array.prototype.sort` is modeled by a stable insertion sort: the
  ECMAScript spec mandates a stable sort, and for a consistent comparator
  any stable sort yields the same list.
* `Number(string)` is modeled for optionally-signed decimal integer
  strings (the only forms the tag module produces); other numeric
  syntaxes (floats, exponents, hex) parse to `none`.
-/

namespace TTagger

/-! ## JS-style association-list primitives -/

/-- JS object property read: first binding wins. -/
def jsGet {α : Type} : List (String × α) → String → Option α
  | [], _ => none
  | (k, v) :: rest, key => if k = key then some v else jsGet rest key

/-- JS object property write: an existing key keeps its slot, a fresh key
    is appended. -/
def jsSet {α : Type} : List (String × α) → String → α → List (String × α)
  | [], key, v => [(key, v)]
  | (k, w) :: rest, key, v =>
    if k = key then (k, v) :: rest else (k, w) :: jsSet rest key v

/-- JS `delete obj[key]`. -/
def jsDelete {α : Type} (m : List (String × α)) (key : String) :
    List (String × α) :=
  m.filter (fun kv => kv.1 ≠ key)

/-- `Object.keys`. -/
def jsKeys {α : Type} (m : List (String × α)) : List String := m.map Prod.fst

/-- `key in obj` / `Map.has`. -/
def jsHas {α : Type} (m : List (String × α)) (key : String) : Bool :=
  (jsGet m key).isSome

theorem jsGet_set_self {α : Type} (m : List (String × α)) (k : String) (v : α) :
    jsGet (jsSet m k v) k = some v := by
  induction m with
  | nil => simp [jsSet, jsGet]
  | cons kv rest ih =>
    obtain ⟨k', w⟩ := kv
    by_cases h : k' = k <;> simp [jsSet, jsGet, h, ih]

theorem jsGet_set_ne {α : Type} (m : List (String × α)) (k k' : String) (v : α)
    (h : k ≠ k') : jsGet (jsSet m k v) k' = jsGet m k' := by
  induction m with
  | nil => simp [jsSet, jsGet, h]
  | cons kv rest ih =>
    obtain ⟨k'', w⟩ := kv
    by_cases h2 : k'' = k
    · subst h2
      simp [jsSet, jsGet, h]
    · simp [jsSet, jsGet, h2, ih]

theorem jsKeys_set {α : Type} (m : List (String × α)) (k : String) (v : α) :
    jsKeys (jsSet m k v) = if jsHas m k then jsKeys m else jsKeys m ++ [k] := by
  induction m with
  | nil => simp [jsSet, jsKeys, jsHas, jsGet]
  | cons kv rest ih =>
    obtain ⟨k', w⟩ := kv
    by_cases h : k' = k
    · simp [jsSet, jsKeys, jsHas, jsGet, h]
    · simp only [jsKeys, jsHas] at ih
      simp only [jsSet, jsKeys, jsHas, jsGet, if_neg h, List.map_cons, ih]
      by_cases h2 : (jsGet rest k).isSome <;> simp [h2]

theorem jsGet_eq_none_of_not_mem_keys {α : Type} (m : List (String × α))
    (k : String) (h : k ∉ jsKeys m) : jsGet m k = none := by
  induction m with
  | nil => simp [jsGet]
  | cons kv rest ih =>
    obtain ⟨k', v⟩ := kv
    simp only [jsKeys, List.map_cons, List.mem_cons] at h
    push_neg at h
    simp [jsGet, Ne.symm h.1, ih (by simpa [jsKeys] using h.2)]

theorem jsGet_isSome_of_mem_keys {α : Type} (m : List (String × α))
    (k : String) (h : k ∈ jsKeys m) : (jsGet m k).isSome := by
  induction m with
  | nil => simp [jsKeys] at h
  | cons kv rest ih =>
    obtain ⟨k', v⟩ := kv
    by_cases h2 : k' = k
    · simp [jsGet, h2]
    · simp only [jsKeys, List.map_cons, List.mem_cons] at h
      rcases h with h | h
      · exact absurd h.symm h2
      · simp [jsGet, h2, ih (by simpa [jsKeys] using h)]

theorem mem_of_jsGet_eq_some {α : Type} (m : List (String × α)) (k : String)
    (v : α) (h : jsGet m k = some v) : (k, v) ∈ m := by
  induction m with
  | nil => simp [jsGet] at h
  | cons kv rest ih =>
    obtain ⟨k', w⟩ := kv
    by_cases h2 : k' = k
    · subst h2
      simp [jsGet] at h
      rw [← h]
      exact List.mem_cons_self _ _
    · simp only [jsGet, if_neg h2] at h
      exact List.mem_cons_of_mem _ (ih h)

theorem jsGet_eq_some_of_mem_nodup {α : Type} {m : List (String × α)}
    {k : String} {v : α} (hnd : (jsKeys m).Nodup) (h : (k, v) ∈ m) :
    jsGet m k = some v := by
  induction m with
  | nil => simp at h
  | cons kv rest ih =>
    obtain ⟨k', w⟩ := kv
    simp only [jsKeys, List.map_cons, List.nodup_cons] at hnd
    rcases List.mem_cons.mp h with h | h
    · obtain ⟨h1, h2⟩ := Prod.mk.injEq .. ▸ h
      simp [jsGet, h1.symm, h2]
    · have hk : k' ≠ k := by
        intro he
        subst he
        exact hnd.1 (by simpa [jsKeys] using List.mem_map_of_mem Prod.fst h)
      simp [jsGet, hk, ih (by simpa [jsKeys] using hnd.2) h]

theorem jsKeys_nodup_set {α : Type} (m : List (String × α)) (k : String)
    (v : α) (h : (jsKeys m).Nodup) : (jsKeys (jsSet m k v)).Nodup := by
  rw [jsKeys_set]
  by_cases h2 : jsHas m k
  · simpa [h2]
  · simp only [h2, if_false]
    simp only [jsHas, Option.isSome_iff_exists, Bool.not_eq_true] at h2
    refine (List.nodup_append ..).mpr ⟨h, List.nodup_singleton k, ?_⟩
    intro a ha hb
    simp only [List.mem_singleton] at hb
    subst hb
    have := jsGet_isSome_of_mem_keys m a ha
    rcases Option.isSome_iff_exists.mp this with ⟨w, hw⟩
    rw [hw] at h2
    simp at h2

theorem jsGet_delete_self {α : Type} (m : List (String × α)) (k : String) :
    jsGet (jsDelete m k) k = none := by
  apply jsGet_eq_none_of_not_mem_keys
  intro hmem
  simp only [jsDelete, jsKeys] at hmem
  rcases List.mem_map.mp hmem with ⟨kv, hkv, hfst⟩
  rcases List.mem_filter.mp hkv with ⟨_, hne⟩
  simp [hfst] at hne

theorem jsGet_delete_ne {α : Type} (m : List (String × α)) (k k' : String)
    (h : k' ≠ k) : jsGet (jsDelete m k) k' = jsGet m k' := by
  induction m with
  | nil => simp [jsDelete, jsGet]
  | cons kv rest ih =>
    obtain ⟨k'', w⟩ := kv
    by_cases h2 : k'' = k
    · subst h2
      have h1 : jsDelete ((k'', w) :: rest) k'' = jsDelete rest k'' := by
        simp [jsDelete, List.filter_cons]
      rw [h1, ih]
      have hne : ¬ k'' = k' := fun he => h he.symm
      simp [jsGet, hne]
    · have h1 : jsDelete ((k'', w) :: rest) k = (k'', w) :: jsDelete rest k := by
        simp [jsDelete, List.filter_cons, h2]
      rw [h1]
      by_cases h3 : k'' = k'
      · simp [jsGet, h3]
      · simp only [jsGet, if_neg h3]
        exact ih

theorem jsKeys_delete_nodup {α : Type} (m : List (String × α)) (k : String)
    (h : (jsKeys m).Nodup) : (jsKeys (jsDelete m k)).Nodup := by
  have hsub : List.Sublist (jsDelete m k) m := List.filter_sublist m
  exact (hsub.map Prod.fst).nodup h

/-- Setting a key back to the value it already holds leaves the object
    unchanged. -/
theorem jsSet_eq_self_of_jsGet {α : Type} (m : List (String × α)) (k : String)
    (v : α) (h : jsGet m k = some v) : jsSet m k v = m := by
  induction m with
  | nil => simp [jsGet] at h
  | cons kv rest ih =>
    obtain ⟨k', w⟩ := kv
    by_cases h2 : k' = k
    · subst h2
      simp [jsGet] at h
      simp [jsSet, h]
    · simp only [jsGet, if_neg h2] at h
      simp [jsSet, h2, ih h]

/-! ## Character and string primitives

JS string operations modeled over `List Char` so that everything reduces
in the kernel (`String.toLower`, `String.trim`, `String.lt` do not). ASCII
case mapping models `toLowerCase` for the character data this module
handles. -/

/-- Whitespace test used by `trim` / `Number()` coercion. -/
def charIsWs (c : Char) : Bool :=
  c = ' ' || c = '\t' || c = '\n' || c = '\r' || c = '\x0b' || c = '\x0c'

def trimChars (cs : List Char) : List Char :=
  ((cs.dropWhile charIsWs).reverse.dropWhile charIsWs).reverse

/-- Model of `String.prototype.trim`. -/
def jsTrim (s : String) : String := ⟨trimChars s.data⟩

def charLower (c : Char) : Char :=
  if 'A' ≤ c && c ≤ 'Z' then Char.ofNat (c.toNat + 32) else c

/-- Model of `String.prototype.toLowerCase` (ASCII range). -/
def jsToLower (s : String) : String := ⟨s.data.map charLower⟩

/-- Decimal digit value of a character, if it is one. -/
def charDigit? (c : Char) : Option Nat :=
  if '0' ≤ c && c ≤ '9' then some (c.toNat - 48) else none

/-- Big-endian digit-list accumulator parse. -/
def parseDigitsAux : List Char → Nat → Option Nat
  | [], acc => some acc
  | c :: cs, acc =>
    match charDigit? c with
    | some d => parseDigitsAux cs (acc * 10 + d)
    | none => none

/-- Model of JS `Number(string)` restricted to optionally-signed decimal
    integer strings; every other form (floats, exponents, hex, words)
    yields `none`, i.e. `NaN`. `Number('') = 0` and leading/trailing
    whitespace trimming are reproduced. -/
def jsStrToNumber (s : String) : Option Int :=
  let cs := trimChars s.data
  if cs = [] then some 0
  else if cs.head? = some '-' then
    if cs.tail = [] then none
    else (parseDigitsAux cs.tail 0).map (fun n => -(n : Int))
  else (parseDigitsAux cs 0).map (fun n => (n : Int))

def digitChar (d : Nat) : Char := Char.ofNat (48 + d)

/-- Big-endian decimal digit expansion, driven by explicit fuel so that it
    is structural (fuel ≥ the number suffices). -/
def printNatAux : Nat → Nat → List Char
  | 0, _ => []
  | fuel + 1, n => if n = 0 then [] else printNatAux fuel (n / 10) ++ [digitChar (n % 10)]

def printNat (n : Nat) : List Char := if n = 0 then ['0'] else printNatAux (n + 1) n

/-- Model of JS `String(number)` for integral numbers. -/
def jsIntToString (n : Int) : String :=
  if n < 0 then ⟨'-' :: printNat n.natAbs⟩ else ⟨printNat n.toNat⟩

theorem charDigit?_digitChar (d : Nat) (h : d < 10) :
    charDigit? (digitChar d) = some d := by
  interval_cases d <;> decide

theorem printNatAux_fuel (f₁ f₂ n : Nat) (h₁ : n ≤ f₁) (h₂ : n ≤ f₂) :
    printNatAux f₁ n = printNatAux f₂ n := by
  induction f₁ using Nat.strong_induction_on generalizing f₂ n with
  | _ f₁ ih =>
    match f₁, f₂ with
    | 0, f₂ =>
      interval_cases n
      cases f₂ <;> simp [printNatAux]
    | f₁ + 1, 0 =>
      interval_cases n
      simp [printNatAux]
    | f₁ + 1, f₂ + 1 =>
      by_cases hn : n = 0
      · simp [printNatAux, hn]
      · simp only [printNatAux, if_neg hn]
        have hlt : n / 10 < n := Nat.div_lt_self (Nat.pos_of_ne_zero hn) (by omega)
        rw [ih f₁ (by omega) f₂ (n / 10) (by omega) (by omega)]

theorem parseDigitsAux_append (l₁ l₂ : List Char) (acc : Nat) :
    parseDigitsAux (l₁ ++ l₂) acc =
      match parseDigitsAux l₁ acc with
      | some a => parseDigitsAux l₂ a
      | none => none := by
  induction l₁ generalizing acc with
  | nil => simp [parseDigitsAux]
  | cons c cs ih =>
    simp only [List.cons_append, parseDigitsAux]
    cases charDigit? c with
    | some d => exact ih _
    | none => rfl

theorem parseDigitsAux_printNatAux (fuel n acc : Nat) (h : n ≤ fuel) :
    parseDigitsAux (printNatAux fuel n) acc =
      some (acc * 10 ^ (printNatAux fuel n).length + n) := by
  induction fuel using Nat.strong_induction_on generalizing n acc with
  | _ fuel ih =>
    match fuel with
    | 0 =>
      interval_cases n
      simp [printNatAux, parseDigitsAux]
    | fuel + 1 =>
      by_cases hn : n = 0
      · simp [printNatAux, hn, parseDigitsAux]
      · simp only [printNatAux, if_neg hn]
        have hlt : n / 10 < n := Nat.div_lt_self (Nat.pos_of_ne_zero hn) (by omega)
        rw [parseDigitsAux_append]
        rw [ih fuel (by omega) (n / 10) acc (by omega)]
        simp only [parseDigitsAux, charDigit?_digitChar (n % 10) (Nat.mod_lt n (by omega))]
        simp only [List.length_append, List.length_cons, List.length_nil]
        congr 1
        have : (acc * 10 ^ (printNatAux fuel (n / 10)).length + n / 10) * 10 + n % 10
            = acc * (10 ^ (printNatAux fuel (n / 10)).length * 10) + (n / 10 * 10 + n % 10) := by
          ring
        rw [this, Nat.div_add_mod' n 10, ← pow_succ]

theorem printNat_all_digits (n : Nat) :
    ∀ c ∈ printNat n, ∃ d, d < 10 ∧ c = digitChar d := by
  have haux : ∀ fuel m, m ≤ fuel → ∀ c ∈ printNatAux fuel m,
      ∃ d, d < 10 ∧ c = digitChar d := by
    intro fuel
    induction fuel using Nat.strong_induction_on with
    | _ fuel ih =>
      match fuel with
      | 0 =>
        intro m hm
        interval_cases m
        simp [printNatAux]
      | fuel + 1 =>
        intro m hm c hc
        by_cases hmz : m = 0
        · simp [printNatAux, hmz] at hc
        · simp only [printNatAux, if_neg hmz, List.mem_append, List.mem_singleton] at hc
          rcases hc with hc | hc
          · have hlt : m / 10 < m := Nat.div_lt_self (Nat.pos_of_ne_zero hmz) (by omega)
            exact ih fuel (by omega) (m / 10) (by omega) c hc
          · exact ⟨m % 10, Nat.mod_lt m (by omega), hc⟩
  intro c hc
  by_cases hn : n = 0
  · subst hn
    simp [printNat] at hc
    exact ⟨0, by omega, by simp [hc, digitChar]⟩
  · simp only [printNat, if_neg hn] at hc
    exact haux (n + 1) n (by omega) c hc

theorem digitChar_not_ws (d : Nat) (h : d < 10) : charIsWs (digitChar d) = false := by
  interval_cases d <;> decide

theorem digitChar_ne_minus (d : Nat) (h : d < 10) : digitChar d ≠ '-' := by
  interval_cases d <;> decide

theorem trimChars_eq_self (cs : List Char) (h : ∀ c ∈ cs, charIsWs c = false) :
    trimChars cs = cs := by
  unfold trimChars
  have h1 : List.dropWhile charIsWs cs = cs := by
    rw [List.dropWhile_eq_self_iff]
    intro hne
    simpa using h _ (List.getElem_mem hne)
  rw [h1]
  have h2 : List.dropWhile charIsWs cs.reverse = cs.reverse := by
    rw [List.dropWhile_eq_self_iff]
    intro hne
    simpa using h _ (List.mem_reverse.mp (List.getElem_mem hne))
  rw [h2, List.reverse_reverse]

theorem printNat_ne_nil (n : Nat) : printNat n ≠ [] := by
  by_cases hn : n = 0
  · simp [printNat, hn]
  · simp only [printNat, if_neg hn]
    match hf : printNatAux (n + 1) n with
    | [] =>
      exfalso
      have := parseDigitsAux_printNatAux (n + 1) n 0 (by omega)
      rw [hf] at this
      simp [parseDigitsAux] at this
      omega
    | c :: cs => simp

/-- `Number(String(n)) = n` for naturals: the decimal printer/parser pair
    round-trips. -/
theorem jsStrToNumber_printNat (n : Nat) : jsStrToNumber ⟨printNat n⟩ = some (n : Int) := by
  have htrim : trimChars (printNat n) = printNat n := by
    apply trimChars_eq_self
    intro c hc
    obtain ⟨d, hd, rfl⟩ := printNat_all_digits n c hc
    exact digitChar_not_ws d hd
  have hhead : (printNat n).head? ≠ some '-' := by
    match hp : printNat n with
    | [] => simp
    | c :: cs =>
      obtain ⟨d, hd, rfl⟩ := printNat_all_digits n c (by rw [hp]; exact List.mem_cons_self _ _)
      simpa using digitChar_ne_minus d hd
  simp only [jsStrToNumber, htrim, if_neg (printNat_ne_nil n), if_neg hhead]
  by_cases hn : n = 0
  · subst hn
    decide
  · simp only [printNat, if_neg hn]
    rw [parseDigitsAux_printNatAux (n + 1) n 0 (by omega)]
    simp

theorem jsStrToNumber_jsIntToString_nat (n : Nat) :
    jsStrToNumber (jsIntToString (n : Int)) = some (n : Int) := by
  have : jsIntToString (n : Int) = ⟨printNat n⟩ := by
    simp [jsIntToString, Int.toNat_natCast]
  rw [this]
  exact jsStrToNumber_printNat n

/-! ## Stable comparator sort

Model of `Array.prototype.sort(comparator)`: ECMAScript requires a stable
sort, and for a consistent comparator every stable sort produces the same
list, so a stable insertion sort is an exact model. -/

/-- Insert `a` after every element `b` with `le b a` (stable placement). -/
def insertLe {α : Type} (le : α → α → Bool) (a : α) : List α → List α
  | [] => [a]
  | b :: l => if le b a then b :: insertLe le a l else a :: b :: l

/-- Stable insertion sort, processing the array left to right. -/
def stableSort {α : Type} (le : α → α → Bool) (l : List α) : List α :=
  l.foldl (fun acc a => insertLe le a acc) []

theorem insertLe_perm {α : Type} (le : α → α → Bool) (a : α) (l : List α) :
    List.Perm (insertLe le a l) (a :: l) := by
  induction l with
  | nil => simp [insertLe]
  | cons b l ih =>
    by_cases h : le b a
    · simp only [insertLe, if_pos h]
      exact ((ih.cons b).trans (List.Perm.swap a b l))
    · simp [insertLe, if_neg h]

theorem stableSort_perm {α : Type} (le : α → α → Bool) (l : List α) :
    List.Perm (stableSort le l) l := by
  suffices haux : ∀ (l acc : List α),
      List.Perm (l.foldl (fun acc a => insertLe le a acc) acc) (acc ++ l) by
    simpa using haux l []
  intro l
  induction l with
  | nil => simp
  | cons a l ih =>
    intro acc
    simp only [List.foldl_cons]
    refine (ih (insertLe le a acc)).trans ?_
    have h1 : List.Perm (insertLe le a acc) (a :: acc) := insertLe_perm le a acc
    refine (h1.append_right l).trans ?_
    have : List.Perm (a :: acc) (acc ++ [a]) := by
      simpa using (@List.perm_append_comm _ [a] acc)
    refine (this.append_right l).trans ?_
    simp

theorem insertLe_pairwise {α : Type} (le : α → α → Bool)
    (htrans : ∀ a b c, le a b → le b c → le a c)
    (htotal : ∀ a b, le a b || le b a) (a : α) (l : List α)
    (h : l.Pairwise (fun x y => le x y)) :
    (insertLe le a l).Pairwise (fun x y => le x y) := by
  induction l with
  | nil => simp [insertLe]
  | cons b l ih =>
    rcases List.pairwise_cons.mp h with ⟨hb, hl⟩
    by_cases hba : le b a
    · simp only [insertLe, if_pos hba]
      refine List.pairwise_cons.mpr ⟨?_, ih hl⟩
      intro x hx
      rcases List.mem_cons.mp ((insertLe_perm le a l).mem_iff.mp hx) with hx | hx
      · simpa [hx] using hba
      · exact hb x hx
    · simp only [insertLe, if_neg hba]
      have hab : le a b := by
        rcases Bool.or_eq_true_iff.mp (htotal b a) with h1 | h1
        · exact absurd h1 hba
        · exact h1
      refine List.pairwise_cons.mpr ⟨?_, h⟩
      intro x hx
      rcases List.mem_cons.mp hx with hx | hx
      · simpa [hx] using hab
      · exact htrans a b x hab (hb x hx)

theorem stableSort_pairwise {α : Type} (le : α → α → Bool)
    (htrans : ∀ a b c, le a b → le b c → le a c)
    (htotal : ∀ a b, le a b || le b a) (l : List α) :
    (stableSort le l).Pairwise (fun x y => le x y) := by
  suffices haux : ∀ (l acc : List α), acc.Pairwise (fun x y => le x y) →
      (l.foldl (fun acc a => insertLe le a acc) acc).Pairwise (fun x y => le x y) by
    exact haux l [] (by simp)
  intro l
  induction l with
  | nil => intro acc h; simpa using h
  | cons a l ih =>
    intro acc h
    simp only [List.foldl_cons]
    exact ih _ (insertLe_pairwise le htrans htotal a acc h)

/-- Two lists that are permutations of each other and both sorted under an
    asymmetric strict relation are equal. -/
theorem perm_pairwise_asymm_eq {α : Type} {R : α → α → Prop}
    (hasymm : ∀ a b, R a b → ¬ R b a) :
    ∀ {l₁ l₂ : List α}, List.Perm l₁ l₂ → l₁.Pairwise R → l₂.Pairwise R → l₁ = l₂ := by
  intro l₁
  induction l₁ with
  | nil => intro l₂ hp _ _; simpa using hp.symm.eq_nil
  | cons a l₁ ih =>
    intro l₂ hp h₁ h₂
    match l₂ with
    | [] => exact absurd hp.eq_nil (by simp)
    | b :: l₂ =>
      have hab : a = b := by
        by_contra hne
        have ha2 : a ∈ b :: l₂ := hp.mem_iff.mp (List.mem_cons_self a l₁)
        have hb1 : b ∈ a :: l₁ := hp.mem_iff.mpr (List.mem_cons_self b l₂)
        have haligned : a ∈ l₂ := by
          rcases List.mem_cons.mp ha2 with h | h
          · exact absurd h hne
          · exact h
        have hbl : b ∈ l₁ := by
          rcases List.mem_cons.mp hb1 with h | h
          · exact absurd h.symm hne
          · exact h
        have hRab : R a b := (List.pairwise_cons.mp h₁).1 b hbl
        have hRba : R b a := (List.pairwise_cons.mp h₂).1 a haligned
        exact hasymm a b hRab hRba
      subst hab
      have hp2 : List.Perm l₁ l₂ := hp.cons_inv
      rw [ih hp2 (List.pairwise_cons.mp h₁).2 (List.pairwise_cons.mp h₂).2]

/-! ## Tag document data model

`Tag` is the record stored per tag id in the tag document
(`src/storage/tagState.js` module).  Fields that JS may leave absent or
non-numeric are `Option`s; `color = ""` models a falsy color. A `null` (or
otherwise falsy) map value is `Option Tag = none`. -/

structure Tag where
  id : String
  name : String
  color : String
  createdAt : Option Nat
  updatedAt : Option Nat := none
  locked : Bool := false
  sortOrder : Option Int
deriving DecidableEq

/-- An arbitrary object-shaped tag document, as read from storage: `tags`
    values may be null, `assignments` values may be non-arrays (`none`),
    `nextId` may be missing/`NaN` (`none`). -/
structure TagDocIn where
  tags : List (String × Option Tag)
  assignments : List (String × Option (List String))
  nextId : Option Int
deriving DecidableEq

/-- The result shape of `normalizeTagState`: assignment values are genuine
    arrays and `nextId` a number.  (Tag-map values can still be `none` —
    normalization does not delete null tag entries.) -/
structure TagState where
  tags : List (String × Option Tag)
  assignments : List (String × List String)
  nextId : Int
deriving DecidableEq

/-- Read a normalized document back as a stored JS value. -/
def TagState.toInput (s : TagState) : TagDocIn :=
  ⟨s.tags, s.assignments.map (fun kv => (kv.1, some kv.2)), some s.nextId⟩

def STARRED_TAG_ID : String := "favorite"

def STARRED_TAG_NAME : String := "⭐ Starred"

def STARRED_TAG_NAME_LOWER : String := jsToLower STARRED_TAG_NAME

/-! ### Comparator (`compareTagsByOrderWithCreatedAt`, util/sorting.js)

`localeCompare` on the id tie-break is modeled as code-unit comparison. -/

def charListCmp : List Char → List Char → Int
  | [], [] => 0
  | [], _ :: _ => -1
  | _ :: _, [] => 1
  | a :: as, b :: bs => if a < b then -1 else if b < a then 1 else charListCmp as bs

def strCmp (a b : String) : Int := charListCmp a.data b.data

/-- Compare two tags by sort order, falling back to `createdAt` and then
    to the id. Mirrors the if-chain of the source: a tie at one stage
    (both absent, or both present and equal) falls through to the next. -/
def compareTagsByOrderWithCreatedAt (a b : Tag) : Int :=
  match a.sortOrder, b.sortOrder with
  | some ao, some bo =>
    if ao ≠ bo then ao - bo else cmpByCreatedAt a b
  | some _, none => -1
  | none, some _ => 1
  | none, none => cmpByCreatedAt a b
where
  cmpByCreatedAt (a b : Tag) : Int :=
    match a.createdAt, b.createdAt with
    | some ac, some bc => if ac ≠ bc then (ac : Int) - bc else strCmp a.id b.id
    | some _, none => -1
    | none, some _ => 1
    | none, none => strCmp a.id b.id

/-- The Bool relation fed to the sort. -/
def tagLe (a b : Tag) : Bool := compareTagsByOrderWithCreatedAt a b ≤ 0

section CmpLemmas

theorem charListCmp_antisymm : ∀ a b, charListCmp a b = -(charListCmp b a) := by
  intro a
  induction a with
  | nil => intro b; cases b <;> simp [charListCmp]
  | cons x xs ih =>
    intro b
    cases b with
    | nil => simp [charListCmp]
    | cons y ys =>
      simp only [charListCmp]
      rcases lt_trichotomy x y with h | h | h
      · simp [h, not_lt_of_lt h]
      · simp [h, lt_irrefl, ih ys]
      · simp [h, not_lt_of_lt h]

theorem charListCmp_eq_zero_iff : ∀ a b, charListCmp a b = 0 ↔ a = b := by
  intro a
  induction a with
  | nil => intro b; cases b <;> simp [charListCmp]
  | cons x xs ih =>
    intro b
    cases b with
    | nil => simp [charListCmp]
    | cons y ys =>
      simp only [charListCmp]
      rcases lt_trichotomy x y with h | h | h
      · simp [h, ne_of_lt h]
      · subst h
        simp [lt_irrefl, ih ys]
      · simp [not_lt_of_lt h, h, (ne_of_lt h).symm]

theorem charListCmp_trans :
    ∀ a b c, charListCmp a b ≤ 0 → charListCmp b c ≤ 0 → charListCmp a c ≤ 0 := by
  intro a
  induction a with
  | nil => intro b c _ _; cases c <;> simp [charListCmp]
  | cons x xs ih =>
    intro b c hab hbc
    match b, c with
    | [], _ => simp [charListCmp] at hab
    | _ :: _, [] => simp [charListCmp] at hbc
    | y :: ys, z :: zs =>
      simp only [charListCmp] at hab hbc ⊢
      by_cases hxy : x < y
      · by_cases hyz : y < z
        · simp [lt_trans hxy hyz]
        · by_cases hzy : z < y
          · simp [hyz, hzy] at hbc
          · have : y = z := le_antisymm (not_lt.mp hzy) (not_lt.mp hyz)
            subst this
            simp [hxy]
      · by_cases hyx : y < x
        · simp [hxy, hyx] at hab
        · have hxy2 : x = y := le_antisymm (not_lt.mp hyx) (not_lt.mp hxy)
          subst hxy2
          simp only [lt_self_iff_false, if_false] at hab
          by_cases hxz : x < z
          · simp [hxz]
          · by_cases hzx : z < x
            · simp [hxz, hzx] at hbc
            · have hxz2 : x = z := le_antisymm (not_lt.mp hzx) (not_lt.mp hxz)
              subst hxz2
              simp only [lt_self_iff_false, if_false] at hbc ⊢
              exact ih ys zs hab hbc

theorem strCmp_antisymm (a b : String) : strCmp a b = -(strCmp b a) :=
  charListCmp_antisymm a.data b.data

theorem strCmp_eq_zero_iff (a b : String) : strCmp a b = 0 ↔ a = b := by
  rw [strCmp, charListCmp_eq_zero_iff]
  exact ⟨fun h => congrArg String.mk h, fun h => by rw [h]⟩

theorem strCmp_trans (a b c : String) (h₁ : strCmp a b ≤ 0) (h₂ : strCmp b c ≤ 0) :
    strCmp a c ≤ 0 :=
  charListCmp_trans a.data b.data c.data h₁ h₂

/-- Generic stage of a JS numeric comparator chain: compare by an optional
    numeric key (present keys sort before absent ones), falling through to
    `rest` on a tie. -/
def optLexCmp {α : Type} (key : α → Option Int) (rest : α → α → Int) (a b : α) : Int :=
  match key a, key b with
  | some x, some y => if x ≠ y then x - y else rest a b
  | some _, none => -1
  | none, some _ => 1
  | none, none => rest a b

theorem optLexCmp_ss {α : Type} {key : α → Option Int} {rest : α → α → Int}
    {a b : α} {x y : Int} (h1 : key a = some x) (h2 : key b = some y) :
    optLexCmp key rest a b = if x ≠ y then x - y else rest a b := by
  unfold optLexCmp
  rw [h1, h2]

theorem optLexCmp_sn {α : Type} {key : α → Option Int} {rest : α → α → Int}
    {a b : α} {x : Int} (h1 : key a = some x) (h2 : key b = none) :
    optLexCmp key rest a b = -1 := by
  unfold optLexCmp
  rw [h1, h2]

theorem optLexCmp_ns {α : Type} {key : α → Option Int} {rest : α → α → Int}
    {a b : α} {y : Int} (h1 : key a = none) (h2 : key b = some y) :
    optLexCmp key rest a b = 1 := by
  unfold optLexCmp
  rw [h1, h2]

theorem optLexCmp_nn {α : Type} {key : α → Option Int} {rest : α → α → Int}
    {a b : α} (h1 : key a = none) (h2 : key b = none) :
    optLexCmp key rest a b = rest a b := by
  unfold optLexCmp
  rw [h1, h2]

theorem optLexCmp_antisymm {α : Type} (key : α → Option Int) (rest : α → α → Int)
    (hrest : ∀ a b, rest a b = -(rest b a)) (a b : α) :
    optLexCmp key rest a b = -(optLexCmp key rest b a) := by
  rcases ha : key a with _ | x <;> rcases hb : key b with _ | y
  · rw [optLexCmp_nn ha hb, optLexCmp_nn hb ha]
    exact hrest a b
  · rw [optLexCmp_ns ha hb, optLexCmp_sn hb ha]
    omega
  · rw [optLexCmp_sn ha hb, optLexCmp_ns hb ha]
  · rw [optLexCmp_ss ha hb, optLexCmp_ss hb ha]
    by_cases h : x = y
    · subst h
      simpa using hrest a b
    · have h2 : ¬ (y = x) := fun he => h he.symm
      simp only [ne_eq, h, h2, not_false_eq_true, if_pos]
      omega

theorem optLexCmp_trans {α : Type} (key : α → Option Int) (rest : α → α → Int)
    (hrest : ∀ a b c, rest a b ≤ 0 → rest b c ≤ 0 → rest a c ≤ 0) (a b c : α)
    (h₁ : optLexCmp key rest a b ≤ 0) (h₂ : optLexCmp key rest b c ≤ 0) :
    optLexCmp key rest a c ≤ 0 := by
  rcases ha : key a with _ | x <;> rcases hb : key b with _ | y <;>
      rcases hc : key c with _ | z
  · rw [optLexCmp_nn ha hb] at h₁
    rw [optLexCmp_nn hb hc] at h₂
    rw [optLexCmp_nn ha hc]
    exact hrest a b c h₁ h₂
  · rw [optLexCmp_ns hb hc] at h₂
    omega
  · rw [optLexCmp_ns ha hb] at h₁
    omega
  · rw [optLexCmp_ns ha hb] at h₁
    omega
  · rw [optLexCmp_sn ha hc]
    omega
  · rw [optLexCmp_ns hb hc] at h₂
    omega
  · rw [optLexCmp_sn ha hc]
    omega
  · rw [optLexCmp_ss ha hb] at h₁
    rw [optLexCmp_ss hb hc] at h₂
    rw [optLexCmp_ss ha hc]
    by_cases hxy : x = y <;> by_cases hyz : y = z
    · subst hxy; subst hyz
      have hcond : ¬ (x ≠ x) := by simp
      rw [if_neg hcond] at h₁ h₂ ⊢
      exact hrest a b c h₁ h₂
    · subst hxy
      simp only [ne_eq, hyz, not_false_eq_true, if_pos] at h₂
      have hxz : x ≠ z := by omega
      simp only [ne_eq, hxz, not_false_eq_true, if_pos]
      omega
    · subst hyz
      simp only [ne_eq, hxy, not_false_eq_true, if_pos] at h₁
      simp only [ne_eq, hxy, not_false_eq_true, if_pos]
      omega
    · simp only [ne_eq, hxy, hyz, not_false_eq_true, if_pos] at h₁ h₂
      have hxz : x ≠ z := by omega
      simp only [ne_eq, hxz, not_false_eq_true, if_pos]
      omega

/-- The tag comparator is the two-stage lexicographic chain over
    `sortOrder` and `createdAt` with the id comparison last. -/
theorem cmpTags_eq_optLex (a b : Tag) :
    compareTagsByOrderWithCreatedAt a b =
      optLexCmp (fun t => t.sortOrder)
        (optLexCmp (fun t => t.createdAt.map (fun n => (n : Int)))
          (fun x y => strCmp x.id y.id)) a b := by
  have hcreated : compareTagsByOrderWithCreatedAt.cmpByCreatedAt a b =
      optLexCmp (fun t => t.createdAt.map (fun n => (n : Int)))
        (fun x y => strCmp x.id y.id) a b := by
    rcases ha : a.createdAt with _ | ac <;> rcases hb : b.createdAt with _ | bc
    · simp [compareTagsByOrderWithCreatedAt.cmpByCreatedAt, optLexCmp, ha, hb]
    · simp [compareTagsByOrderWithCreatedAt.cmpByCreatedAt, optLexCmp, ha, hb]
    · simp [compareTagsByOrderWithCreatedAt.cmpByCreatedAt, optLexCmp, ha, hb]
    · simp only [compareTagsByOrderWithCreatedAt.cmpByCreatedAt, optLexCmp, ha, hb,
        Option.map_some']
      by_cases h : ac = bc
      · simp [h]
      · have h2 : ¬ ((ac : Int) = (bc : Int)) := by exact_mod_cast h
        simp [h, h2]
  rcases ha : a.sortOrder with _ | ao <;> rcases hb : b.sortOrder with _ | bo
  · simp only [compareTagsByOrderWithCreatedAt, optLexCmp, ha, hb, hcreated]
  · simp only [compareTagsByOrderWithCreatedAt, optLexCmp, ha, hb, hcreated]
  · simp only [compareTagsByOrderWithCreatedAt, optLexCmp, ha, hb, hcreated]
  · simp only [compareTagsByOrderWithCreatedAt, optLexCmp, ha, hb, hcreated]

theorem cmpTags_antisymm (a b : Tag) :
    compareTagsByOrderWithCreatedAt a b = -(compareTagsByOrderWithCreatedAt b a) := by
  rw [cmpTags_eq_optLex, cmpTags_eq_optLex]
  exact optLexCmp_antisymm _ _
    (fun a b => optLexCmp_antisymm _ _ (fun x y => strCmp_antisymm x.id y.id) a b) a b

theorem cmpTags_trans (a b c : Tag)
    (h₁ : compareTagsByOrderWithCreatedAt a b ≤ 0)
    (h₂ : compareTagsByOrderWithCreatedAt b c ≤ 0) :
    compareTagsByOrderWithCreatedAt a c ≤ 0 := by
  rw [cmpTags_eq_optLex] at h₁ h₂ ⊢
  exact optLexCmp_trans _ _
    (fun a b c => optLexCmp_trans _ _ (fun x y z => strCmp_trans x.id y.id z.id) a b c)
    a b c h₁ h₂

theorem tagLe_trans : ∀ a b c, tagLe a b → tagLe b c → tagLe a c := by
  intro a b c h₁ h₂
  simp only [tagLe, decide_eq_true_eq] at *
  exact cmpTags_trans a b c h₁ h₂

theorem tagLe_total : ∀ a b, tagLe a b || tagLe b a := by
  intro a b
  simp only [tagLe, Bool.or_eq_true, decide_eq_true_eq]
  have := cmpTags_antisymm a b
  omega

/-- When both tags carry distinct sort orders the comparator is decided by
    them alone. -/
theorem cmpTags_of_orders (a b : Tag) (ao bo : Int) (ha : a.sortOrder = some ao)
    (hb : b.sortOrder = some bo) (hne : ao ≠ bo) :
    compareTagsByOrderWithCreatedAt a b = ao - bo := by
  unfold compareTagsByOrderWithCreatedAt
  rw [ha, hb]
  simp [hne]

end CmpLemmas

/-! ## Normalization pipeline (`normalizeTagState` and helpers, tagState.js) -/

/-- The tag-map entries that participate in sort-order assignment: value
    non-null and id not the starred id (`tagState.js` line 99).  Each
    entry keeps its key: the source mutates tag objects in place, and the
    key plays the role of the object identity. -/
def sortableEntries (tags : List (String × Option Tag)) : List (String × Tag) :=
  tags.filterMap (fun kv =>
    match kv.2 with
    | some t => if t.id ≠ STARRED_TAG_ID then some (kv.1, t) else none
    | none => none)

def pairTagLe (a b : String × Tag) : Bool := tagLe a.2 b.2

/-- The in-place `tag.sortOrder = index + 1` mutation of `ensureSortOrder`,
    keyed by position in the sorted array; a null or starred-id value is
    left alone. -/
def assignSortOrder (sorted : List (String × Tag)) (kv : String × Option Tag) :
    String × Option Tag :=
  match kv.2 with
  | some t =>
    if t.id ≠ STARRED_TAG_ID then
      match sorted.findIdx? (fun e => e.1 = kv.1) with
      | some i => (kv.1, some { t with sortOrder := some ((i : Int) + 1) })
      | none => kv
    else kv
  | none => kv

/-- `ensureSortOrder`: sort the non-starred tags with the comparator and
    stamp them 1..N in sorted order; pin the entry at the starred key to
    0. -/
def ensureSortOrder (tags : List (String × Option Tag)) : List (String × Option Tag) :=
  let sorted := stableSort pairTagLe (sortableEntries tags)
  let assigned := tags.map (assignSortOrder sorted)
  match jsGet assigned STARRED_TAG_ID with
  | some (some fav) =>
    jsSet assigned STARRED_TAG_ID (some { fav with sortOrder := some 0 })
  | _ => assigned

/-- `getNextSortOrder`: one past the maximum non-starred numeric sort
    order (0 when there is none). -/
def getNextSortOrder (tags : List (String × Option Tag)) : Int :=
  let mx := tags.foldl (fun acc kv =>
    match kv.2 with
    | some t =>
      if t.id = STARRED_TAG_ID then acc
      else
        match t.sortOrder with
        | some o => if o > acc then o else acc
        | none => acc
    | none => acc) 0
  mx + 1

/-- `Math.max` over a list (callers guard the empty case). -/
def listMaxInt : List Int → Int
  | [] => 0
  | n :: rest => rest.foldl (fun a b => if b > a then b else a) n

/-- `ensureNextId`: bump `nextId` above every numeric tag id.
    `next = Number(state.nextId) || 0` is the zero-coalescing read. -/
def ensureNextId (tags : List (String × Option Tag)) (nextId : Int) : Int :=
  let numericIds := (jsKeys tags).filterMap jsStrToNumber
  let maxId := if numericIds.isEmpty then 0 else listMaxInt numericIds
  let next := if nextId = 0 then 0 else nextId
  if next > maxId then next else maxId + 1

/-- `addOrNormalizeStarredTag`: create the locked starred tag when absent
    (or null), otherwise re-pin all of its reserved fields. -/
def addOrNormalizeStarredTag (tags : List (String × Option Tag)) (now : Nat) :
    List (String × Option Tag) :=
  match jsGet tags STARRED_TAG_ID with
  | some (some fav) =>
    jsSet tags STARRED_TAG_ID (some
      { fav with
        id := STARRED_TAG_ID
        name := STARRED_TAG_NAME
        color := if fav.color = "" then "#ffc107" else fav.color
        locked := true
        createdAt := match fav.createdAt with | some c => some c | none => some now
        sortOrder := some 0 })
  | _ =>
    jsSet tags STARRED_TAG_ID (some
      { id := STARRED_TAG_ID
        name := STARRED_TAG_NAME
        color := "#ffc107"
        createdAt := some now
        updatedAt := none
        locked := true
        sortOrder := some 0 })

/-- `cleanOrphanedAssignments`: drop non-array assignment values, filter
    out tag ids that are not keys of the tag map, and delete entries that
    become empty. -/
def cleanOrphanedAssignments (tags : List (String × Option Tag))
    (assignments : List (String × Option (List String))) :
    List (String × List String) :=
  assignments.filterMap (fun kv =>
    match kv.2 with
    | none => none
    | some tagIds =>
      let valid := tagIds.filter (fun tid => jsHas tags tid)
      if valid.isEmpty then none else some (kv.1, valid))

section EnsureSortOrderSpec

variable (tags : List (String × Option Tag))

/-- Index a sortable key receives from the sorted array. -/
def assignIdx (k : String) : Option Nat :=
  (stableSort pairTagLe (sortableEntries tags)).findIdx? (fun e => e.1 = k)

theorem sortableEntries_keys_sublist :
    List.Sublist (jsKeys (sortableEntries tags)) (jsKeys tags) := by
  induction tags with
  | nil => simp [sortableEntries, jsKeys]
  | cons kv rest ih =>
    obtain ⟨k, v⟩ := kv
    match v with
    | none =>
      simp only [sortableEntries, List.filterMap_cons, jsKeys, List.map_cons]
      exact (ih.cons k :)
    | some t =>
      by_cases h : t.id ≠ STARRED_TAG_ID
      · simp only [sortableEntries, List.filterMap_cons, if_pos h, jsKeys, List.map_cons]
        exact (ih.cons₂ k :)
      · simp only [sortableEntries, List.filterMap_cons, if_neg h, jsKeys, List.map_cons]
        exact (ih.cons k :)

theorem mem_sortableEntries_iff (k : String) (t : Tag) :
    (k, t) ∈ sortableEntries tags ↔ (k, some t) ∈ tags ∧ t.id ≠ STARRED_TAG_ID := by
  simp only [sortableEntries, List.mem_filterMap]
  constructor
  · rintro ⟨⟨k', v⟩, hmem, hf⟩
    match v with
    | none => simp at hf
    | some u =>
      by_cases h : u.id ≠ STARRED_TAG_ID
      · simp only [if_pos h] at hf
        simp only [Option.some.injEq, Prod.mk.injEq] at hf
        obtain ⟨h1, h2⟩ := hf
        subst h1; subst h2
        exact ⟨hmem, h⟩
      · simp only [if_neg h] at hf
        simp at hf
  · rintro ⟨hmem, hid⟩
    exact ⟨(k, some t), hmem, by simp [hid]⟩

/-- `findIdx?` by key finds exactly the position of each entry when keys
    are distinct. -/
theorem findIdx?_key_aux {α : Type} (l : List (String × α)) (k : String) (v : α)
    (hnd : (l.map Prod.fst).Nodup) :
    ∀ (i : Nat) (hi : i < l.length), l.get ⟨i, hi⟩ = (k, v) →
      ∀ s, List.findIdx? (fun e => e.1 = k) l s = some (s + i) := by
  induction l with
  | nil => intro i hi; simp at hi
  | cons kv rest ih =>
    obtain ⟨k0, v0⟩ := kv
    intro i hi heq s
    match i with
    | 0 =>
      simp only [List.get] at heq
      obtain ⟨h1, _⟩ := Prod.mk.injEq .. ▸ heq
      subst h1
      simp [List.findIdx?]
    | j + 1 =>
      simp only [List.get] at heq
      have hnd2 : (k0 :: rest.map Prod.fst).Nodup := by simpa using hnd
      have hcons := List.nodup_cons.mp hnd2
      have hmem : k ∈ rest.map Prod.fst := by
        have hj : j < rest.length := by simpa using hi
        have h2 : (k, v) ∈ rest := by
          have h3 := rest.get_mem j hj
          rw [heq] at h3
          exact h3
        exact List.mem_map_of_mem Prod.fst h2
      have hne : k0 ≠ k := by
        intro he
        subst he
        exact hcons.1 hmem
      simp only [List.findIdx?]
      rw [if_neg (by simpa using hne)]
      have := ih hcons.2 j (by simpa using hi) heq (s + 1)
      rw [this]
      congr 1
      omega

theorem jsGet_map_keypres {α β : Type} (f : (String × α) → (String × β))
    (hf : ∀ kv, (f kv).1 = kv.1) (l : List (String × α)) (k : String) :
    jsGet (l.map f) k = (jsGet l k).map (fun v => (f (k, v)).2) := by
  induction l with
  | nil => simp [jsGet]
  | cons kv rest ih =>
    obtain ⟨k0, v0⟩ := kv
    simp only [List.map_cons]
    rcases hfe : f (k0, v0) with ⟨k1, w⟩
    have hk1 : k1 = k0 := by
      have := hf (k0, v0)
      rw [hfe] at this
      exact this
    subst hk1
    by_cases h : k1 = k
    · subst h
      simp [jsGet, hfe]
    · simp only [jsGet, if_neg h, ih]

theorem jsKeys_map_keypres {α β : Type} (f : (String × α) → (String × β))
    (hf : ∀ kv, (f kv).1 = kv.1) (l : List (String × α)) :
    jsKeys (l.map f) = jsKeys l := by
  simp only [jsKeys, List.map_map]
  congr 1
  funext kv
  exact hf kv

theorem assignSortOrder_key (sorted : List (String × Tag)) (kv : String × Option Tag) :
    (assignSortOrder sorted kv).1 = kv.1 := by
  obtain ⟨k, v⟩ := kv
  match v with
  | none => rfl
  | some t =>
    by_cases h : t.id ≠ STARRED_TAG_ID
    · simp only [assignSortOrder, if_pos h]
      rcases h2 : sorted.findIdx? (fun e => e.1 = k) with _ | i <;> simp [h2]
    · simp [assignSortOrder, if_neg h]

/-- The sorted array `ensureSortOrder` assigns positions from. -/
def sortedSortable : List (String × Tag) :=
  stableSort pairTagLe (sortableEntries tags)

theorem pairTagLe_trans : ∀ a b c, pairTagLe a b → pairTagLe b c → pairTagLe a c :=
  fun a b c h₁ h₂ => tagLe_trans a.2 b.2 c.2 h₁ h₂

theorem pairTagLe_total : ∀ a b, pairTagLe a b || pairTagLe b a :=
  fun a b => tagLe_total a.2 b.2

theorem sortedSortable_perm : List.Perm (sortedSortable tags) (sortableEntries tags) :=
  stableSort_perm pairTagLe (sortableEntries tags)

theorem sortedSortable_pairwise :
    (sortedSortable tags).Pairwise (fun x y => pairTagLe x y) :=
  stableSort_pairwise pairTagLe pairTagLe_trans pairTagLe_total (sortableEntries tags)

theorem sortableEntries_keys_nodup (hnd : (jsKeys tags).Nodup) :
    (jsKeys (sortableEntries tags)).Nodup :=
  (sortableEntries_keys_sublist tags).nodup hnd

theorem sortedSortable_keys_nodup (hnd : (jsKeys tags).Nodup) :
    ((sortedSortable tags).map Prod.fst).Nodup := by
  have hperm : List.Perm ((sortedSortable tags).map Prod.fst)
      ((sortableEntries tags).map Prod.fst) := (sortedSortable_perm tags).map Prod.fst
  exact hperm.nodup_iff.mpr (sortableEntries_keys_nodup tags hnd)

theorem assignIdx_get (hnd : (jsKeys tags).Nodup) (i : Nat)
    (hi : i < (sortedSortable tags).length) :
    assignIdx tags ((sortedSortable tags).get ⟨i, hi⟩).1 = some i := by
  have h := findIdx?_key_aux (sortedSortable tags)
    ((sortedSortable tags).get ⟨i, hi⟩).1 ((sortedSortable tags).get ⟨i, hi⟩).2
    (sortedSortable_keys_nodup tags hnd) i hi rfl 0
  simpa [assignIdx, sortedSortable] using h

theorem assignIdx_of_mem (hnd : (jsKeys tags).Nodup) (k : String) (t : Tag)
    (hmem : (k, t) ∈ sortableEntries tags) :
    ∃ (i : Nat) (hi : i < (sortedSortable tags).length),
      (sortedSortable tags).get ⟨i, hi⟩ = (k, t) ∧ assignIdx tags k = some i := by
  have hmem2 : (k, t) ∈ sortedSortable tags := (sortedSortable_perm tags).mem_iff.mpr hmem
  obtain ⟨⟨i, hi⟩, hget⟩ := List.mem_iff_get.mp hmem2
  refine ⟨i, hi, hget, ?_⟩
  have := assignIdx_get tags hnd i hi
  rw [hget] at this
  exact this

/-- Per-entry image of `ensureSortOrder` on the sortable entries. -/
def assignEntry (sorted : List (String × Tag)) (e : String × Tag) : String × Tag :=
  match sorted.findIdx? (fun x => x.1 = e.1) with
  | some i => (e.1, { e.2 with sortOrder := some ((i : Int) + 1) })
  | none => e

theorem sortableEntries_map_assign (sorted : List (String × Tag)) :
    ∀ (l : List (String × Option Tag)),
      sortableEntries (l.map (assignSortOrder sorted)) =
        (sortableEntries l).map (assignEntry sorted) := by
  intro l
  induction l with
  | nil => simp [sortableEntries]
  | cons kv rest ih =>
    obtain ⟨k, v⟩ := kv
    match v with
    | none =>
      simp only [List.map_cons, assignSortOrder, sortableEntries, List.filterMap_cons] at *
      exact ih
    | some t =>
      by_cases h : t.id ≠ STARRED_TAG_ID
      · rcases hf : sorted.findIdx? (fun x => x.1 = k) with _ | i
        · have ha : assignSortOrder sorted (k, some t) = (k, some t) := by
            simp [assignSortOrder, if_pos h, hf]
          have hg : assignEntry sorted (k, t) = (k, t) := by
            simp [assignEntry, hf]
          simp only [List.map_cons, ha, sortableEntries, List.filterMap_cons, if_pos h,
            List.map_cons, hg] at *
          rw [ih]
        · have ha : assignSortOrder sorted (k, some t) =
              (k, some { t with sortOrder := some ((i : Int) + 1) }) := by
            simp [assignSortOrder, if_pos h, hf]
          have hg : assignEntry sorted (k, t) =
              (k, { t with sortOrder := some ((i : Int) + 1) }) := by
            simp [assignEntry, hf]
          have hid : ({ t with sortOrder := some ((i : Int) + 1) } : Tag).id
              ≠ STARRED_TAG_ID := h
          simp only [List.map_cons, ha, sortableEntries, List.filterMap_cons, if_pos h,
            if_pos hid, List.map_cons, hg] at *
          rw [ih]
      · have ha : assignSortOrder sorted (k, some t) = (k, some t) := by
          simp [assignSortOrder, if_neg h]
        simp only [List.map_cons, ha, sortableEntries, List.filterMap_cons, if_neg h] at *
        exact ih

/-- Overwriting the starred-key slot with a starred-id tag does not change
    the sortable entries (the old value there, when non-null, must also
    have carried the starred id). -/
theorem sortableEntries_jsSet_starredval (t' : Tag) (ht' : t'.id = STARRED_TAG_ID) :
    ∀ (m : List (String × Option Tag)),
      (∀ t, jsGet m STARRED_TAG_ID = some (some t) → t.id = STARRED_TAG_ID) →
      sortableEntries (jsSet m STARRED_TAG_ID (some t')) = sortableEntries m := by
  intro m
  induction m with
  | nil =>
    intro _
    simp [jsSet, sortableEntries, ht']
  | cons kv rest ih =>
    obtain ⟨k0, v0⟩ := kv
    intro hm
    by_cases h : k0 = STARRED_TAG_ID
    · subst h
      simp only [jsSet, if_pos rfl]
      match v0 with
      | none =>
        simp [sortableEntries, List.filterMap_cons, ht']
      | some tOld =>
        have hid : tOld.id = STARRED_TAG_ID := by
          apply hm
          simp [jsGet]
        simp [sortableEntries, List.filterMap_cons, ht', hid]
    · simp only [jsSet, if_neg h]
      have hrest : ∀ t, jsGet rest STARRED_TAG_ID = some (some t) →
          t.id = STARRED_TAG_ID := by
        intro t ht
        apply hm
        simpa [jsGet, h] using ht
      match v0 with
      | none =>
        simp only [sortableEntries, List.filterMap_cons]
        exact ih hrest
      | some t0 =>
        by_cases h0 : t0.id ≠ STARRED_TAG_ID
        · simp only [sortableEntries, List.filterMap_cons, if_pos h0]
          exact congrArg (List.cons (k0, t0)) (ih hrest)
        · simp only [sortableEntries, List.filterMap_cons, if_neg h0]
          exact ih hrest

/-- The entry stored under the starred key, when non-null, really is the
    starred tag.  Holds after `addOrNormalizeStarredTag`, and for every
    document this module ever persists. -/
def FavOk (tags : List (String × Option Tag)) : Prop :=
  ∀ t, jsGet tags STARRED_TAG_ID = some (some t) → t.id = STARRED_TAG_ID

theorem jsGet_assigned (k : String) :
    jsGet (tags.map (assignSortOrder (sortedSortable tags))) k =
      (jsGet tags k).map (fun v => (assignSortOrder (sortedSortable tags) (k, v)).2) :=
  jsGet_map_keypres _ (assignSortOrder_key _) tags k

theorem jsGet_assigned_fav (hfav : FavOk tags) (fav : Tag)
    (h : jsGet tags STARRED_TAG_ID = some (some fav)) :
    jsGet (tags.map (assignSortOrder (sortedSortable tags))) STARRED_TAG_ID
      = some (some fav) := by
  rw [jsGet_assigned, h]
  have hid : fav.id = STARRED_TAG_ID := hfav fav h
  simp [assignSortOrder, hid]

theorem ensureSortOrder_eq_match :
    ensureSortOrder tags =
      match jsGet (tags.map (assignSortOrder (sortedSortable tags))) STARRED_TAG_ID with
      | some (some fav) =>
        jsSet (tags.map (assignSortOrder (sortedSortable tags))) STARRED_TAG_ID
          (some { fav with sortOrder := some 0 })
      | _ => tags.map (assignSortOrder (sortedSortable tags)) := rfl

theorem ensureSortOrder_get_ne (hfav : FavOk tags) (k : String)
    (hk : k ≠ STARRED_TAG_ID) :
    jsGet (ensureSortOrder tags) k =
      jsGet (tags.map (assignSortOrder (sortedSortable tags))) k := by
  rw [ensureSortOrder_eq_match tags]
  rcases hb : jsGet (tags.map (assignSortOrder (sortedSortable tags))) STARRED_TAG_ID
    with _ | v
  · rfl
  · match v with
    | none => rfl
    | some fav => exact jsGet_set_ne _ _ _ _ (fun he => hk he.symm)

theorem ensureSortOrder_get_fav (hfav : FavOk tags) (fav : Tag)
    (h : jsGet tags STARRED_TAG_ID = some (some fav)) :
    jsGet (ensureSortOrder tags) STARRED_TAG_ID
      = some (some { fav with sortOrder := some 0 }) := by
  rw [ensureSortOrder_eq_match tags, jsGet_assigned_fav tags hfav fav h]
  exact jsGet_set_self _ _ _

theorem ensureSortOrder_get_sortable (hnd : (jsKeys tags).Nodup) (hfav : FavOk tags)
    (k : String) (t : Tag) (hget : jsGet tags k = some (some t))
    (hid : t.id ≠ STARRED_TAG_ID) :
    ∃ i, assignIdx tags k = some i ∧
      jsGet (ensureSortOrder tags) k
        = some (some { t with sortOrder := some ((i : Int) + 1) }) := by
  have hkne : k ≠ STARRED_TAG_ID := by
    intro he
    subst he
    exact hid (hfav t hget)
  have hmem : (k, t) ∈ sortableEntries tags :=
    (mem_sortableEntries_iff tags k t).mpr ⟨mem_of_jsGet_eq_some tags k (some t) hget, hid⟩
  obtain ⟨i, hi, hgeti, hidx⟩ := assignIdx_of_mem tags hnd k t hmem
  refine ⟨i, hidx, ?_⟩
  rw [ensureSortOrder_get_ne tags hfav k hkne, jsGet_assigned, hget]
  simp only [Option.map_some']
  have hfind : (sortedSortable tags).findIdx? (fun e => e.1 = k) = some i := hidx
  simp [assignSortOrder, hid, hfind]

theorem ensureSortOrder_keys (hfav : FavOk tags) :
    jsKeys (ensureSortOrder tags) = jsKeys tags := by
  rw [ensureSortOrder_eq_match tags]
  rcases hb : jsGet (tags.map (assignSortOrder (sortedSortable tags))) STARRED_TAG_ID
    with _ | v
  · exact jsKeys_map_keypres _ (assignSortOrder_key _) tags
  · match v with
    | none => exact jsKeys_map_keypres _ (assignSortOrder_key _) tags
    | some fav =>
      rw [jsKeys_set]
      have hhas : jsHas (tags.map (assignSortOrder (sortedSortable tags)))
          STARRED_TAG_ID := by
        simp [jsHas, hb]
      rw [if_pos hhas]
      exact jsKeys_map_keypres _ (assignSortOrder_key _) tags

theorem ensureSortOrder_sortable (hfav : FavOk tags) :
    sortableEntries (ensureSortOrder tags) =
      (sortableEntries tags).map (assignEntry (sortedSortable tags)) := by
  rw [ensureSortOrder_eq_match tags]
  have hassigned : sortableEntries (tags.map (assignSortOrder (sortedSortable tags)))
      = (sortableEntries tags).map (assignEntry (sortedSortable tags)) :=
    sortableEntries_map_assign (sortedSortable tags) tags
  rcases hb : jsGet (tags.map (assignSortOrder (sortedSortable tags))) STARRED_TAG_ID
    with _ | v
  · exact hassigned
  · match v with
    | none => exact hassigned
    | some fav =>
      have hfavid : fav.id = STARRED_TAG_ID := by
        rw [jsGet_assigned] at hb
        rcases hv : jsGet tags STARRED_TAG_ID with _ | v0
        · rw [hv] at hb
          simp at hb
        · rw [hv] at hb
          match v0 with
          | none => simp [assignSortOrder] at hb
          | some f0 =>
            have hid0 : f0.id = STARRED_TAG_ID := hfav f0 hv
            simp only [Option.map_some', assignSortOrder, hid0] at hb
            simp at hb
            rw [← hb]
            exact hid0
      have hmfn : ∀ t, jsGet (tags.map (assignSortOrder (sortedSortable tags)))
          STARRED_TAG_ID = some (some t) → t.id = STARRED_TAG_ID := by
        intro t ht
        rw [hb] at ht
        simp only [Option.some.injEq] at ht
        rw [← ht]
        exact hfavid
      show sortableEntries (jsSet (tags.map (assignSortOrder (sortedSortable tags)))
        STARRED_TAG_ID (some { fav with sortOrder := some 0 })) = _
      rw [sortableEntries_jsSet_starredval { fav with sortOrder := some 0 }
        hfavid _ hmfn]
      exact hassigned

/-- After `ensureSortOrder`, the multiset of non-starred sort orders is
    exactly `{1, …, N}`. -/
theorem ensureSortOrder_orders_perm (hnd : (jsKeys tags).Nodup) (hfav : FavOk tags) :
    List.Perm ((sortableEntries (ensureSortOrder tags)).map (fun e => e.2.sortOrder))
      ((List.range (sortableEntries tags).length).map
        (fun i : Nat => some ((i : Int) + 1))) := by
  rw [ensureSortOrder_sortable tags hfav, List.map_map]
  have h2 : ∀ e ∈ sortableEntries tags,
      ((fun e => e.2.sortOrder) ∘ assignEntry (sortedSortable tags)) e =
        (fun e : String × Tag =>
          some ((((assignIdx tags e.1).getD 0 : Nat) : Int) + 1)) e := by
    rintro ⟨k, t⟩ hmem
    obtain ⟨i, hi, hgeti, hidx⟩ := assignIdx_of_mem tags hnd k t hmem
    have hfind : (sortedSortable tags).findIdx? (fun e => e.1 = k) = some i := hidx
    simp [assignEntry, hfind, hidx]
  rw [List.map_congr_left h2]
  have h3 : List.Perm
      ((sortableEntries tags).map (fun e : String × Tag =>
        some ((((assignIdx tags e.1).getD 0 : Nat) : Int) + 1)))
      ((sortedSortable tags).map (fun e : String × Tag =>
        some ((((assignIdx tags e.1).getD 0 : Nat) : Int) + 1))) :=
    ((sortedSortable_perm tags).map (fun e : String × Tag =>
        some ((((assignIdx tags e.1).getD 0 : Nat) : Int) + 1))).symm
  refine h3.trans ?_
  have h4 : (sortedSortable tags).map (fun e : String × Tag =>
      some ((((assignIdx tags e.1).getD 0 : Nat) : Int) + 1)) =
      (List.range (sortableEntries tags).length).map
        (fun i : Nat => some ((i : Int) + 1)) := by
    have hlen : (sortedSortable tags).length = (sortableEntries tags).length :=
      (sortedSortable_perm tags).length_eq
    apply List.ext_get
    · simp only [List.length_map, List.length_range, hlen]
    · intro i h1l h2l
      simp only [List.get_map]
      rw [assignIdx_get tags hnd i (by simpa using h1l)]
      simp [List.get_range]
  rw [h4]

end EnsureSortOrderSpec

/-! ### Spec lemmas for the remaining pipeline stages -/

/-- Lower-cased tag names present in a tag map (null values skipped). -/
def tagNamesLower : List (String × Option Tag) → List String
  | [] => []
  | (_, none) :: rest => tagNamesLower rest
  | (_, some t) :: rest => jsToLower t.name :: tagNamesLower rest

/-- The sort orders of the sortable entries, in map order. -/
def sortableOrders (tags : List (String × Option Tag)) : List (Option Int) :=
  (sortableEntries tags).map (fun e => e.2.sortOrder)

theorem foldMaxInt_ge_init (l : List Int) (a : Int) :
    a ≤ l.foldl (fun x b => if b > x then b else x) a := by
  induction l generalizing a with
  | nil => simp
  | cons b rest ih =>
    simp only [List.foldl_cons]
    by_cases h : b > a
    · simp only [if_pos h]
      exact le_trans (le_of_lt h) (ih b)
    · simp only [if_neg h]
      exact ih a

theorem foldMaxInt_ge_mem (l : List Int) (a x : Int) (hx : x ∈ l) :
    x ≤ l.foldl (fun x b => if b > x then b else x) a := by
  induction l generalizing a with
  | nil => simp at hx
  | cons b rest ih =>
    simp only [List.foldl_cons]
    rcases List.mem_cons.mp hx with h | h
    · subst h
      by_cases h2 : x > a
      · simp only [if_pos h2]
        exact foldMaxInt_ge_init rest x
      · simp only [if_neg h2]
        exact le_trans (by omega) (foldMaxInt_ge_init rest a)
    · exact ih _ h

theorem foldMaxInt_mem (l : List Int) (a : Int) :
    l.foldl (fun y b => if b > y then b else y) a ∈ a :: l := by
  induction l generalizing a with
  | nil => simp
  | cons b rest ih =>
    simp only [List.foldl_cons]
    by_cases hb : b > a
    · simp only [if_pos hb]
      rcases List.mem_cons.mp (ih b) with h | h
      · simp [h]
      · simp [List.mem_cons, h]
    · simp only [if_neg hb]
      rcases List.mem_cons.mp (ih a) with h | h
      · simp [h]
      · simp [List.mem_cons, h]

theorem listMaxInt_mem_cons (x : Int) (rest : List Int) :
    listMaxInt (x :: rest) ∈ x :: rest :=
  foldMaxInt_mem rest x

theorem listMaxInt_ge_mem (l : List Int) (x : Int) (hx : x ∈ l) : x ≤ listMaxInt l := by
  match l with
  | [] => simp at hx
  | b :: rest =>
    rcases List.mem_cons.mp hx with h | h
    · subst h
      exact foldMaxInt_ge_init rest x
    · exact foldMaxInt_ge_mem rest b x h

/-- Every numeric key is strictly below the repaired `nextId`. -/
theorem ensureNextId_gt (tags : List (String × Option Tag)) (nextId : Int)
    (k : String) (hk : k ∈ jsKeys tags) (m : Int) (hm : jsStrToNumber k = some m) :
    m < ensureNextId tags nextId := by
  unfold ensureNextId
  have hmem : m ∈ (jsKeys tags).filterMap jsStrToNumber :=
    List.mem_filterMap.mpr ⟨k, hk, hm⟩
  have hne : ¬ ((jsKeys tags).filterMap jsStrToNumber).isEmpty := by
    intro hemp
    rcases he : (jsKeys tags).filterMap jsStrToNumber with _ | ⟨x, rest⟩
    · rw [he] at hmem
      simp at hmem
    · rw [he] at hemp
      simp at hemp
  simp only [if_neg hne]
  have hle : m ≤ listMaxInt ((jsKeys tags).filterMap jsStrToNumber) :=
    listMaxInt_ge_mem _ m hmem
  by_cases h : (if nextId = 0 then 0 else nextId) > listMaxInt ((jsKeys tags).filterMap jsStrToNumber)
  · simp only [if_pos h]
    omega
  · simp only [if_neg h]
    omega

theorem ensureNextId_ge (tags : List (String × Option Tag)) (nextId : Int)
    (h : 1 ≤ nextId) : nextId ≤ ensureNextId tags nextId ∧ 1 ≤ ensureNextId tags nextId := by
  unfold ensureNextId
  have hz : ¬ (nextId = 0) := by omega
  simp only [if_neg hz]
  by_cases h2 : nextId > (if ((jsKeys tags).filterMap jsStrToNumber).isEmpty then 0
      else listMaxInt ((jsKeys tags).filterMap jsStrToNumber))
  · simp only [if_pos h2]
    omega
  · simp only [if_neg h2]
    constructor <;> omega

/-- When `nextId` already dominates every numeric key, `ensureNextId`
    keeps it. -/
theorem ensureNextId_fixpoint (tags : List (String × Option Tag)) (nextId : Int)
    (h1 : 1 ≤ nextId)
    (h2 : ∀ k ∈ jsKeys tags, ∀ m, jsStrToNumber k = some m → m < nextId) :
    ensureNextId tags nextId = nextId := by
  unfold ensureNextId
  have hz : ¬ (nextId = 0) := by omega
  simp only [if_neg hz]
  have hmaxlt : nextId > (if ((jsKeys tags).filterMap jsStrToNumber).isEmpty then 0
      else listMaxInt ((jsKeys tags).filterMap jsStrToNumber)) := by
    by_cases hemp : ((jsKeys tags).filterMap jsStrToNumber).isEmpty
    · rw [if_pos hemp]
      omega
    · rw [if_neg hemp]
      have hmem : listMaxInt ((jsKeys tags).filterMap jsStrToNumber)
          ∈ (jsKeys tags).filterMap jsStrToNumber := by
        rcases he : (jsKeys tags).filterMap jsStrToNumber with _ | ⟨x, rest⟩
        · simp [he] at hemp
        · exact listMaxInt_mem_cons x rest
      rcases List.mem_filterMap.mp hmem with ⟨k, hk, hparse⟩
      exact h2 k hk _ hparse
  rw [if_pos hmaxlt]

theorem addOrNormalizeStarredTag_get_fav (tags : List (String × Option Tag)) (now : Nat) :
    ∃ f, jsGet (addOrNormalizeStarredTag tags now) STARRED_TAG_ID = some (some f) ∧
      f.id = STARRED_TAG_ID ∧ f.name = STARRED_TAG_NAME ∧ f.locked = true ∧
      f.color ≠ "" ∧ (∃ c, f.createdAt = some c) ∧ f.sortOrder = some 0 := by
  unfold addOrNormalizeStarredTag
  rcases hv : jsGet tags STARRED_TAG_ID with _ | v
  · refine ⟨_, jsGet_set_self _ _ _, rfl, rfl, rfl, by simp [STARRED_TAG_NAME], ⟨now, rfl⟩, rfl⟩
  · match v with
    | none =>
      refine ⟨_, jsGet_set_self _ _ _, rfl, rfl, rfl, by simp [STARRED_TAG_NAME], ⟨now, rfl⟩, rfl⟩
    | some fav =>
      refine ⟨_, jsGet_set_self _ _ _, rfl, rfl, rfl, ?_, ?_, rfl⟩
      · by_cases hc : fav.color = "" <;> simp [hc]
      · rcases hcr : fav.createdAt with _ | c
        · exact ⟨now, by simp [hcr]⟩
        · exact ⟨c, by simp [hcr]⟩

theorem addOrNormalizeStarredTag_get_ne (tags : List (String × Option Tag)) (now : Nat)
    (k : String) (hk : k ≠ STARRED_TAG_ID) :
    jsGet (addOrNormalizeStarredTag tags now) k = jsGet tags k := by
  unfold addOrNormalizeStarredTag
  rcases hv : jsGet tags STARRED_TAG_ID with _ | v
  · exact jsGet_set_ne _ _ _ _ (fun he => hk he.symm)
  · match v with
    | none => exact jsGet_set_ne _ _ _ _ (fun he => hk he.symm)
    | some fav => exact jsGet_set_ne _ _ _ _ (fun he => hk he.symm)

theorem addOrNormalizeStarredTag_keys (tags : List (String × Option Tag)) (now : Nat) :
    jsKeys (addOrNormalizeStarredTag tags now) =
      if jsHas tags STARRED_TAG_ID then jsKeys tags else jsKeys tags ++ [STARRED_TAG_ID] := by
  unfold addOrNormalizeStarredTag
  rcases hv : jsGet tags STARRED_TAG_ID with _ | v
  · rw [jsKeys_set]
  · match v with
    | none => rw [jsKeys_set]
    | some fav => rw [jsKeys_set]

/-- On an already-normalized starred entry the repair is the identity. -/
theorem addOrNormalizeStarredTag_fixpoint (tags : List (String × Option Tag)) (now : Nat)
    (fav : Tag) (h : jsGet tags STARRED_TAG_ID = some (some fav))
    (hid : fav.id = STARRED_TAG_ID) (hname : fav.name = STARRED_TAG_NAME)
    (hlocked : fav.locked = true) (hcolor : fav.color ≠ "")
    (hcreated : ∃ c, fav.createdAt = some c) (horder : fav.sortOrder = some 0) :
    addOrNormalizeStarredTag tags now = tags := by
  unfold addOrNormalizeStarredTag
  rw [h]
  obtain ⟨c, hc⟩ := hcreated
  have heq : ({ fav with
      id := STARRED_TAG_ID
      name := STARRED_TAG_NAME
      color := if fav.color = "" then "#ffc107" else fav.color
      locked := true
      createdAt := match fav.createdAt with | some c => some c | none => some now
      sortOrder := some 0 } : Tag) = fav := by
    have h1 : (if fav.color = "" then "#ffc107" else fav.color) = fav.color := by
      simp [hcolor]
    have h2 : (match fav.createdAt with | some c => some c | none => some now)
        = fav.createdAt := by rw [hc]
    rw [h1, h2, ← hid, ← hname, ← hlocked, ← horder]
  show jsSet tags STARRED_TAG_ID (some
      { fav with
        id := STARRED_TAG_ID
        name := STARRED_TAG_NAME
        color := if fav.color = "" then "#ffc107" else fav.color
        locked := true
        createdAt := match fav.createdAt with | some c => some c | none => some now
        sortOrder := some 0 }) = tags
  rw [heq]
  exact jsSet_eq_self_of_jsGet tags STARRED_TAG_ID (some fav) h

theorem tagNamesLower_map_assign (sorted : List (String × Tag)) :
    ∀ (l : List (String × Option Tag)),
      tagNamesLower (l.map (assignSortOrder sorted)) = tagNamesLower l := by
  intro l
  induction l with
  | nil => simp [tagNamesLower]
  | cons kv rest ih =>
    obtain ⟨k, v⟩ := kv
    match v with
    | none => simpa [tagNamesLower, assignSortOrder] using ih
    | some t =>
      by_cases h : t.id ≠ STARRED_TAG_ID
      · rcases hf : sorted.findIdx? (fun x => x.1 = k) with _ | i
        · have ha : assignSortOrder sorted (k, some t) = (k, some t) := by
            simp [assignSortOrder, if_pos h, hf]
          simp only [List.map_cons, ha, tagNamesLower]
          rw [ih]
        · have ha : assignSortOrder sorted (k, some t) =
              (k, some { t with sortOrder := some ((i : Int) + 1) }) := by
            simp [assignSortOrder, if_pos h, hf]
          simp only [List.map_cons, ha, tagNamesLower]
          rw [ih]
      · have ha : assignSortOrder sorted (k, some t) = (k, some t) := by
          simp [assignSortOrder, if_neg h]
        simp only [List.map_cons, ha, tagNamesLower]
        rw [ih]

theorem tagNamesLower_jsSet_samename :
    ∀ (m : List (String × Option Tag)) (k : String) (t t' : Tag),
      jsGet m k = some (some t) → t'.name = t.name →
      tagNamesLower (jsSet m k (some t')) = tagNamesLower m := by
  intro m
  induction m with
  | nil => intro k t t' h; simp [jsGet] at h
  | cons kv rest ih =>
    obtain ⟨k0, v0⟩ := kv
    intro k t t' hget hname
    by_cases h : k0 = k
    · subst h
      simp [jsGet] at hget
      have hset : jsSet ((k0, v0) :: rest) k0 (some t') = (k0, some t') :: rest := by
        simp [jsSet]
      rw [hset, hget]
      simp [tagNamesLower, hname]
    · simp only [jsGet, if_neg h] at hget
      simp only [jsSet, if_neg h]
      match v0 with
      | none =>
        simp only [tagNamesLower]
        exact ih k t t' hget hname
      | some t0 =>
        simp only [tagNamesLower]
        rw [ih k t t' hget hname]

/-- `ensureSortOrder` does not change the (lower-cased) name list. -/
theorem tagNamesLower_ensureSortOrder (tags : List (String × Option Tag))
    (hfav : FavOk tags) :
    tagNamesLower (ensureSortOrder tags) = tagNamesLower tags := by
  rw [ensureSortOrder_eq_match tags]
  rcases hb : jsGet (tags.map (assignSortOrder (sortedSortable tags))) STARRED_TAG_ID
    with _ | v
  · exact tagNamesLower_map_assign _ tags
  · match v with
    | none => exact tagNamesLower_map_assign _ tags
    | some fav =>
      show tagNamesLower (jsSet (tags.map (assignSortOrder (sortedSortable tags)))
        STARRED_TAG_ID (some { fav with sortOrder := some 0 })) = tagNamesLower tags
      rw [tagNamesLower_jsSet_samename _ STARRED_TAG_ID fav
        { fav with sortOrder := some 0 } hb rfl]
      exact tagNamesLower_map_assign _ tags

theorem cleanOrphanedAssignments_mem (tags : List (String × Option Tag))
    (assignments : List (String × Option (List String))) (k : String) (l : List String)
    (h : (k, l) ∈ cleanOrphanedAssignments tags assignments) :
    l ≠ [] ∧ ∀ tid ∈ l, jsHas tags tid := by
  rcases List.mem_filterMap.mp h with ⟨⟨k0, v0⟩, hmem, hf⟩
  match v0 with
  | none => simp at hf
  | some tagIds =>
    by_cases hemp : (tagIds.filter (fun tid => jsHas tags tid)).isEmpty
    · simp [hemp] at hf
    · simp only [if_neg hemp] at hf
      simp only [Option.some.injEq, Prod.mk.injEq] at hf
      obtain ⟨h1, h2⟩ := hf
      subst h1
      constructor
      · intro he
        rw [← h2] at he
        rw [he] at hemp
        simp at hemp
      · intro tid htid
        rw [← h2] at htid
        exact (List.mem_filter.mp htid).2

/-- `normalizeTagState` (tagState.js lines 183–200).  A `none` input
    models a null/non-object stored value: the source returns the bare
    default immediately, without running the starred-tag pipeline.  `now`
    is the clock read by `new Date().toISOString()`. -/
def normalizeTagState (state : Option TagDocIn) (now : Nat) : TagState :=
  match state with
  | none => { tags := [], assignments := [], nextId := 1 }
  | some d =>
    let nextId0 : Int := match d.nextId with
      | some n => if n = 0 then 1 else n
      | none => 1
    let tags1 := addOrNormalizeStarredTag d.tags now
    let nextId2 := ensureNextId tags1 nextId0
    let tags3 := ensureSortOrder tags1
    let assignments4 := cleanOrphanedAssignments tags3 d.assignments
    { tags := tags3, assignments := assignments4, nextId := nextId2 }

/-! ## Document invariant

`StateInv` is the invariant of every tag document this module persists.
Density of the non-starred sort orders is deliberately *not* part of it:
`removeTag` persists without re-running `ensureSortOrder`, so deletion can
leave gaps; `DenseOrders` holds again after the next load's
normalization. -/

structure StateInv (s : TagState) : Prop where
  keysNodup : (jsKeys s.tags).Nodup
  fav : ∃ f, jsGet s.tags STARRED_TAG_ID = some (some f) ∧ f.id = STARRED_TAG_ID ∧
    f.name = STARRED_TAG_NAME ∧ f.locked = true ∧ f.color ≠ "" ∧
    (∃ c, f.createdAt = some c) ∧ f.sortOrder = some 0
  vals : ∀ k ∈ jsKeys s.tags, ∃ t, jsGet s.tags k = some (some t) ∧ t.id = k
  names : (tagNamesLower s.tags).Nodup
  orders : ∀ o ∈ sortableOrders s.tags, ∃ m, o = some m ∧ 1 ≤ m
  ordersNodup : (sortableOrders s.tags).Nodup
  nextIdPos : 1 ≤ s.nextId
  nextIdGt : ∀ k ∈ jsKeys s.tags, ∀ m, jsStrToNumber k = some m → m < s.nextId

/-- Non-starred sort orders form exactly the dense range 1..N. -/
def DenseOrders (s : TagState) : Prop :=
  List.Perm (sortableOrders s.tags)
    ((List.range (sortableOrders s.tags).length).map (fun i : Nat => some ((i : Int) + 1)))

theorem StateInv.favOk {s : TagState} (h : StateInv s) : FavOk s.tags := by
  intro t ht
  obtain ⟨f, hf, hid, _⟩ := h.fav
  rw [hf] at ht
  simp only [Option.some.injEq] at ht
  rw [← ht]
  exact hid

/-- On a persisted document the starred-tag and id-counter repairs are
    no-ops, so normalization is exactly an `ensureSortOrder` plus an
    assignment re-clean. -/
theorem normalize_toInput (s : TagState) (hinv : StateInv s) (now : Nat) :
    normalizeTagState (some s.toInput) now =
      { tags := ensureSortOrder s.tags,
        assignments := cleanOrphanedAssignments (ensureSortOrder s.tags)
          (s.assignments.map (fun kv => (kv.1, some kv.2))),
        nextId := s.nextId } := by
  have hz : ¬ (s.nextId = 0) := by
    have := hinv.nextIdPos
    omega
  obtain ⟨f, hf, hid, hname, hlk, hcol, hcr, hord⟩ := hinv.fav
  have hfix : addOrNormalizeStarredTag s.tags now = s.tags :=
    addOrNormalizeStarredTag_fixpoint s.tags now f hf hid hname hlk hcol hcr hord
  have hbase : normalizeTagState (some s.toInput) now =
      { tags := ensureSortOrder (addOrNormalizeStarredTag s.tags now),
        assignments := cleanOrphanedAssignments
          (ensureSortOrder (addOrNormalizeStarredTag s.tags now))
          (s.assignments.map (fun kv => (kv.1, some kv.2))),
        nextId := ensureNextId (addOrNormalizeStarredTag s.tags now)
          (if s.nextId = 0 then 1 else s.nextId) } := rfl
  rw [hbase, hfix]
  have hnext : ensureNextId s.tags (if s.nextId = 0 then 1 else s.nextId) = s.nextId := by
    rw [if_neg hz]
    exact ensureNextId_fixpoint s.tags s.nextId hinv.nextIdPos hinv.nextIdGt
  rw [hnext]

/-- Re-pinning an already-zero sort order is the identity. -/
theorem tag_update_sortOrder_self (t : Tag) (o : Option Int) (h : t.sortOrder = o) :
    ({ t with sortOrder := o } : Tag) = t := by
  rw [← h]

theorem normalize_toInput_keys (s : TagState) (hinv : StateInv s) (now : Nat) :
    jsKeys (normalizeTagState (some s.toInput) now).tags = jsKeys s.tags := by
  rw [normalize_toInput s hinv now]
  exact ensureSortOrder_keys s.tags hinv.favOk

theorem normalize_toInput_names (s : TagState) (hinv : StateInv s) (now : Nat) :
    tagNamesLower (normalizeTagState (some s.toInput) now).tags = tagNamesLower s.tags := by
  rw [normalize_toInput s hinv now]
  exact tagNamesLower_ensureSortOrder s.tags hinv.favOk

theorem normalize_toInput_dense (s : TagState) (hinv : StateInv s) (now : Nat) :
    DenseOrders (normalizeTagState (some s.toInput) now) := by
  rw [normalize_toInput s hinv now]
  show DenseOrders ⟨ensureSortOrder s.tags, _, s.nextId⟩
  unfold DenseOrders
  have hperm := ensureSortOrder_orders_perm s.tags hinv.keysNodup hinv.favOk
  have hlen : (sortableOrders (ensureSortOrder s.tags)).length
      = (sortableEntries s.tags).length := by
    unfold sortableOrders
    rw [ensureSortOrder_sortable s.tags hinv.favOk]
    simp
  rw [show (⟨ensureSortOrder s.tags, _, s.nextId⟩ : TagState).tags
    = ensureSortOrder s.tags from rfl]
  rw [hlen]
  exact hperm

theorem dense_orders_pos {s : TagState} (hd : DenseOrders s) :
    ∀ o ∈ sortableOrders s.tags, ∃ m, o = some m ∧ 1 ≤ m := by
  intro o ho
  have := hd.mem_iff.mp ho
  rcases List.mem_map.mp this with ⟨i, _, hi⟩
  exact ⟨(i : Int) + 1, hi.symm, by omega⟩

theorem dense_orders_nodup {s : TagState} (hd : DenseOrders s) :
    (sortableOrders s.tags).Nodup := by
  refine hd.nodup_iff.mpr ?_
  refine List.Nodup.map ?_ (List.nodup_range _)
  intro a b hab
  simp only [Option.some.injEq] at hab
  omega

theorem normalize_toInput_inv (s : TagState) (hinv : StateInv s) (now : Nat) :
    StateInv (normalizeTagState (some s.toInput) now) := by
  have hkeys := normalize_toInput_keys s hinv now
  have hnames := normalize_toInput_names s hinv now
  have hdense := normalize_toInput_dense s hinv now
  obtain ⟨f, hf, hid, hname, hlk, hcol, hcr, hord⟩ := hinv.fav
  have htags : (normalizeTagState (some s.toInput) now).tags = ensureSortOrder s.tags := by
    rw [normalize_toInput s hinv now]
  have hnid : (normalizeTagState (some s.toInput) now).nextId = s.nextId := by
    rw [normalize_toInput s hinv now]
  refine ⟨?_, ?_, ?_, ?_, ?_, ?_, ?_, ?_⟩
  · rw [hkeys]
    exact hinv.keysNodup
  · refine ⟨f, ?_, hid, hname, hlk, hcol, hcr, hord⟩
    rw [htags]
    have := ensureSortOrder_get_fav s.tags hinv.favOk f hf
    rw [tag_update_sortOrder_self f (some 0) hord] at this
    exact this
  · intro k hk
    rw [htags]
    rw [hkeys] at hk
    obtain ⟨t, hget, htid⟩ := hinv.vals k hk
    by_cases hne : t.id = STARRED_TAG_ID
    · have hkfav : k = STARRED_TAG_ID := by
        rw [← htid, hne]
      subst hkfav
      rw [hget] at hf
      simp only [Option.some.injEq] at hf
      refine ⟨{ t with sortOrder := some 0 }, ?_, by rw [← htid]⟩
      have := ensureSortOrder_get_fav s.tags hinv.favOk t hget
      exact this
    · obtain ⟨i, hidx, hget2⟩ :=
        ensureSortOrder_get_sortable s.tags hinv.keysNodup hinv.favOk k t hget hne
      exact ⟨{ t with sortOrder := some ((i : Int) + 1) }, hget2, by rw [← htid]⟩
  · rw [htags] at *
    rw [show tagNamesLower (ensureSortOrder s.tags) = tagNamesLower s.tags from
      tagNamesLower_ensureSortOrder s.tags hinv.favOk]
    exact hinv.names
  · intro o ho
    exact dense_orders_pos hdense o ho
  · exact dense_orders_nodup hdense
  · rw [hnid]
    exact hinv.nextIdPos
  · intro k hk m hm
    rw [hnid]
    rw [hkeys] at hk
    exact hinv.nextIdGt k hk m hm

/-! ## Validators, sanitizers and colors
(`util/validators.js`, `util/formatters.js`, `config.js`) -/

/-- `/<[^>]*>/.test(s)`: some `<` is followed (later) by some `>`. -/
def containsHtmlTag : List Char → Bool
  | [] => false
  | c :: rest => (c = '<' && rest.contains '>') || containsHtmlTag rest

/-- `isValidTagName`: 1–50 characters, no HTML tag. -/
def isValidTagName (name : String) : Bool :=
  !(name.data.length = 0 || name.data.length > 50) && !(containsHtmlTag name.data)

/-- Drop everything through the first `>`. -/
def dropThroughGt : List Char → Option (List Char)
  | [] => none
  | c :: rest => if c = '>' then some rest else dropThroughGt rest

/-- One left-to-right pass removing every `/<[^>]*>/` match; fuel-driven
    so it stays structural (fuel = input length suffices, each step
    consumes at least one character). -/
def stripHtmlAux : Nat → List Char → List Char
  | 0, cs => cs
  | _ + 1, [] => []
  | fuel + 1, c :: rest =>
    if c = '<' then
      match dropThroughGt rest with
      | some rest2 => stripHtmlAux fuel rest2
      | none => c :: stripHtmlAux fuel rest
    else c :: stripHtmlAux fuel rest

def stripHtmlTags (cs : List Char) : List Char := stripHtmlAux cs.length cs

/-- `sanitizeTagName`: strip HTML tags, trim, slice to 50 characters. -/
def sanitizeTagName (name : String) : String :=
  ⟨(trimChars (stripHtmlTags name.data)).take 50⟩

/-- `isValidTwitchUsername`: 3–25 alphanumeric/underscore characters. -/
def isValidTwitchUsername (username : String) : Bool :=
  3 ≤ username.data.length && username.data.length ≤ 25 &&
    username.data.all (fun c =>
      ('a' ≤ c && c ≤ 'z') || ('A' ≤ c && c ≤ 'Z') || ('0' ≤ c && c ≤ '9') || c = '_')

def isHexDigit (c : Char) : Bool :=
  ('0' ≤ c && c ≤ '9') || ('a' ≤ c && c ≤ 'f') || ('A' ≤ c && c ≤ 'F')

/-- `^#?([0-9a-fA-F]{6})$`, returning the six hex digits. -/
def hexMatch : List Char → Option (List Char)
  | '#' :: rest => if rest.length = 6 && rest.all isHexDigit then some rest else none
  | cs => if cs.length = 6 && cs.all isHexDigit then some cs else none

/-- `normalizeTagColor(color, { strict: true })` (formatters.js): `none`
    input models a non-string color value (strict mode returns null for
    those); an invalid non-empty string throws. -/
def normalizeTagColorStrict (color : Option String) : Except String (Option String) :=
  match color with
  | none => Except.ok none
  | some c =>
    let trimmed := jsTrim c
    if trimmed = "" then Except.ok none
    else
      match hexMatch trimmed.data with
      | some hex6 => Except.ok (some ⟨'#' :: hex6.map charLower⟩)
      | none => Except.error "Tag color must be a 6-digit hex value."

def TAG_COLOR_POOL : List String :=
  ["#6f42c1", "#22c55e", "#ff6f61", "#f97316", "#facc15", "#2563eb",
   "#14b8a6", "#0ea5e9", "#ec4899", "#ef4444", "#65a30d", "#4b5563"]

/-- `pickTagColor`: deterministic palette pick by numeric id.  (A JS
    negative remainder would index `undefined`; unreachable for minted
    ids ≥ 1, modeled by the pool fallback.) -/
def pickTagColor (tagId : String) : String :=
  let numeric : Int := match jsStrToNumber tagId with
    | some n => n
    | none => 0
  if TAG_COLOR_POOL.length = 0 then "#6f42c1"
  else TAG_COLOR_POOL.getD ((numeric - 1).tmod 12).toNat "#6f42c1"

/-! ## Tag document operations (tagState.js)

Each operation models one body passed to `withConcurrencyControl`: it
loads and normalizes the stored document, validates and applies the
mutation, and persists.  `OpResult.persisted` is the argument of the
`setTagState` call, or `none` when the operation returns without
persisting.  Errors model thrown exceptions (nothing persisted).  `now`
is the clock for `new Date().toISOString()`. -/

structure OpResult where
  result : TagState
  persisted : Option TagState
deriving DecidableEq

/-- `hasOwnProperty`/`typeof` structure of the `fields` argument of
    `upsertTag`: outer `Option` is field presence, inner `Option` is
    whether the value is a string. -/
structure UpsertFields where
  name : Option (Option String) := none
  color : Option (Option String) := none
deriving DecidableEq

/-- `upsertTag(fields, tagId)`. -/
def upsertTag (fields : UpsertFields) (tagId : Option String)
    (stored : Option TagDocIn) (now : Nat) : Except String OpResult := do
  let state := normalizeTagState stored now
  let targetId : Option String := match tagId with
    | some t => if t = "" then none else some t
    | none => none
  let nameProvided := fields.name.isSome
  let colorProvided := fields.color.isSome
  let trimmedName : String := match fields.name with
    | some (some s) => sanitizeTagName s
    | _ => ""
  let normalizedColor : Option String ← match fields.color with
    | some c => normalizeTagColorStrict c
    | none => pure none
  if nameProvided && trimmedName ≠ "" && !(isValidTagName trimmedName) then
    throw "Tag name contains invalid characters or is too long."
  match targetId with
  | some tid => do
    if tid = STARRED_TAG_ID then
      throw "Favorite tag cannot be modified."
    match jsGet state.tags tid with
    | some (some existing) => do
      let nextName : String ←
        if nameProvided then do
          if trimmedName = "" then
            throw "Tag name cannot be empty."
          let normalizedName := jsToLower trimmedName
          if normalizedName = STARRED_TAG_NAME_LOWER || normalizedName = "favorite"
              || normalizedName = "starred" then
            throw "Starred tag already exists."
          if state.tags.any (fun kv =>
              match kv.2 with
              | some tag => tag.id ≠ tid && jsToLower tag.name = normalizedName
              | none => false) then
            throw "A tag with that name already exists."
          pure trimmedName
        else
          pure existing.name
      let nextColor : String :=
        if colorProvided then
          match normalizedColor with
          | some c => c
          | none => existing.color
        else existing.color
      let st2 : TagState := { state with
        tags := jsSet state.tags tid (some { existing with
          name := nextName, color := nextColor, updatedAt := some now }) }
      pure ⟨st2, some st2⟩
    | _ => throw "Tag not found."
  | none => do
    if !nameProvided || trimmedName = "" then
      throw "Tag name cannot be empty."
    let normalizedName := jsToLower trimmedName
    if normalizedName = STARRED_TAG_NAME_LOWER || normalizedName = "favorite"
        || normalizedName = "starred" then
      throw "Starred tag already exists."
    if state.tags.any (fun kv =>
        match kv.2 with
        | some tag => jsToLower tag.name = normalizedName
        | none => false) then
      throw "A tag with that name already exists."
    let newId := jsIntToString state.nextId
    let color : String :=
      if colorProvided then
        match normalizedColor with
        | some c => c
        | none => pickTagColor newId
      else pickTagColor newId
    let st2 : TagState := { state with
      tags := jsSet state.tags newId (some {
        id := newId, name := trimmedName, color := color,
        createdAt := some now, updatedAt := none, locked := false,
        sortOrder := some (getNextSortOrder state.tags) }),
      nextId := state.nextId + 1 }
    pure ⟨st2, some st2⟩

/-- `removeTag(tagId)`.  An unknown id returns the normalized document
    without persisting anything (no error). -/
def removeTag (tagId : String) (stored : Option TagDocIn) (now : Nat) :
    Except String OpResult := do
  let state := normalizeTagState stored now
  let targetId := tagId
  if targetId = STARRED_TAG_ID then
    throw "Favorite tag cannot be modified."
  match jsGet state.tags targetId with
  | some (some _) =>
    let tags2 := jsDelete state.tags targetId
    let assigns2 := state.assignments.filterMap (fun kv =>
      let filtered := kv.2.filter (fun id => id ≠ targetId)
      if filtered.length ≠ 0 then some (kv.1, filtered) else none)
    let st2 : TagState := { tags := tags2, assignments := assigns2, nextId := state.nextId }
    pure ⟨st2, some st2⟩
  | _ => pure ⟨state, none⟩

/-- `updateAssignment(streamerId, tagId, shouldAssign)`. -/
def updateAssignment (streamerId tagId : String) (shouldAssign : Bool)
    (stored : Option TagDocIn) (now : Nat) : Except String OpResult := do
  let state := normalizeTagState stored now
  let targetId := tagId
  match jsGet state.tags targetId with
  | some (some _) =>
    let current := (jsGet state.assignments streamerId).getD []
    let assigns2 :=
      if shouldAssign then
        if current.contains targetId then state.assignments
        else jsSet state.assignments streamerId (current ++ [targetId])
      else
        let filtered := current.filter (fun id => id ≠ targetId)
        if filtered.length ≠ 0 then jsSet state.assignments streamerId filtered
        else jsDelete state.assignments streamerId
    let st2 : TagState := { state with assignments := assigns2 }
    pure ⟨st2, some st2⟩
  | _ => throw "Tag not found."

/-- `replaceAssignments(streamerId, tagIds)`: unknown (or null-valued)
    tag ids are silently filtered out; never throws. -/
def replaceAssignments (streamerId : String) (tagIds : Option (List String))
    (stored : Option TagDocIn) (now : Nat) : Except String OpResult := do
  let state := normalizeTagState stored now
  let valid := (tagIds.getD []).filter (fun id =>
    match jsGet state.tags id with
    | some (some _) => true
    | _ => false)
  let assigns2 :=
    if valid.length ≠ 0 then jsSet state.assignments streamerId valid
    else jsDelete state.assignments streamerId
  let st2 : TagState := { state with assignments := assigns2 }
  pure ⟨st2, some st2⟩

/-- First `forEach` of `reorderTags`: walk the desired ids, skipping the
    starred id, duplicates and unknown ids, stamping positions 1.. and
    recording the ids seen. -/
def reorderPass1 (tags : List (String × Option Tag)) (seen : List String) (pos : Int) :
    List String → List (String × Option Tag) × List String × Int
  | [] => (tags, seen, pos)
  | id :: rest =>
    if id = STARRED_TAG_ID || seen.contains id then
      reorderPass1 tags seen pos rest
    else
      match jsGet tags id with
      | some (some t) =>
        reorderPass1 (jsSet tags id (some { t with sortOrder := some pos }))
          (seen ++ [id]) (pos + 1) rest
      | _ => reorderPass1 tags seen pos rest

/-- Second `forEach` of `reorderTags`: stamp the remaining tags with the
    following positions. -/
def reorderPass2 (tags : List (String × Option Tag)) (pos : Int) :
    List (String × Tag) → List (String × Option Tag) × Int
  | [] => (tags, pos)
  | e :: rest =>
    reorderPass2 (jsSet tags e.1 (some { e.2 with sortOrder := some pos })) (pos + 1) rest

/-- `reorderTags(tagIds)`. -/
def reorderTags (tagIds : List String) (stored : Option TagDocIn) (now : Nat) :
    Except String OpResult := do
  let state := normalizeTagState stored now
  let (tags1, seen, pos1) := reorderPass1 state.tags [] 1 tagIds
  let remaining := stableSort pairTagLe
    ((sortableEntries tags1).filter (fun e => !(seen.contains e.2.id)))
  let (tags2, _pos2) := reorderPass2 tags1 pos1 remaining
  let tags3 := match jsGet tags2 STARRED_TAG_ID with
    | some (some fav) => jsSet tags2 STARRED_TAG_ID (some { fav with sortOrder := some 0 })
    | _ => tags2
  let st2 : TagState := { state with tags := tags3 }
  pure ⟨st2, some st2⟩

/-- The operations of the specification claim C1. -/
inductive TagOp where
  | upsert (fields : UpsertFields) (tagId : Option String)
  | remove (tagId : String)
  | reorder (tagIds : List String)
deriving DecidableEq

def runTagOp (op : TagOp) (stored : Option TagDocIn) (now : Nat) :
    Except String OpResult :=
  match op with
  | .upsert fields tagId => upsertTag fields tagId stored now
  | .remove tagId => removeTag tagId stored now
  | .reorder tagIds => reorderTags tagIds stored now

/-- Storage evolution of one queued operation: a thrown error or an early
    return leaves the stored document unchanged; otherwise the argument of
    `setTagState` becomes the stored document. -/
def stepStored (stored : Option TagDocIn) (opnow : TagOp × Nat) : Option TagDocIn :=
  match runTagOp opnow.1 stored opnow.2 with
  | Except.ok r =>
    match r.persisted with
    | some s => some s.toInput
    | none => stored
  | Except.error _ => stored

/-- Serial execution of a FIFO sequence of operations (the concurrency
    queue of tagState.js feeds them to storage one at a time). -/
def runOps (ops : List (TagOp × Nat)) (stored : Option TagDocIn) : Option TagDocIn :=
  ops.foldl stepStored stored

/-- The stored value before any operation ran: an empty object document.
    (The storage accessor itself lives outside src/; the spec's lifecycle
    section fixes first use to an empty document.) -/
def emptyStoredDoc : TagDocIn := ⟨[], [], none⟩

/-! ## Helper lemmas for the operation proofs -/

theorem mem_keys_of_jsGet {α : Type} (m : List (String × α)) (k : String) (v : α)
    (h : jsGet m k = some v) : k ∈ jsKeys m :=
  List.mem_map_of_mem Prod.fst (mem_of_jsGet_eq_some m k v h)

theorem jsSet_not_has_append {α : Type} (m : List (String × α)) (k : String) (v : α)
    (h : ¬ jsHas m k) : jsSet m k v = m ++ [(k, v)] := by
  induction m with
  | nil => simp [jsSet]
  | cons kv rest ih =>
    obtain ⟨k0, v0⟩ := kv
    by_cases h2 : k0 = k
    · exfalso
      apply h
      simp [jsHas, jsGet, h2]
    · simp only [jsSet, if_neg h2, List.cons_append, List.cons.injEq, true_and]
      apply ih
      intro h3
      apply h
      simp only [jsHas, jsGet, if_neg h2]
      exact h3

theorem jsGet_append_single {α : Type} (m : List (String × α)) (k k' : String) (v : α) :
    jsGet (m ++ [(k, v)]) k' =
      match jsGet m k' with
      | some w => some w
      | none => if k = k' then some v else none := by
  induction m with
  | nil => simp [jsGet]
  | cons kv rest ih =>
    obtain ⟨k0, v0⟩ := kv
    by_cases h : k0 = k'
    · simp [jsGet, h]
    · simp only [List.cons_append, jsGet, if_neg h]
      exact ih

theorem mem_keys_delete {α : Type} (m : List (String × α)) (k k' : String)
    (h : k' ∈ jsKeys (jsDelete m k)) : k' ∈ jsKeys m ∧ k' ≠ k := by
  simp only [jsDelete, jsKeys] at h
  rcases List.mem_map.mp h with ⟨kv, hkv, hfst⟩
  rcases List.mem_filter.mp hkv with ⟨hmem, hne⟩
  constructor
  · rw [← hfst]
    exact List.mem_map_of_mem Prod.fst hmem
  · rw [← hfst]
    simpa using hne

theorem tagNamesLower_append :
    ∀ (l₁ l₂ : List (String × Option Tag)),
      tagNamesLower (l₁ ++ l₂) = tagNamesLower l₁ ++ tagNamesLower l₂ := by
  intro l₁ l₂
  induction l₁ with
  | nil => simp [tagNamesLower]
  | cons kv rest ih =>
    obtain ⟨k, v⟩ := kv
    match v with
    | none => simpa [tagNamesLower] using ih
    | some t => simp [tagNamesLower, ih]

theorem mem_tagNamesLower :
    ∀ (l : List (String × Option Tag)) (x : String),
      x ∈ tagNamesLower l ↔ ∃ kv ∈ l, ∃ u : Tag, kv.2 = some u ∧ jsToLower u.name = x := by
  intro l x
  induction l with
  | nil => simp [tagNamesLower]
  | cons kv rest ih =>
    obtain ⟨k, v⟩ := kv
    match v with
    | none =>
      simp only [tagNamesLower, ih, List.mem_cons]
      constructor
      · rintro ⟨kv, hm, u, hu, hx⟩
        exact ⟨kv, Or.inr hm, u, hu, hx⟩
      · rintro ⟨kv, hm | hm, u, hu, hx⟩
        · subst hm
          simp at hu
        · exact ⟨kv, hm, u, hu, hx⟩
    | some t =>
      simp only [tagNamesLower, List.mem_cons, ih]
      constructor
      · rintro (h | ⟨kv, hm, u, hu, hx⟩)
        · exact ⟨(k, some t), Or.inl rfl, t, rfl, h.symm⟩
        · exact ⟨kv, Or.inr hm, u, hu, hx⟩
      · rintro ⟨kv, hm | hm, u, hu, hx⟩
        · subst hm
          simp only [Option.some.injEq] at hu
          subst hu
          exact Or.inl hx.symm
        · exact Or.inr ⟨kv, hm, u, hu, hx⟩

theorem tagNamesLower_sublist :
    ∀ {l₁ l₂ : List (String × Option Tag)}, List.Sublist l₁ l₂ →
      List.Sublist (tagNamesLower l₁) (tagNamesLower l₂) := by
  intro l₁ l₂ h
  induction h with
  | slnil => simp [tagNamesLower]
  | cons kv hsub ih =>
    obtain ⟨k, v⟩ := kv
    match v with
    | none => simpa [tagNamesLower] using ih
    | some t =>
      simp only [tagNamesLower]
      exact ih.cons _
  | cons₂ kv hsub ih =>
    obtain ⟨k, v⟩ := kv
    match v with
    | none => simpa [tagNamesLower] using ih
    | some t =>
      simp only [tagNamesLower]
      exact ih.cons₂ _

theorem sortableEntries_sublist :
    ∀ {l₁ l₂ : List (String × Option Tag)}, List.Sublist l₁ l₂ →
      List.Sublist (sortableEntries l₁) (sortableEntries l₂) := by
  intro l₁ l₂ h
  exact h.filterMap _

theorem sortableOrders_sublist {l₁ l₂ : List (String × Option Tag)}
    (h : List.Sublist l₁ l₂) :
    List.Sublist (sortableOrders l₁) (sortableOrders l₂) :=
  (sortableEntries_sublist h).map _

theorem sortableEntries_append (l₁ l₂ : List (String × Option Tag)) :
    sortableEntries (l₁ ++ l₂) = sortableEntries l₁ ++ sortableEntries l₂ := by
  simp [sortableEntries, List.filterMap_append]

/-- Replacing a value with one of the same id and sort order leaves the
    sortable order list unchanged. -/
theorem sortableOrders_jsSet_same :
    ∀ (m : List (String × Option Tag)) (k : String) (t t' : Tag),
      jsGet m k = some (some t) → t'.id = t.id → t'.sortOrder = t.sortOrder →
      sortableOrders (jsSet m k (some t')) = sortableOrders m := by
  intro m
  induction m with
  | nil => intro k t t' h; simp [jsGet] at h
  | cons kv rest ih =>
    obtain ⟨k0, v0⟩ := kv
    intro k t t' hget hid hord
    by_cases h : k0 = k
    · subst h
      simp [jsGet] at hget
      have hset : jsSet ((k0, v0) :: rest) k0 (some t') = (k0, some t') :: rest := by
        simp [jsSet]
      rw [hset, hget]
      by_cases hst : t.id = STARRED_TAG_ID
      · have hst2 : t'.id = STARRED_TAG_ID := by rw [hid, hst]
        simp only [sortableOrders, sortableEntries, List.filterMap_cons]
        rw [if_neg (by simpa using hst2), if_neg (by simpa using hst)]
      · have hst2 : ¬ (t'.id = STARRED_TAG_ID) := by rw [hid]; exact hst
        simp only [sortableOrders, sortableEntries, List.filterMap_cons]
        rw [if_pos (by simpa using hst2), if_pos (by simpa using hst)]
        simp [hord]
    · simp only [jsGet, if_neg h] at hget
      have hset : jsSet ((k0, v0) :: rest) k (some t') = (k0, v0) :: jsSet rest k (some t') := by
        simp [jsSet, h]
      rw [hset]
      match v0 with
      | none =>
        simp only [sortableOrders, sortableEntries, List.filterMap_cons]
        exact ih k t t' hget hid hord
      | some t0 =>
        by_cases h0 : t0.id ≠ STARRED_TAG_ID
        · have := ih k t t' hget hid hord
          simp only [sortableOrders, sortableEntries, List.filterMap_cons, if_pos h0,
            List.map_cons] at this ⊢
          rw [this]
        · simp only [sortableOrders, sortableEntries, List.filterMap_cons, if_neg h0]
          exact ih k t t' hget hid hord

theorem mem_tagNamesLower_jsSet_sub :
    ∀ (m : List (String × Option Tag)) (k : String) (t' : Tag) (x : String),
      x ∈ tagNamesLower (jsSet m k (some t')) →
      x = jsToLower t'.name ∨ x ∈ tagNamesLower m := by
  intro m
  induction m with
  | nil =>
    intro k t' x hx
    simp [jsSet, tagNamesLower] at hx
    exact Or.inl hx
  | cons kv rest ih =>
    obtain ⟨k0, v0⟩ := kv
    intro k t' x hx
    by_cases h : k0 = k
    · have hset : jsSet ((k0, v0) :: rest) k (some t') = (k0, some t') :: rest := by
        simp [jsSet, h]
      rw [hset] at hx
      simp only [tagNamesLower, List.mem_cons] at hx
      rcases hx with hx | hx
      · exact Or.inl hx
      · match v0 with
        | none => exact Or.inr (by simpa [tagNamesLower] using hx)
        | some t0 =>
          right
          simp only [tagNamesLower, List.mem_cons]
          exact Or.inr hx
    · have hset : jsSet ((k0, v0) :: rest) k (some t') = (k0, v0) :: jsSet rest k (some t') := by
        simp [jsSet, h]
      rw [hset] at hx
      match v0 with
      | none =>
        simp only [tagNamesLower] at hx
        rcases ih k t' x hx with h1 | h1
        · exact Or.inl h1
        · exact Or.inr (by simpa [tagNamesLower] using h1)
      | some t0 =>
        simp only [tagNamesLower, List.mem_cons] at hx
        rcases hx with hx | hx
        · right
          simp only [tagNamesLower, List.mem_cons]
          exact Or.inl hx
        · rcases ih k t' x hx with h1 | h1
          · exact Or.inl h1
          · right
            simp only [tagNamesLower, List.mem_cons]
            exact Or.inr h1

/-- Replacing an existing entry's value with a tag whose lower-cased name
    clashes with no other entry keeps the lower-cased name list duplicate
    free. -/
theorem tagNamesLower_jsSet_nodup :
    ∀ (m : List (String × Option Tag)) (k : String) (t t' : Tag),
      jsGet m k = some (some t) → (jsKeys m).Nodup → (tagNamesLower m).Nodup →
      (∀ kv ∈ m, ∀ u : Tag, kv.2 = some u → kv.1 ≠ k →
        jsToLower u.name ≠ jsToLower t'.name) →
      (tagNamesLower (jsSet m k (some t'))).Nodup := by
  intro m
  induction m with
  | nil => intro k t t' hget; simp [jsGet] at hget
  | cons kv rest ih =>
    obtain ⟨k0, v0⟩ := kv
    intro k t t' hget hkeys hnames hfresh
    by_cases h : k0 = k
    · subst h
      simp [jsGet] at hget
      have hset : jsSet ((k0, v0) :: rest) k0 (some t') = (k0, some t') :: rest := by
        simp [jsSet]
      rw [hset]
      subst hget
      simp only [tagNamesLower] at hnames ⊢
      rw [List.nodup_cons] at hnames ⊢
      refine ⟨?_, hnames.2⟩
      intro hmem
      rcases (mem_tagNamesLower rest _).mp hmem with ⟨kv1, hm1, u, hu, hx⟩
      have hk1 : kv1.1 ≠ k0 := by
        intro he
        have : kv1.1 ∈ jsKeys rest := List.mem_map_of_mem Prod.fst hm1
        rw [he] at this
        simp only [jsKeys, List.map_cons] at hkeys
        exact (List.nodup_cons.mp hkeys).1 this
      exact hfresh kv1 (List.mem_cons_of_mem _ hm1) u hu hk1 hx
    · have hset : jsSet ((k0, v0) :: rest) k (some t') = (k0, v0) :: jsSet rest k (some t') := by
        simp [jsSet, h]
      rw [hset]
      simp only [jsGet, if_neg h] at hget
      have hkeys' : (jsKeys rest).Nodup := by
        simp only [jsKeys, List.map_cons] at hkeys
        exact (List.nodup_cons.mp hkeys).2
      have hfresh' : ∀ kv ∈ rest, ∀ u : Tag, kv.2 = some u → kv.1 ≠ k →
          jsToLower u.name ≠ jsToLower t'.name := fun kv hm u hu hk =>
        hfresh kv (List.mem_cons_of_mem _ hm) u hu hk
      match v0 with
      | none =>
        simp only [tagNamesLower] at hnames ⊢
        exact ih k t t' hget hkeys' hnames hfresh'
      | some t0 =>
        simp only [tagNamesLower] at hnames ⊢
        rw [List.nodup_cons] at hnames ⊢
        refine ⟨?_, ih k t t' hget hkeys' hnames.2 hfresh'⟩
        intro hmem
        rcases mem_tagNamesLower_jsSet_sub rest k t' _ hmem with h1 | h1
        · exact hfresh (k0, some t0) (List.mem_cons_self _ _) t0 rfl h h1
        · exact hnames.1 h1

/-- One step of the running maximum inside `getNextSortOrder`, phrased over
    the extracted sort orders. -/
def optMaxStep (acc : Int) (o : Option Int) : Int :=
  match o with
  | some v => if v > acc then v else acc
  | none => acc

theorem getNextSortOrder_eq_fold_aux (tags : List (String × Option Tag)) :
    ∀ acc : Int,
      tags.foldl (fun acc kv =>
        match kv.2 with
        | some t =>
          if t.id = STARRED_TAG_ID then acc
          else
            match t.sortOrder with
            | some o => if o > acc then o else acc
            | none => acc
        | none => acc) acc = (sortableOrders tags).foldl optMaxStep acc := by
  induction tags with
  | nil => intro acc; simp [sortableOrders, sortableEntries]
  | cons kv rest ih =>
    obtain ⟨k, v⟩ := kv
    intro acc
    match v with
    | none =>
      simp only [List.foldl_cons]
      rw [ih]
      simp [sortableOrders, sortableEntries]
    | some t =>
      by_cases hst : t.id = STARRED_TAG_ID
      · simp only [List.foldl_cons, if_pos hst]
        rw [ih]
        simp only [sortableOrders, sortableEntries, List.filterMap_cons]
        rw [if_neg (by simpa using hst)]
      · simp only [List.foldl_cons, if_neg hst]
        simp only [sortableOrders, sortableEntries, List.filterMap_cons]
        rw [if_pos (by simpa using hst)]
        simp only [List.map_cons, List.foldl_cons]
        rw [ih]
        rfl

theorem getNextSortOrder_eq_fold (tags : List (String × Option Tag)) :
    getNextSortOrder tags = (sortableOrders tags).foldl optMaxStep 0 + 1 := by
  simp only [getNextSortOrder]
  rw [getNextSortOrder_eq_fold_aux]

theorem optFold_ge_init (l : List (Option Int)) :
    ∀ a : Int, a ≤ l.foldl optMaxStep a := by
  induction l with
  | nil => intro a; simp
  | cons o rest ih =>
    intro a
    refine le_trans ?_ (ih (optMaxStep a o))
    match o with
    | none => simp [optMaxStep]
    | some v =>
      simp only [optMaxStep]
      split
      · omega
      · omega

theorem optFold_ge_mem (l : List (Option Int)) (v : Int) (hm : some v ∈ l) :
    ∀ a : Int, v ≤ l.foldl optMaxStep a := by
  induction l with
  | nil => simp at hm
  | cons o rest ih =>
    intro a
    rcases List.mem_cons.mp hm with h | h
    · subst h
      simp only [List.foldl_cons]
      refine le_trans ?_ (optFold_ge_init rest _)
      simp only [optMaxStep]
      split
      · omega
      · omega
    · simp only [List.foldl_cons]
      exact ih h (optMaxStep a o)

theorem optFold_mem_or_init (l : List (Option Int)) :
    ∀ a : Int, l.foldl optMaxStep a = a ∨ some (l.foldl optMaxStep a) ∈ l := by
  induction l with
  | nil => intro a; simp
  | cons o rest ih =>
    intro a
    simp only [List.foldl_cons]
    rcases ih (optMaxStep a o) with h | h
    · rw [h]
      match o with
      | none => exact Or.inl rfl
      | some v =>
        simp only [optMaxStep]
        split
        · exact Or.inr (List.mem_cons_self _ _)
        · exact Or.inl rfl
    · exact Or.inr (List.mem_cons_of_mem _ h)

/-- On a dense state the next sort order is exactly count + 1. -/
theorem getNextSortOrder_dense (s : TagState) (hd : DenseOrders s) :
    getNextSortOrder s.tags = ((sortableOrders s.tags).length : Int) + 1 := by
  rw [getNextSortOrder_eq_fold]
  congr 1
  rcases Nat.eq_zero_or_pos (sortableOrders s.tags).length with h0 | hpos
  · rw [List.length_eq_zero.mp h0]
    simp
  · have hmem : some (((sortableOrders s.tags).length : Nat) : Int) ∈ sortableOrders s.tags := by
      apply hd.symm.subset
      rw [List.mem_map]
      refine ⟨(sortableOrders s.tags).length - 1, List.mem_range.mpr (by omega), ?_⟩
      simp only [Option.some.injEq]
      omega
    have hge := optFold_ge_mem _ _ hmem 0
    have hle : (sortableOrders s.tags).foldl optMaxStep 0 ≤
        ((sortableOrders s.tags).length : Int) := by
      rcases optFold_mem_or_init (sortableOrders s.tags) 0 with h | h
      · rw [h]
        omega
      · rcases List.mem_map.mp (hd.subset h) with ⟨i, hi, hv⟩
        rw [List.mem_range] at hi
        have hv' : ((i : Int) + 1) = (sortableOrders s.tags).foldl optMaxStep 0 := by
          simpa using hv
        omega
    omega

/-- A false duplicate scan means no (non-excluded) tag carries the name. -/
theorem any_eq_false_forall (tags : List (String × Option Tag))
    (p : Tag → Bool)
    (h : tags.any (fun kv => match kv.2 with
      | some tag => p tag
      | none => false) = false) :
    ∀ kv ∈ tags, ∀ tag : Tag, kv.2 = some tag → p tag = false := by
  intro kv hm tag htag
  rw [List.any_eq_false] at h
  have := h kv hm
  rw [htag] at this
  simpa using this

/-! ## The initial document and the stored-document invariant -/

/-- The state minted from an empty stored document: just the starred tag. -/
def initState (now : Nat) : TagState :=
  { tags := [(STARRED_TAG_ID, some
      { id := STARRED_TAG_ID, name := STARRED_TAG_NAME, color := "#ffc107",
        createdAt := some now, updatedAt := none, locked := true,
        sortOrder := some 0 })],
    assignments := [], nextId := 1 }

theorem normalize_empty (now : Nat) :
    normalizeTagState (some emptyStoredDoc) now = initState now := rfl

theorem initState_inv (now : Nat) : StateInv (initState now) := by
  refine ⟨?_, ?_, ?_, ?_, ?_, ?_, ?_, ?_⟩
  · simp [initState, jsKeys]
  · exact ⟨_, rfl, rfl, rfl, rfl, (by decide : ("#ffc107" : String) ≠ ""), ⟨now, rfl⟩, rfl⟩
  · intro k hk
    simp only [initState, jsKeys, List.map_cons, List.map_nil, List.mem_singleton] at hk
    subst hk
    exact ⟨_, rfl, rfl⟩
  · simp [initState, tagNamesLower]
  · intro o ho
    simp [initState, sortableOrders, sortableEntries, STARRED_TAG_ID] at ho
  · simp [initState, sortableOrders, sortableEntries, STARRED_TAG_ID]
  · exact le_refl 1
  · intro k hk m hm
    simp only [initState, jsKeys, List.map_cons, List.map_nil, List.mem_singleton] at hk
    subst hk
    rw [show jsStrToNumber STARRED_TAG_ID = none from by decide] at hm
    exact absurd hm (by simp)

theorem initState_dense (now : Nat) : DenseOrders (initState now) := by
  unfold DenseOrders
  simp [initState, sortableOrders, sortableEntries, STARRED_TAG_ID]

/-- Every persisted tag document: the initial empty object, or the
    `toInput` image of a state satisfying the document invariant. -/
def StoredInv (stored : Option TagDocIn) : Prop :=
  stored = some emptyStoredDoc ∨ ∃ s : TagState, stored = some s.toInput ∧ StateInv s

theorem normalize_stored_inv (stored : Option TagDocIn) (now : Nat)
    (h : StoredInv stored) :
    StateInv (normalizeTagState stored now) ∧ DenseOrders (normalizeTagState stored now) := by
  rcases h with h | ⟨s, heq, hinv⟩
  · rw [h, normalize_empty]
    exact ⟨initState_inv now, initState_dense now⟩
  · rw [heq]
    exact ⟨normalize_toInput_inv s hinv now, normalize_toInput_dense s hinv now⟩

/-! ## Invariant preservation of each operation's persisted shape -/

theorem upsert_update_inv (s1 : TagState) (hinv : StateInv s1)
    (tid : String) (existing t' : Tag)
    (hget : jsGet s1.tags tid = some (some existing))
    (htid : tid ≠ STARRED_TAG_ID)
    (hid : t'.id = existing.id)
    (hord : t'.sortOrder = existing.sortOrder)
    (hname : t'.name = existing.name ∨
      ∀ kv ∈ s1.tags, ∀ u : Tag, kv.2 = some u → kv.1 ≠ tid →
        jsToLower u.name ≠ jsToLower t'.name) :
    StateInv { s1 with tags := jsSet s1.tags tid (some t') } := by
  have hhas : jsHas s1.tags tid := by simp [jsHas, hget]
  have hkeys : jsKeys (jsSet s1.tags tid (some t')) = jsKeys s1.tags := by
    rw [jsKeys_set, if_pos hhas]
  have hexid : existing.id = tid := by
    obtain ⟨t0, hget0, htid0⟩ := hinv.vals tid (mem_keys_of_jsGet _ _ _ hget)
    rw [hget] at hget0
    simp only [Option.some.injEq] at hget0
    rw [← hget0] at htid0
    exact htid0
  have hords : sortableOrders (jsSet s1.tags tid (some t')) = sortableOrders s1.tags :=
    sortableOrders_jsSet_same s1.tags tid existing t' hget hid hord
  refine ⟨?_, ?_, ?_, ?_, ?_, ?_, ?_, ?_⟩
  · show (jsKeys (jsSet s1.tags tid (some t'))).Nodup
    rw [hkeys]
    exact hinv.keysNodup
  · obtain ⟨f, hf, hrest⟩ := hinv.fav
    refine ⟨f, ?_, hrest⟩
    show jsGet (jsSet s1.tags tid (some t')) STARRED_TAG_ID = some (some f)
    rw [jsGet_set_ne s1.tags tid STARRED_TAG_ID (some t') htid]
    exact hf
  · intro k hk
    show ∃ t, jsGet (jsSet s1.tags tid (some t')) k = some (some t) ∧ t.id = k
    rw [show ({ s1 with tags := jsSet s1.tags tid (some t') } : TagState).tags
      = jsSet s1.tags tid (some t') from rfl, hkeys] at hk
    by_cases he : k = tid
    · subst he
      refine ⟨t', jsGet_set_self _ _ _, ?_⟩
      rw [hid, hexid]
    · rw [jsGet_set_ne s1.tags tid k (some t') (fun h2 => he h2.symm)]
      exact hinv.vals k hk
  · show (tagNamesLower (jsSet s1.tags tid (some t'))).Nodup
    rcases hname with hname | hname
    · rw [tagNamesLower_jsSet_samename s1.tags tid existing t' hget hname]
      exact hinv.names
    · exact tagNamesLower_jsSet_nodup s1.tags tid existing t' hget hinv.keysNodup
        hinv.names hname
  · intro o ho
    rw [show ({ s1 with tags := jsSet s1.tags tid (some t') } : TagState).tags
      = jsSet s1.tags tid (some t') from rfl, hords] at ho
    exact hinv.orders o ho
  · show (sortableOrders (jsSet s1.tags tid (some t'))).Nodup
    rw [hords]
    exact hinv.ordersNodup
  · exact hinv.nextIdPos
  · intro k hk m hm
    rw [show ({ s1 with tags := jsSet s1.tags tid (some t') } : TagState).tags
      = jsSet s1.tags tid (some t') from rfl, hkeys] at hk
    exact hinv.nextIdGt k hk m hm

theorem jsStrToNumber_jsIntToString_pos (m : Int) (h : 0 ≤ m) :
    jsStrToNumber (jsIntToString m) = some m := by
  have h2 := jsStrToNumber_jsIntToString_nat m.toNat
  rwa [Int.toNat_of_nonneg h] at h2

theorem upsert_create_inv (s1 : TagState) (hinv : StateInv s1) (hdense : DenseOrders s1)
    (now : Nat) (nm color : String)
    (hnm : ∀ x ∈ tagNamesLower s1.tags, x ≠ jsToLower nm) :
    StateInv { s1 with
      tags := jsSet s1.tags (jsIntToString s1.nextId) (some
        { id := jsIntToString s1.nextId, name := nm, color := color,
          createdAt := some now, updatedAt := none, locked := false,
          sortOrder := some (getNextSortOrder s1.tags) }),
      nextId := s1.nextId + 1 } := by
  have hparse : jsStrToNumber (jsIntToString s1.nextId) = some s1.nextId :=
    jsStrToNumber_jsIntToString_pos s1.nextId (by have := hinv.nextIdPos; omega)
  have hnotmem : jsIntToString s1.nextId ∉ jsKeys s1.tags := by
    intro hmem
    have := hinv.nextIdGt _ hmem s1.nextId hparse
    omega
  have hnothas : ¬ jsHas s1.tags (jsIntToString s1.nextId) := by
    intro hhas
    rcases hv : jsGet s1.tags (jsIntToString s1.nextId) with _ | v
    · simp [jsHas, hv] at hhas
    · exact hnotmem (mem_keys_of_jsGet _ _ _ hv)
  have happ := jsSet_not_has_append s1.tags (jsIntToString s1.nextId)
    (some { id := jsIntToString s1.nextId, name := nm, color := color,
            createdAt := some now, updatedAt := none, locked := false,
            sortOrder := some (getNextSortOrder s1.tags) }) hnothas
  have hgetnone : jsGet s1.tags (jsIntToString s1.nextId) = none := by
    rcases hv : jsGet s1.tags (jsIntToString s1.nextId) with _ | v
    · rfl
    · exact absurd (mem_keys_of_jsGet _ _ _ hv) hnotmem
  have hidne : jsIntToString s1.nextId ≠ STARRED_TAG_ID := by
    intro he
    rw [he] at hparse
    rw [show jsStrToNumber STARRED_TAG_ID = none from by decide] at hparse
    exact absurd hparse (by simp)
  have hN := getNextSortOrder_dense s1 hdense
  refine ⟨?_, ?_, ?_, ?_, ?_, ?_, ?_, ?_⟩
  · show (jsKeys (jsSet s1.tags _ _)).Nodup
    rw [happ]
    simp only [jsKeys, List.map_append, List.map_cons, List.map_nil]
    rw [List.nodup_append]
    exact ⟨hinv.keysNodup, List.nodup_singleton _,
      fun a ha hb => by simp at hb; rw [hb] at ha; exact hnotmem ha⟩
  · obtain ⟨f, hf, hrest⟩ := hinv.fav
    refine ⟨f, ?_, hrest⟩
    show jsGet (jsSet s1.tags _ _) STARRED_TAG_ID = some (some f)
    rw [happ, jsGet_append_single, hf]
  · intro k hk
    show ∃ t, jsGet (jsSet s1.tags _ _) k = some (some t) ∧ t.id = k
    rw [show ({ s1 with
        tags := jsSet s1.tags (jsIntToString s1.nextId) _,
        nextId := s1.nextId + 1 } : TagState).tags
      = jsSet s1.tags (jsIntToString s1.nextId) _ from rfl, happ] at hk
    simp only [jsKeys, List.map_append, List.map_cons, List.map_nil,
      List.mem_append, List.mem_singleton] at hk
    rcases hk with hk | hk
    · obtain ⟨t, hget, htid⟩ := hinv.vals k hk
      refine ⟨t, ?_, htid⟩
      rw [happ, jsGet_append_single, hget]
    · subst hk
      refine ⟨{ id := jsIntToString s1.nextId, name := nm, color := color,
                createdAt := some now, updatedAt := none, locked := false,
                sortOrder := some (getNextSortOrder s1.tags) }, ?_, rfl⟩
      rw [happ, jsGet_append_single, hgetnone]
      simp
  · show (tagNamesLower (jsSet s1.tags _ _)).Nodup
    rw [happ, tagNamesLower_append]
    rw [show tagNamesLower [(jsIntToString s1.nextId, some
        { id := jsIntToString s1.nextId, name := nm, color := color,
          createdAt := some now, updatedAt := none, locked := false,
          sortOrder := some (getNextSortOrder s1.tags) })] = [jsToLower nm] from rfl]
    rw [List.nodup_append]
    refine ⟨hinv.names, List.nodup_singleton _, ?_⟩
    intro a ha hb
    simp only [List.mem_singleton] at hb
    subst hb
    exact hnm _ ha rfl
  · intro o ho
    rw [show ({ s1 with
        tags := jsSet s1.tags (jsIntToString s1.nextId) _,
        nextId := s1.nextId + 1 } : TagState).tags
      = jsSet s1.tags (jsIntToString s1.nextId) _ from rfl, happ] at ho
    rw [show sortableOrders (s1.tags ++ [(jsIntToString s1.nextId, some
        { id := jsIntToString s1.nextId, name := nm, color := color,
          createdAt := some now, updatedAt := none, locked := false,
          sortOrder := some (getNextSortOrder s1.tags) })])
      = sortableOrders s1.tags ++ [some (getNextSortOrder s1.tags)] from by
        unfold sortableOrders
        rw [sortableEntries_append]
        simp [sortableEntries, hidne]] at ho
    rcases List.mem_append.mp ho with h | h
    · exact hinv.orders o h
    · simp only [List.mem_singleton] at h
      subst h
      refine ⟨getNextSortOrder s1.tags, rfl, ?_⟩
      rw [hN]
      omega
  · show (sortableOrders (jsSet s1.tags _ _)).Nodup
    rw [happ]
    rw [show sortableOrders (s1.tags ++ [(jsIntToString s1.nextId, some
        { id := jsIntToString s1.nextId, name := nm, color := color,
          createdAt := some now, updatedAt := none, locked := false,
          sortOrder := some (getNextSortOrder s1.tags) })])
      = sortableOrders s1.tags ++ [some (getNextSortOrder s1.tags)] from by
        unfold sortableOrders
        rw [sortableEntries_append]
        simp [sortableEntries, hidne]]
    rw [List.nodup_append]
    refine ⟨hinv.ordersNodup, List.nodup_singleton _, ?_⟩
    intro a ha hb
    simp only [List.mem_singleton] at hb
    subst hb
    rcases List.mem_map.mp (hdense.subset ha) with ⟨i, hi, hv⟩
    rw [List.mem_range] at hi
    rw [hN] at hv
    simp only [Option.some.injEq] at hv
    omega
  · show (1 : Int) ≤ s1.nextId + 1
    have := hinv.nextIdPos
    omega
  · intro k hk m hm
    rw [show ({ s1 with
        tags := jsSet s1.tags (jsIntToString s1.nextId) _,
        nextId := s1.nextId + 1 } : TagState).tags
      = jsSet s1.tags (jsIntToString s1.nextId) _ from rfl, happ] at hk
    simp only [jsKeys, List.map_append, List.map_cons, List.map_nil,
      List.mem_append, List.mem_singleton] at hk
    show m < s1.nextId + 1
    rcases hk with hk | hk
    · have := hinv.nextIdGt k hk m hm
      omega
    · subst hk
      rw [hparse] at hm
      simp only [Option.some.injEq] at hm
      omega

/-! ### reorderTags: pass 1 bookkeeping -/

theorem reorderPass1_cons_cond (id : String) (rest : List String)
    (tags : List (String × Option Tag)) (seen : List String) (pos : Int)
    (hc : (decide (id = STARRED_TAG_ID) || seen.contains id) = true) :
    reorderPass1 tags seen pos (id :: rest) = reorderPass1 tags seen pos rest := by
  simp only [reorderPass1, if_pos hc]

theorem reorderPass1_cons_none (id : String) (rest : List String)
    (tags : List (String × Option Tag)) (seen : List String) (pos : Int)
    (hc : ¬ (decide (id = STARRED_TAG_ID) || seen.contains id) = true)
    (hget : jsGet tags id = none) :
    reorderPass1 tags seen pos (id :: rest) = reorderPass1 tags seen pos rest := by
  simp only [reorderPass1, if_neg hc, hget]

theorem reorderPass1_cons_null (id : String) (rest : List String)
    (tags : List (String × Option Tag)) (seen : List String) (pos : Int)
    (hc : ¬ (decide (id = STARRED_TAG_ID) || seen.contains id) = true)
    (hget : jsGet tags id = some none) :
    reorderPass1 tags seen pos (id :: rest) = reorderPass1 tags seen pos rest := by
  simp only [reorderPass1, if_neg hc, hget]

theorem reorderPass1_cons_set (id : String) (rest : List String)
    (tags : List (String × Option Tag)) (seen : List String) (pos : Int) (t : Tag)
    (hc : ¬ (decide (id = STARRED_TAG_ID) || seen.contains id) = true)
    (hget : jsGet tags id = some (some t)) :
    reorderPass1 tags seen pos (id :: rest) =
      reorderPass1 (jsSet tags id (some { t with sortOrder := some pos }))
        (seen ++ [id]) (pos + 1) rest := by
  simp only [reorderPass1, if_neg hc, hget]

theorem reorderPass1_keys : ∀ (ids : List String) (tags : List (String × Option Tag))
    (seen : List String) (pos : Int),
    jsKeys (reorderPass1 tags seen pos ids).1 = jsKeys tags := by
  intro ids
  induction ids with
  | nil => intro tags seen pos; rfl
  | cons id rest ih =>
    intro tags seen pos
    simp only [reorderPass1]
    split
    · exact ih tags seen pos
    · rcases hget : jsGet tags id with _ | v
      · exact ih tags seen pos
      · match v with
        | none => exact ih tags seen pos
        | some t =>
          rw [ih]
          rw [jsKeys_set, if_pos (by simp [jsHas, hget])]

theorem reorderPass1_names : ∀ (ids : List String) (tags : List (String × Option Tag))
    (seen : List String) (pos : Int),
    tagNamesLower (reorderPass1 tags seen pos ids).1 = tagNamesLower tags := by
  intro ids
  induction ids with
  | nil => intro tags seen pos; rfl
  | cons id rest ih =>
    intro tags seen pos
    simp only [reorderPass1]
    split
    · exact ih tags seen pos
    · rcases hget : jsGet tags id with _ | v
      · exact ih tags seen pos
      · match v with
        | none => exact ih tags seen pos
        | some t =>
          rw [ih]
          exact tagNamesLower_jsSet_samename tags id t _ hget rfl

theorem reorderPass1_fav : ∀ (ids : List String) (tags : List (String × Option Tag))
    (seen : List String) (pos : Int),
    jsGet (reorderPass1 tags seen pos ids).1 STARRED_TAG_ID
      = jsGet tags STARRED_TAG_ID := by
  intro ids
  induction ids with
  | nil => intro tags seen pos; rfl
  | cons id rest ih =>
    intro tags seen pos
    simp only [reorderPass1]
    split
    · exact ih tags seen pos
    · rename_i hskip
      have hne : id ≠ STARRED_TAG_ID := by
        simp only [Bool.or_eq_true, not_or] at hskip
        intro he
        exact hskip.1 (by simp [he])
      rcases hget : jsGet tags id with _ | v
      · exact ih tags seen pos
      · match v with
        | none => exact ih tags seen pos
        | some t =>
          rw [ih]
          exact jsGet_set_ne tags id STARRED_TAG_ID _ hne

theorem reorderPass1_seen_mem : ∀ (ids : List String) (tags : List (String × Option Tag))
    (seen : List String) (pos : Int) (x : String) (hx : x ∈ seen),
    x ∈ (reorderPass1 tags seen pos ids).2.1 := by
  intro ids
  induction ids with
  | nil => intro tags seen pos x hx; exact hx
  | cons id rest ih =>
    intro tags seen pos x hx
    simp only [reorderPass1]
    split
    · exact ih tags seen pos x hx
    · rcases hget : jsGet tags id with _ | v
      · exact ih tags seen pos x hx
      · match v with
        | none => exact ih tags seen pos x hx
        | some t =>
          exact ih _ _ _ x (List.mem_append_left _ hx)

theorem reorderPass1_frame : ∀ (ids : List String) (tags : List (String × Option Tag))
    (seen : List String) (pos : Int) (k : String)
    (hk : k ∉ (reorderPass1 tags seen pos ids).2.1),
    jsGet (reorderPass1 tags seen pos ids).1 k = jsGet tags k := by
  intro ids
  induction ids with
  | nil => intro tags seen pos k hk; rfl
  | cons id rest ih =>
    intro tags seen pos k hk
    by_cases hcond : (decide (id = STARRED_TAG_ID) || seen.contains id) = true
    · rw [reorderPass1_cons_cond id rest tags seen pos hcond] at hk ⊢
      exact ih tags seen pos k hk
    · rcases hget : jsGet tags id with _ | v
      · rw [reorderPass1_cons_none id rest tags seen pos hcond hget] at hk ⊢
        exact ih tags seen pos k hk
      · match v with
        | none =>
          rw [reorderPass1_cons_null id rest tags seen pos hcond hget] at hk ⊢
          exact ih tags seen pos k hk
        | some t =>
          rw [reorderPass1_cons_set id rest tags seen pos t hcond hget] at hk ⊢
          have hkid : k ≠ id := by
            intro he
            subst he
            exact hk (reorderPass1_seen_mem rest _ _ _ k
              (List.mem_append_right _ (List.mem_singleton.mpr rfl)))
          rw [ih _ _ _ k hk]
          exact jsGet_set_ne tags id k _ (fun h2 => hkid h2.symm)

/-- Combined pass-1 induction: key uniqueness, the id-equals-key value
    shape, and the positions already stamped (1-based, in `seen` order)
    are all preserved and extended. -/
theorem reorderPass1_stamps : ∀ (ids : List String) (tags : List (String × Option Tag))
    (seen : List String) (pos : Int),
    (jsKeys tags).Nodup →
    (∀ k ∈ jsKeys tags, ∃ t, jsGet tags k = some (some t) ∧ t.id = k) →
    seen.Nodup →
    pos = 1 + (seen.length : Int) →
    (∀ i (hi : i < seen.length), seen.get ⟨i, hi⟩ ≠ STARRED_TAG_ID ∧
      ∃ t, jsGet tags (seen.get ⟨i, hi⟩) = some (some t) ∧
        t.sortOrder = some ((i : Int) + 1)) →
    ((jsKeys (reorderPass1 tags seen pos ids).1).Nodup ∧
      (∀ k ∈ jsKeys (reorderPass1 tags seen pos ids).1,
        ∃ t, jsGet (reorderPass1 tags seen pos ids).1 k = some (some t) ∧ t.id = k)) ∧
    ((reorderPass1 tags seen pos ids).2.1).Nodup ∧
    (reorderPass1 tags seen pos ids).2.2
      = 1 + (((reorderPass1 tags seen pos ids).2.1).length : Int) ∧
    (∀ i (hi : i < ((reorderPass1 tags seen pos ids).2.1).length),
      ((reorderPass1 tags seen pos ids).2.1).get ⟨i, hi⟩ ≠ STARRED_TAG_ID ∧
      ∃ t, jsGet (reorderPass1 tags seen pos ids).1
          (((reorderPass1 tags seen pos ids).2.1).get ⟨i, hi⟩) = some (some t) ∧
        t.sortOrder = some ((i : Int) + 1)) := by
  intro ids
  induction ids with
  | nil =>
    intro tags seen pos hnd hvals hsnd hpos hstamps
    exact ⟨⟨hnd, hvals⟩, hsnd, hpos, hstamps⟩
  | cons id rest ih =>
    intro tags seen pos hnd hvals hsnd hpos hstamps
    by_cases hcond : (decide (id = STARRED_TAG_ID) || seen.contains id) = true
    · rw [reorderPass1_cons_cond id rest tags seen pos hcond]
      exact ih tags seen pos hnd hvals hsnd hpos hstamps
    · have hskip := hcond
      simp only [Bool.or_eq_true, not_or] at hskip
      have hidne : id ≠ STARRED_TAG_ID := by
        intro he
        exact hskip.1 (by simp [he])
      have hidnotseen : id ∉ seen := by
        have := hskip.2
        simp at this
        exact this
      rcases hget : jsGet tags id with _ | v
      · rw [reorderPass1_cons_none id rest tags seen pos hcond hget]
        exact ih tags seen pos hnd hvals hsnd hpos hstamps
      · match v with
        | none =>
          rw [reorderPass1_cons_null id rest tags seen pos hcond hget]
          exact ih tags seen pos hnd hvals hsnd hpos hstamps
        | some t =>
          rw [reorderPass1_cons_set id rest tags seen pos t hcond hget]
          have htid : t.id = id := by
            obtain ⟨t0, hget0, htid0⟩ := hvals id (mem_keys_of_jsGet tags id _ hget)
            rw [hget] at hget0
            simp only [Option.some.injEq] at hget0
            rw [← hget0] at htid0
            exact htid0
          have hhas : jsHas tags id := by simp [jsHas, hget]
          apply ih
          · rw [jsKeys_set, if_pos hhas]
            exact hnd
          · intro k hk
            rw [jsKeys_set, if_pos hhas] at hk
            by_cases he : k = id
            · subst he
              exact ⟨{ t with sortOrder := some pos }, jsGet_set_self _ _ _, htid⟩
            · rw [jsGet_set_ne tags id k _ (fun h2 => he h2.symm)]
              exact hvals k hk
          · rw [List.nodup_append]
            exact ⟨hsnd, List.nodup_singleton _,
              fun a ha hb => by rw [List.mem_singleton.mp hb] at ha; exact hidnotseen ha⟩
          · rw [hpos]
            simp only [List.length_append, List.length_singleton]
            push_cast
            ring
          · intro i hi
            rw [List.length_append, List.length_singleton] at hi
            by_cases hlt : i < seen.length
            · have hgeti : (seen ++ [id]).get ⟨i, by simp; omega⟩ = seen.get ⟨i, hlt⟩ := by
                rw [List.get_eq_getElem, List.get_eq_getElem, List.getElem_append_left]
              rw [hgeti]
              obtain ⟨hne, t1, hget1, hord1⟩ := hstamps i hlt
              refine ⟨hne, t1, ?_, hord1⟩
              have hkne : seen.get ⟨i, hlt⟩ ≠ id := by
                intro he
                exact hidnotseen (he ▸ List.get_mem seen i hlt)
              rw [jsGet_set_ne tags id _ _ (fun h2 => hkne h2.symm)]
              exact hget1
            · have hieq : i = seen.length := by omega
              subst hieq
              have hgeti : (seen ++ [id]).get ⟨seen.length, by simp⟩ = id := by
                rw [List.get_eq_getElem, List.getElem_append_right] <;> simp
              rw [hgeti]
              refine ⟨hidne, { t with sortOrder := some pos }, jsGet_set_self _ _ _, ?_⟩
              rw [hpos]
              simp only [Option.some.injEq]
              ring

/-! ### reorderTags: pass 2 bookkeeping -/

theorem reorderPass2_spec : ∀ (rem : List (String × Tag))
    (tags : List (String × Option Tag)) (pos : Int),
    (∀ e ∈ rem, e.1 ∈ jsKeys tags) →
    ((rem.map Prod.fst).Nodup) →
    jsKeys (reorderPass2 tags pos rem).1 = jsKeys tags ∧
    (∀ k : String, (∀ e ∈ rem, e.1 ≠ k) →
      jsGet (reorderPass2 tags pos rem).1 k = jsGet tags k) ∧
    (∀ j (hj : j < rem.length),
      jsGet (reorderPass2 tags pos rem).1 (rem.get ⟨j, hj⟩).1 =
        some (some { (rem.get ⟨j, hj⟩).2 with sortOrder := some (pos + (j : Int)) })) := by
  intro rem
  induction rem with
  | nil =>
    intro tags pos _ _
    refine ⟨rfl, fun k _ => rfl, ?_⟩
    intro j hj
    exact absurd hj (by simp)
  | cons e rest ih =>
    intro tags pos hmem hnd
    have hhas : jsHas tags e.1 := by
      have := jsGet_isSome_of_mem_keys tags e.1 (hmem e (List.mem_cons_self _ _))
      simpa [jsHas] using this
    have hkeys1 : jsKeys (jsSet tags e.1 (some { e.2 with sortOrder := some pos }))
        = jsKeys tags := by
      rw [jsKeys_set, if_pos hhas]
    have hheadni : ∀ e' ∈ rest, e'.1 ≠ e.1 := by
      intro e' he' heq
      rw [List.map_cons, List.nodup_cons] at hnd
      exact hnd.1 (heq ▸ List.mem_map_of_mem Prod.fst he')
    have hstep : reorderPass2 tags pos (e :: rest)
        = reorderPass2 (jsSet tags e.1 (some { e.2 with sortOrder := some pos }))
            (pos + 1) rest := rfl
    obtain ⟨ihkeys, ihframe, ihstamps⟩ :=
      ih (jsSet tags e.1 (some { e.2 with sortOrder := some pos })) (pos + 1)
        (fun e' he' => by rw [hkeys1]; exact hmem e' (List.mem_cons_of_mem _ he'))
        ((List.map_cons Prod.fst e rest ▸ hnd).of_cons)
    refine ⟨?_, ?_, ?_⟩
    · rw [hstep, ihkeys, hkeys1]
    · intro k hk
      rw [hstep, ihframe k (fun e' he' => hk e' (List.mem_cons_of_mem _ he'))]
      exact jsGet_set_ne tags e.1 k _ (fun h2 => hk e (List.mem_cons_self _ _) h2)
    · intro j hj
      match j with
      | 0 =>
        rw [hstep]
        have hget0 : (e :: rest).get ⟨0, hj⟩ = e := rfl
        rw [hget0]
        rw [ihframe e.1 hheadni, jsGet_set_self]
        simp
      | Nat.succ j' =>
        rw [hstep]
        have hj' : j' < rest.length := by
          simp only [List.length_cons] at hj
          omega
        have hget1 : (e :: rest).get ⟨j' + 1, hj⟩ = rest.get ⟨j', hj'⟩ := rfl
        rw [hget1]
        have := ihstamps j' hj'
        rw [this]
        have harith : pos + 1 + (j' : Int) = pos + ((j' + 1 : Nat) : Int) := by
          push_cast
          ring
        rw [harith]

theorem reorderPass2_names : ∀ (rem : List (String × Tag))
    (tags : List (String × Option Tag)) (pos : Int),
    ((rem.map Prod.fst).Nodup) →
    (∀ e ∈ rem, jsGet tags e.1 = some (some e.2)) →
    tagNamesLower (reorderPass2 tags pos rem).1 = tagNamesLower tags := by
  intro rem
  induction rem with
  | nil => intro tags pos _ _; rfl
  | cons e rest ih =>
    intro tags pos hnd hget
    have hheadni : ∀ e' ∈ rest, e'.1 ≠ e.1 := by
      intro e' he' heq
      rw [List.map_cons, List.nodup_cons] at hnd
      exact hnd.1 (heq ▸ List.mem_map_of_mem Prod.fst he')
    have hstep : reorderPass2 tags pos (e :: rest)
        = reorderPass2 (jsSet tags e.1 (some { e.2 with sortOrder := some pos }))
            (pos + 1) rest := rfl
    rw [hstep]
    rw [ih _ (pos + 1) ((List.map_cons Prod.fst e rest ▸ hnd).of_cons) ?hg]
    case hg =>
      intro e' he'
      rw [jsGet_set_ne tags e.1 e'.1 _ (fun h2 => hheadni e' he' h2.symm)]
      exact hget e' (List.mem_cons_of_mem _ he')
    exact tagNamesLower_jsSet_samename tags e.1 e.2 _
      (hget e (List.mem_cons_self _ _)) rfl

theorem reorderPass2_vals : ∀ (rem : List (String × Tag))
    (tags : List (String × Option Tag)) (pos : Int),
    (∀ e ∈ rem, e.2.id = e.1) →
    (∀ e ∈ rem, e.1 ∈ jsKeys tags) →
    (∀ k ∈ jsKeys tags, ∃ t, jsGet tags k = some (some t) ∧ t.id = k) →
    (∀ k ∈ jsKeys (reorderPass2 tags pos rem).1,
      ∃ t, jsGet (reorderPass2 tags pos rem).1 k = some (some t) ∧ t.id = k) := by
  intro rem
  induction rem with
  | nil => intro tags pos _ _ hvals; exact hvals
  | cons e rest ih =>
    intro tags pos hids hmem hvals
    have hhas : jsHas tags e.1 := by
      have := jsGet_isSome_of_mem_keys tags e.1 (hmem e (List.mem_cons_self _ _))
      simpa [jsHas] using this
    have hkeys1 : jsKeys (jsSet tags e.1 (some { e.2 with sortOrder := some pos }))
        = jsKeys tags := by
      rw [jsKeys_set, if_pos hhas]
    have hstep : reorderPass2 tags pos (e :: rest)
        = reorderPass2 (jsSet tags e.1 (some { e.2 with sortOrder := some pos }))
            (pos + 1) rest := rfl
    rw [hstep]
    apply ih
    · exact fun e' he' => hids e' (List.mem_cons_of_mem _ he')
    · intro e' he'
      rw [hkeys1]
      exact hmem e' (List.mem_cons_of_mem _ he')
    · intro k hk
      rw [hkeys1] at hk
      by_cases he : k = e.1
      · subst he
        exact ⟨{ e.2 with sortOrder := some pos }, jsGet_set_self _ _ _,
          hids e (List.mem_cons_self _ _)⟩
      · rw [jsGet_set_ne tags e.1 k _ (fun h2 => he h2.symm)]
        exact hvals k hk

/-- `reorderTags` always succeeds, persists its result, and the persisted
    state satisfies the document invariant. -/
theorem reorderTags_ok (tagIds : List String) (stored : Option TagDocIn) (now : Nat)
    (hst : StoredInv stored) :
    ∃ st2, reorderTags tagIds stored now = Except.ok ⟨st2, some st2⟩ ∧ StateInv st2 := by
  obtain ⟨hinv, hdense⟩ := normalize_stored_inv stored now hst
  rcases hp1 : reorderPass1 (normalizeTagState stored now).tags [] 1 tagIds
    with ⟨tags1, seen, pos1⟩
  have hkeys1 : jsKeys tags1 = jsKeys (normalizeTagState stored now).tags := by
    have h := reorderPass1_keys tagIds (normalizeTagState stored now).tags [] 1
    rw [hp1] at h
    exact h
  have hnames1 : tagNamesLower tags1
      = tagNamesLower (normalizeTagState stored now).tags := by
    have h := reorderPass1_names tagIds (normalizeTagState stored now).tags [] 1
    rw [hp1] at h
    exact h
  have hfav1 : jsGet tags1 STARRED_TAG_ID
      = jsGet (normalizeTagState stored now).tags STARRED_TAG_ID := by
    have h := reorderPass1_fav tagIds (normalizeTagState stored now).tags [] 1
    rw [hp1] at h
    exact h
  have hstamps0 := reorderPass1_stamps tagIds (normalizeTagState stored now).tags [] 1
    hinv.keysNodup hinv.vals List.nodup_nil (by simp)
    (by intro i hi; exact absurd hi (by simp))
  rw [hp1] at hstamps0
  have hnd1 : (jsKeys tags1).Nodup := hstamps0.1.1
  have hvals1 : ∀ k ∈ jsKeys tags1, ∃ t, jsGet tags1 k = some (some t) ∧ t.id = k :=
    hstamps0.1.2
  have hpos1 : pos1 = 1 + (seen.length : Int) := hstamps0.2.2.1
  have hstamps1 : ∀ i (hi : i < seen.length), seen.get ⟨i, hi⟩ ≠ STARRED_TAG_ID ∧
      ∃ t, jsGet tags1 (seen.get ⟨i, hi⟩) = some (some t) ∧
        t.sortOrder = some ((i : Int) + 1) := hstamps0.2.2.2
  set rem := stableSort pairTagLe
    ((sortableEntries tags1).filter (fun e => !(seen.contains e.2.id))) with hremdef
  have hperm : List.Perm rem
      ((sortableEntries tags1).filter (fun e => !(seen.contains e.2.id))) := by
    rw [hremdef]
    exact stableSort_perm _ _
  have hremmem0 : ∀ e ∈ rem, e ∈ sortableEntries tags1 ∧ e.2.id ∉ seen := by
    intro e he
    have hmf := List.mem_filter.mp (hperm.subset he)
    refine ⟨hmf.1, ?_⟩
    have h2 := hmf.2
    simp at h2
    exact h2
  have hremget : ∀ e ∈ rem, jsGet tags1 e.1 = some (some e.2) := by
    intro e he
    have hmem := ((mem_sortableEntries_iff tags1 e.1 e.2).mp (hremmem0 e he).1).1
    exact jsGet_eq_some_of_mem_nodup hnd1 hmem
  have hremid : ∀ e ∈ rem, e.2.id = e.1 := by
    intro e he
    obtain ⟨t, hget, htid⟩ := hvals1 e.1 (mem_keys_of_jsGet _ _ _ (hremget e he))
    rw [hremget e he] at hget
    simp only [Option.some.injEq] at hget
    rw [← hget] at htid
    exact htid
  have hremnotseen : ∀ e ∈ rem, e.1 ∉ seen :=
    fun e he => (hremid e he) ▸ (hremmem0 e he).2
  have hremnest : ∀ e ∈ rem, e.1 ≠ STARRED_TAG_ID := by
    intro e he
    have h := ((mem_sortableEntries_iff tags1 e.1 e.2).mp (hremmem0 e he).1).2
    rw [hremid e he] at h
    exact h
  have hremkeysnd : (rem.map Prod.fst).Nodup := by
    have hsubl : List.Sublist
        ((sortableEntries tags1).filter (fun e => !(seen.contains e.2.id)))
        (sortableEntries tags1) := List.filter_sublist _
    have hnodf := (hsubl.map Prod.fst).nodup (sortableEntries_keys_nodup tags1 hnd1)
    exact (hperm.map Prod.fst).nodup_iff.mpr hnodf
  have hremmemk : ∀ e ∈ rem, e.1 ∈ jsKeys tags1 :=
    fun e he => mem_keys_of_jsGet _ _ _ (hremget e he)
  rcases hp2 : reorderPass2 tags1 pos1 rem with ⟨tags2, pos2⟩
  have hspec2 := reorderPass2_spec rem tags1 pos1 hremmemk hremkeysnd
  rw [hp2] at hspec2
  have hkeys2 : jsKeys tags2 = jsKeys tags1 := hspec2.1
  have hnd2 : (jsKeys tags2).Nodup := by rw [hkeys2]; exact hnd1
  have hframe2 : ∀ k : String, (∀ e ∈ rem, e.1 ≠ k) →
      jsGet tags2 k = jsGet tags1 k := hspec2.2.1
  have hstamps2 : ∀ j (hj : j < rem.length),
      jsGet tags2 (rem.get ⟨j, hj⟩).1 =
        some (some { (rem.get ⟨j, hj⟩).2 with sortOrder := some (pos1 + (j : Int)) }) :=
    hspec2.2.2
  have hnames2 : tagNamesLower tags2 = tagNamesLower tags1 := by
    have h := reorderPass2_names rem tags1 pos1 hremkeysnd hremget
    rw [hp2] at h
    exact h
  have hvals2 : ∀ k ∈ jsKeys tags2, ∃ t, jsGet tags2 k = some (some t) ∧ t.id = k := by
    have h := reorderPass2_vals rem tags1 pos1 hremid hremmemk hvals1
    rw [hp2] at h
    exact h
  obtain ⟨f, hf, hfid, hfname, hflk, hfcol, hfcr, hford⟩ := hinv.fav
  have hfav2 : jsGet tags2 STARRED_TAG_ID = some (some f) := by
    rw [hframe2 _ hremnest, hfav1, hf]
  have hfavok2 : ∀ t, jsGet tags2 STARRED_TAG_ID = some (some t) →
      t.id = STARRED_TAG_ID := by
    intro t ht
    rw [hfav2] at ht
    simp only [Option.some.injEq] at ht
    rw [← ht]
    exact hfid
  have hsort3 : sortableEntries
        (jsSet tags2 STARRED_TAG_ID (some { f with sortOrder := some 0 }))
      = sortableEntries tags2 :=
    sortableEntries_jsSet_starredval { f with sortOrder := some 0 } hfid tags2 hfavok2
  have hhas2 : jsHas tags2 STARRED_TAG_ID := by simp [jsHas, hfav2]
  have hkeys3 : jsKeys (jsSet tags2 STARRED_TAG_ID (some { f with sortOrder := some 0 }))
      = jsKeys tags2 := by
    rw [jsKeys_set, if_pos hhas2]
  have hchar : ∀ k t, (k, t) ∈ sortableEntries tags2 →
      (∃ i, ∃ hi : i < seen.length, seen.get ⟨i, hi⟩ = k ∧
        t.sortOrder = some ((i : Int) + 1)) ∨
      (∃ j, ∃ hj : j < rem.length, (rem.get ⟨j, hj⟩).1 = k ∧
        t.sortOrder = some (pos1 + (j : Int))) := by
    intro k t hmem
    obtain ⟨hmem2, htne⟩ := (mem_sortableEntries_iff tags2 k t).mp hmem
    have hget2 : jsGet tags2 k = some (some t) := jsGet_eq_some_of_mem_nodup hnd2 hmem2
    by_cases hkseen : k ∈ seen
    · left
      obtain ⟨⟨i, hi⟩, hgi⟩ := List.mem_iff_get.mp hkseen
      refine ⟨i, hi, hgi, ?_⟩
      obtain ⟨hne, t1, hgt1, hord1⟩ := hstamps1 i hi
      have hframe2k : jsGet tags2 k = jsGet tags1 k :=
        hframe2 k (fun e he heq => (hremnotseen e he) (heq ▸ hkseen))
      rw [hgi] at hgt1
      rw [hframe2k, hgt1] at hget2
      simp only [Option.some.injEq] at hget2
      rw [← hget2]
      exact hord1
    · right
      have hkrem : k ∈ rem.map Prod.fst := by
        by_contra hk
        have hframe2k : jsGet tags2 k = jsGet tags1 k :=
          hframe2 k (fun e he heq => hk (heq ▸ List.mem_map_of_mem Prod.fst he))
        have hget1 : jsGet tags1 k = some (some t) := by
          rw [← hframe2k]
          exact hget2
        have hmem1 : (k, some t) ∈ tags1 := mem_of_jsGet_eq_some tags1 k (some t) hget1
        have hsort1 : (k, t) ∈ sortableEntries tags1 :=
          (mem_sortableEntries_iff tags1 k t).mpr ⟨hmem1, htne⟩
        have htid : t.id = k := by
          obtain ⟨t0, hg0, ht0⟩ := hvals1 k (mem_keys_of_jsGet _ _ _ hget1)
          rw [hget1] at hg0
          simp only [Option.some.injEq] at hg0
          rw [← hg0] at ht0
          exact ht0
        have hfilt : (k, t) ∈ (sortableEntries tags1).filter
            (fun e => !(seen.contains e.2.id)) := by
          rw [List.mem_filter]
          refine ⟨hsort1, ?_⟩
          simp [htid, hkseen]
        exact hk (List.mem_map_of_mem Prod.fst (hperm.symm.subset hfilt))
      obtain ⟨e, he, hek⟩ := List.mem_map.mp hkrem
      obtain ⟨⟨j, hj⟩, hgj⟩ := List.mem_iff_get.mp he
      refine ⟨j, hj, by rw [hgj]; exact hek, ?_⟩
      have hs := hstamps2 j hj
      rw [hgj, hek, hget2] at hs
      simp only [Option.some.injEq] at hs
      rw [hs]
  have hordpos : ∀ o ∈ sortableOrders
      (jsSet tags2 STARRED_TAG_ID (some { f with sortOrder := some 0 })),
      ∃ m, o = some m ∧ 1 ≤ m := by
    intro o ho
    unfold sortableOrders at ho
    rw [hsort3] at ho
    rcases List.mem_map.mp ho with ⟨e, hem, hoe⟩
    rcases hchar e.1 e.2 hem with ⟨i, hi, _, hord⟩ | ⟨j, hj, _, hord⟩
    · exact ⟨(i : Int) + 1, by rw [← hoe, hord], by omega⟩
    · refine ⟨pos1 + (j : Int), by rw [← hoe, hord], ?_⟩
      rw [hpos1]
      omega
  have hordnodup : (sortableOrders
      (jsSet tags2 STARRED_TAG_ID (some { f with sortOrder := some 0 }))).Nodup := by
    unfold sortableOrders
    rw [hsort3]
    have hentnd : (sortableEntries tags2).Nodup :=
      (sortableEntries_keys_nodup tags2 hnd2).of_map
    refine List.Nodup.map_on ?_ hentnd
    intro e1 he1 e2 he2 heq
    have hkeq : e1.1 = e2.1 := by
      rcases hchar e1.1 e1.2 he1 with ⟨i1, hi1, hk1, ho1⟩ | ⟨j1, hj1, hk1, ho1⟩ <;>
        rcases hchar e2.1 e2.2 he2 with ⟨i2, hi2, hk2, ho2⟩ | ⟨j2, hj2, hk2, ho2⟩
      · rw [ho1, ho2] at heq
        simp only [Option.some.injEq] at heq
        have hieq : i1 = i2 := by omega
        subst hieq
        rw [← hk1, ← hk2]
      · exfalso
        rw [ho1, ho2] at heq
        simp only [Option.some.injEq] at heq
        rw [hpos1] at heq
        omega
      · exfalso
        rw [ho1, ho2] at heq
        simp only [Option.some.injEq] at heq
        rw [hpos1] at heq
        omega
      · rw [ho1, ho2] at heq
        simp only [Option.some.injEq] at heq
        have hjeq : j1 = j2 := by omega
        subst hjeq
        rw [← hk1, ← hk2]
    have hg1 : jsGet tags2 e1.1 = some (some e1.2) :=
      jsGet_eq_some_of_mem_nodup hnd2 ((mem_sortableEntries_iff tags2 e1.1 e1.2).mp he1).1
    have hg2 : jsGet tags2 e2.1 = some (some e2.2) :=
      jsGet_eq_some_of_mem_nodup hnd2 ((mem_sortableEntries_iff tags2 e2.1 e2.2).mp he2).1
    rw [hkeq, hg2] at hg1
    simp only [Option.some.injEq] at hg1
    have he12 : e1 = e2 := Prod.ext hkeq hg1.symm
    exact he12
  refine ⟨{ normalizeTagState stored now with
    tags := jsSet tags2 STARRED_TAG_ID (some { f with sortOrder := some 0 }) }, ?_, ?_⟩
  · simp only [reorderTags, hp1]
    rw [← hremdef]
    simp only [hp2, hfav2]
    rfl
  · refine ⟨?_, ?_, ?_, ?_, ?_, ?_, ?_, ?_⟩
    · show (jsKeys (jsSet tags2 STARRED_TAG_ID
        (some { f with sortOrder := some 0 }))).Nodup
      rw [hkeys3, hkeys2, hkeys1]
      exact hinv.keysNodup
    · exact ⟨{ f with sortOrder := some 0 }, jsGet_set_self _ _ _, hfid, hfname, hflk,
        hfcol, hfcr, rfl⟩
    · intro k hk
      show ∃ t, jsGet (jsSet tags2 STARRED_TAG_ID
        (some { f with sortOrder := some 0 })) k = some (some t) ∧ t.id = k
      rw [show ({ normalizeTagState stored now with
          tags := jsSet tags2 STARRED_TAG_ID (some { f with sortOrder := some 0 }) }
            : TagState).tags
        = jsSet tags2 STARRED_TAG_ID (some { f with sortOrder := some 0 }) from rfl,
        hkeys3] at hk
      by_cases he : k = STARRED_TAG_ID
      · subst he
        refine ⟨{ f with sortOrder := some 0 }, jsGet_set_self _ _ _, hfid⟩
      · rw [jsGet_set_ne tags2 STARRED_TAG_ID k _ (fun h2 => he h2.symm)]
        exact hvals2 k hk
    · show (tagNamesLower (jsSet tags2 STARRED_TAG_ID
        (some { f with sortOrder := some 0 }))).Nodup
      rw [tagNamesLower_jsSet_samename tags2 STARRED_TAG_ID f
        { f with sortOrder := some 0 } hfav2 rfl, hnames2, hnames1]
      exact hinv.names
    · exact hordpos
    · exact hordnodup
    · exact hinv.nextIdPos
    · intro k hk m hm
      rw [show ({ normalizeTagState stored now with
          tags := jsSet tags2 STARRED_TAG_ID (some { f with sortOrder := some 0 }) }
            : TagState).tags
        = jsSet tags2 STARRED_TAG_ID (some { f with sortOrder := some 0 }) from rfl,
        hkeys3, hkeys2, hkeys1] at hk
      exact hinv.nextIdGt k hk m hm

/-! ### Reductions of the `Except` monad operations -/

@[simp] theorem except_bind_error {α β : Type} (e : String)
    (f : α → Except String β) :
    (Except.error e : Except String α) >>= f = Except.error e := rfl

@[simp] theorem except_bind_ok {α β : Type} (a : α) (f : α → Except String β) :
    (Except.ok a : Except String α) >>= f = f a := rfl

@[simp] theorem except_throw_eq {α : Type} (e : String) :
    (throw e : Except String α) = Except.error e := rfl

@[simp] theorem except_pure_eq {α : Type} (a : α) :
    (pure a : Except String α) = Except.ok a := rfl

/-! ### removeTag: case analysis and invariant preservation -/

/-- Exhaustive case analysis of `removeTag`: starred-tag error; silent
    no-persist return for an unknown id; or deletion with persistence. -/
theorem removeTag_cases (tagId : String) (stored : Option TagDocIn) (now : Nat) :
    (tagId = STARRED_TAG_ID ∧ removeTag tagId stored now
        = Except.error "Favorite tag cannot be modified.") ∨
    (tagId ≠ STARRED_TAG_ID ∧
      (jsGet (normalizeTagState stored now).tags tagId = none ∨
        jsGet (normalizeTagState stored now).tags tagId = some none) ∧
      removeTag tagId stored now = Except.ok ⟨normalizeTagState stored now, none⟩) ∨
    (tagId ≠ STARRED_TAG_ID ∧
      (∃ t, jsGet (normalizeTagState stored now).tags tagId = some (some t)) ∧
      removeTag tagId stored now = Except.ok
        ⟨⟨jsDelete (normalizeTagState stored now).tags tagId,
          (normalizeTagState stored now).assignments.filterMap (fun kv =>
            if ((kv.2.filter (fun id => id ≠ tagId)).length ≠ 0)
            then some (kv.1, kv.2.filter (fun id => id ≠ tagId)) else none),
          (normalizeTagState stored now).nextId⟩,
         some ⟨jsDelete (normalizeTagState stored now).tags tagId,
          (normalizeTagState stored now).assignments.filterMap (fun kv =>
            if ((kv.2.filter (fun id => id ≠ tagId)).length ≠ 0)
            then some (kv.1, kv.2.filter (fun id => id ≠ tagId)) else none),
          (normalizeTagState stored now).nextId⟩⟩) := by
  by_cases hc : tagId = STARRED_TAG_ID
  · left
    refine ⟨hc, ?_⟩
    simp [removeTag, hc]
  · rcases hget : jsGet (normalizeTagState stored now).tags tagId with _ | v
    · right; left
      refine ⟨hc, Or.inl rfl, ?_⟩
      simp [removeTag, hc, hget]
    · match v with
      | none =>
        right; left
        refine ⟨hc, Or.inr rfl, ?_⟩
        simp [removeTag, hc, hget]
      | some t =>
        right; right
        refine ⟨hc, ⟨t, rfl⟩, ?_⟩
        simp [removeTag, hc, hget]

/-- Deleting a (non-starred) tag key keeps the document invariant, for any
    accompanying assignment cleanup. -/
theorem remove_inv (s1 : TagState) (hinv : StateInv s1) (tid : String)
    (htid : tid ≠ STARRED_TAG_ID) (assigns2 : List (String × List String)) :
    StateInv ⟨jsDelete s1.tags tid, assigns2, s1.nextId⟩ := by
  have hsub : List.Sublist (jsDelete s1.tags tid) s1.tags := List.filter_sublist _
  refine ⟨?_, ?_, ?_, ?_, ?_, ?_, ?_, ?_⟩
  · exact jsKeys_delete_nodup s1.tags tid hinv.keysNodup
  · obtain ⟨f, hf, hrest⟩ := hinv.fav
    refine ⟨f, ?_, hrest⟩
    show jsGet (jsDelete s1.tags tid) STARRED_TAG_ID = some (some f)
    rw [jsGet_delete_ne s1.tags tid STARRED_TAG_ID (fun h2 => htid h2.symm)]
    exact hf
  · intro k hk
    obtain ⟨hk1, hk2⟩ := mem_keys_delete s1.tags tid k hk
    show ∃ t, jsGet (jsDelete s1.tags tid) k = some (some t) ∧ t.id = k
    rw [jsGet_delete_ne s1.tags tid k hk2]
    exact hinv.vals k hk1
  · exact (tagNamesLower_sublist hsub).nodup hinv.names
  · intro o ho
    exact hinv.orders o ((sortableOrders_sublist hsub).subset ho)
  · exact (sortableOrders_sublist hsub).nodup hinv.ordersNodup
  · exact hinv.nextIdPos
  · intro k hk m hm
    obtain ⟨hk1, _⟩ := mem_keys_delete s1.tags tid k hk
    exact hinv.nextIdGt k hk1 m hm

/-! ### upsertTag: duplicate-name scan consequences and invariant
preservation -/

theorem update_any_fresh (s1 : TagState) (hinv : StateInv s1) (tid : String)
    (nmLower : String)
    (hany : s1.tags.any (fun kv => match kv.2 with
      | some tag => tag.id ≠ tid && jsToLower tag.name = nmLower
      | none => false) = false) :
    ∀ kv ∈ s1.tags, ∀ u : Tag, kv.2 = some u → kv.1 ≠ tid →
      jsToLower u.name ≠ nmLower := by
  intro kv hm u hu hne
  have h1 := any_eq_false_forall s1.tags
    (fun tag => tag.id ≠ tid && jsToLower tag.name = nmLower) hany kv hm u hu
  have hget : jsGet s1.tags kv.1 = some kv.2 :=
    jsGet_eq_some_of_mem_nodup hinv.keysNodup hm
  have huid : u.id = kv.1 := by
    obtain ⟨t, hgt, htid⟩ := hinv.vals kv.1 (mem_keys_of_jsGet _ _ _ hget)
    rw [hget, hu] at hgt
    simp only [Option.some.injEq] at hgt
    rw [hgt]
    exact htid
  have h2 : decide (u.id ≠ tid) = true := by simp [huid, hne]
  simp only [h2, Bool.true_and] at h1
  intro heq
  simp only [heq] at h1
  simp at h1

theorem create_any_fresh (tags : List (String × Option Tag)) (nmLower : String)
    (hany : tags.any (fun kv => match kv.2 with
      | some tag => jsToLower tag.name = nmLower
      | none => false) = false) :
    ∀ x ∈ tagNamesLower tags, x ≠ nmLower := by
  intro x hx heq
  rcases (mem_tagNamesLower tags x).mp hx with ⟨kv, hm, u, hu, hlow⟩
  have h1 := any_eq_false_forall tags
    (fun tag => jsToLower tag.name = nmLower) hany kv hm u hu
  simp only [decide_eq_false_iff_not] at h1
  exact h1 (by rw [hlow, heq])

set_option maxHeartbeats 1000000 in
/-- Whenever `upsertTag` succeeds and persists, the persisted state
    satisfies the document invariant. -/
theorem upsertTag_persist_inv (fields : UpsertFields) (tagId : Option String)
    (stored : Option TagDocIn) (now : Nat) (hst : StoredInv stored)
    (r : OpResult) (s2 : TagState)
    (h : upsertTag fields tagId stored now = Except.ok r)
    (hp : r.persisted = some s2) : StateInv s2 := by
  obtain ⟨hinv, hdense⟩ := normalize_stored_inv stored now hst
  simp only [upsertTag] at h
  rcases hcol0 : fields.color with _ | copt
  · rw [hcol0] at h
    simp only [except_pure_eq, except_bind_ok] at h
    rcases hnm0 : fields.name with _ | nmo
    · rw [hnm0] at h
      rcases htid0 : tagId with _ | t0
      · simp [hnm0, htid0] at h
      · by_cases ht0 : t0 = ""
        · simp [hnm0, htid0, ht0] at h
        · by_cases hst0 : t0 = STARRED_TAG_ID
          · simp +decide [hnm0, htid0, ht0, hst0] at h
          · rcases hget : jsGet (normalizeTagState stored now).tags t0 with _ | v
            · simp [hnm0, htid0, ht0, hst0, hget] at h
            · match v with
              | none => simp [hnm0, htid0, ht0, hst0, hget] at h
              | some existing =>
                simp [hnm0, htid0, ht0, hst0, hget] at h
                subst h
                simp at hp
                subst hp
                exact upsert_update_inv (normalizeTagState stored now) hinv t0 existing
                  _ hget hst0 rfl rfl (Or.inl rfl)
    · rcases nmo with _ | s
      · rw [hnm0] at h
        rcases htid0 : tagId with _ | t0
        · simp [hnm0, htid0] at h
        · by_cases ht0 : t0 = ""
          · simp [hnm0, htid0, ht0] at h
          · by_cases hst0 : t0 = STARRED_TAG_ID
            · simp +decide [hnm0, htid0, ht0, hst0] at h
            · rcases hget : jsGet (normalizeTagState stored now).tags t0 with _ | v
              · simp [hnm0, htid0, ht0, hst0, hget] at h
              · match v with
                | none => simp [hnm0, htid0, ht0, hst0, hget] at h
                | some existing => simp [hnm0, htid0, ht0, hst0, hget] at h
      · rw [hnm0] at h
        by_cases hemp : sanitizeTagName s = ""
        · rcases htid0 : tagId with _ | t0
          · simp [hnm0, hemp, htid0] at h
          · by_cases ht0 : t0 = ""
            · simp [hnm0, hemp, htid0, ht0] at h
            · by_cases hst0 : t0 = STARRED_TAG_ID
              · simp +decide [hnm0, hemp, htid0, ht0, hst0] at h
              · rcases hget : jsGet (normalizeTagState stored now).tags t0 with _ | v
                · simp [hnm0, hemp, htid0, ht0, hst0, hget] at h
                · match v with
                  | none => simp [hnm0, hemp, htid0, ht0, hst0, hget] at h
                  | some existing => simp [hnm0, hemp, htid0, ht0, hst0, hget] at h
        · by_cases hvalid : isValidTagName (sanitizeTagName s) = true
          case neg =>
            have hvalid2 : isValidTagName (sanitizeTagName s) = false := by
              simpa using hvalid
            simp [hnm0, hemp, hvalid2] at h
          case pos =>
            by_cases hs1 : jsToLower (sanitizeTagName s) = STARRED_TAG_NAME_LOWER
            · rcases htid0 : tagId with _ | t0
              · simp [hnm0, hemp, hvalid, hs1, htid0] at h
              · by_cases ht0 : t0 = ""
                · simp [hnm0, hemp, hvalid, hs1, htid0, ht0] at h
                · by_cases hst0 : t0 = STARRED_TAG_ID
                  · simp +decide [hnm0, hemp, hvalid, hs1, htid0, ht0, hst0] at h
                  · rcases hget : jsGet (normalizeTagState stored now).tags t0 with _ | v
                    · simp [hnm0, hemp, hvalid, hs1, htid0, ht0, hst0, hget] at h
                    · match v with
                      | none => simp [hnm0, hemp, hvalid, hs1, htid0, ht0, hst0, hget] at h
                      | some existing => simp [hnm0, hemp, hvalid, hs1, htid0, ht0, hst0, hget] at h
            · by_cases hs2 : jsToLower (sanitizeTagName s) = "favorite"
              · rcases htid0 : tagId with _ | t0
                · simp [hnm0, hemp, hvalid, hs1, hs2, htid0] at h
                · by_cases ht0 : t0 = ""
                  · simp [hnm0, hemp, hvalid, hs1, hs2, htid0, ht0] at h
                  · by_cases hst0 : t0 = STARRED_TAG_ID
                    · simp +decide [hnm0, hemp, hvalid, hs1, hs2, htid0, ht0, hst0] at h
                    · rcases hget : jsGet (normalizeTagState stored now).tags t0 with _ | v
                      · simp [hnm0, hemp, hvalid, hs1, hs2, htid0, ht0, hst0, hget] at h
                      · match v with
                        | none => simp [hnm0, hemp, hvalid, hs1, hs2, htid0, ht0, hst0, hget] at h
                        | some existing => simp [hnm0, hemp, hvalid, hs1, hs2, htid0, ht0, hst0, hget] at h
              · by_cases hs3 : jsToLower (sanitizeTagName s) = "starred"
                · rcases htid0 : tagId with _ | t0
                  · simp [hnm0, hemp, hvalid, hs1, hs2, hs3, htid0] at h
                  · by_cases ht0 : t0 = ""
                    · simp [hnm0, hemp, hvalid, hs1, hs2, hs3, htid0, ht0] at h
                    · by_cases hst0 : t0 = STARRED_TAG_ID
                      · simp +decide [hnm0, hemp, hvalid, hs1, hs2, hs3, htid0, ht0, hst0] at h
                      · rcases hget : jsGet (normalizeTagState stored now).tags t0 with _ | v
                        · simp [hnm0, hemp, hvalid, hs1, hs2, hs3, htid0, ht0, hst0, hget] at h
                        · match v with
                          | none => simp [hnm0, hemp, hvalid, hs1, hs2, hs3, htid0, ht0, hst0, hget] at h
                          | some existing => simp [hnm0, hemp, hvalid, hs1, hs2, hs3, htid0, ht0, hst0, hget] at h
                · rcases htid0 : tagId with _ | t0
                  · simp [hnm0, hemp, hvalid, hs1, hs2, hs3, htid0] at h
                    split at h
                    · simp at h
                    · rename_i hcond
                      simp only [Except.ok.injEq] at h
                      subst h
                      simp at hp
                      subst hp
                      refine upsert_create_inv (normalizeTagState stored now) hinv hdense now
                        (sanitizeTagName s) _ ?_
                      intro x hx heq
                      apply hcond
                      rw [List.any_eq_true]
                      rcases (mem_tagNamesLower (normalizeTagState stored now).tags x).mp hx with
                        ⟨kv, hm, u, hu, hlow⟩
                      refine ⟨kv, hm, ?_⟩
                      rw [hu]
                      simp [hlow, heq]
                  · by_cases ht0 : t0 = ""
                    · simp [hnm0, hemp, hvalid, hs1, hs2, hs3, htid0, ht0] at h
                      split at h
                      · simp at h
                      · rename_i hcond
                        simp only [Except.ok.injEq] at h
                        subst h
                        simp at hp
                        subst hp
                        refine upsert_create_inv (normalizeTagState stored now) hinv hdense now
                          (sanitizeTagName s) _ ?_
                        intro x hx heq
                        apply hcond
                        rw [List.any_eq_true]
                        rcases (mem_tagNamesLower (normalizeTagState stored now).tags x).mp hx with
                          ⟨kv, hm, u, hu, hlow⟩
                        refine ⟨kv, hm, ?_⟩
                        rw [hu]
                        simp [hlow, heq]
                    · by_cases hst0 : t0 = STARRED_TAG_ID
                      · simp +decide [hnm0, hemp, hvalid, hs1, hs2, hs3, htid0, ht0, hst0] at h
                      · rcases hget : jsGet (normalizeTagState stored now).tags t0 with _ | v
                        · simp [hnm0, hemp, hvalid, hs1, hs2, hs3, htid0, ht0, hst0, hget] at h
                        · match v with
                          | none =>
                            simp [hnm0, hemp, hvalid, hs1, hs2, hs3, htid0, ht0, hst0, hget] at h
                          | some existing =>
                            simp [hnm0, hemp, hvalid, hs1, hs2, hs3, htid0, ht0, hst0, hget] at h
                            split at h
                            · simp at h
                            · rename_i hcond
                              simp only [Except.ok.injEq] at h
                              subst h
                              simp at hp
                              subst hp
                              refine upsert_update_inv (normalizeTagState stored now) hinv t0 existing
                                _ hget hst0 rfl rfl (Or.inr ?_)
                              intro kv hm u hu hne heq
                              apply hcond
                              rw [List.any_eq_true]
                              have hgetkv : jsGet (normalizeTagState stored now).tags kv.1 = some kv.2 :=
                                jsGet_eq_some_of_mem_nodup hinv.keysNodup hm
                              obtain ⟨t1, hg1, ht1⟩ := hinv.vals kv.1 (mem_keys_of_jsGet _ _ _ hgetkv)
                              rw [hgetkv, hu] at hg1
                              simp only [Option.some.injEq] at hg1
                              have huid : u.id = kv.1 := by rw [hg1]; exact ht1
                              refine ⟨kv, hm, ?_⟩
                              rw [hu]
                              simp [huid, hne, heq]
  · rw [hcol0] at h
    simp only [] at h
    rcases hcolr : normalizeTagColorStrict copt with ec | nc
    · rw [hcolr] at h
      simp only [except_bind_error] at h
      exact absurd h (by simp)
    · rw [hcolr] at h
      simp only [except_bind_ok] at h
      rcases hnm0 : fields.name with _ | nmo
      · rw [hnm0] at h
        rcases htid0 : tagId with _ | t0
        · simp [hnm0, htid0] at h
        · by_cases ht0 : t0 = ""
          · simp [hnm0, htid0, ht0] at h
          · by_cases hst0 : t0 = STARRED_TAG_ID
            · simp +decide [hnm0, htid0, ht0, hst0] at h
            · rcases hget : jsGet (normalizeTagState stored now).tags t0 with _ | v
              · simp [hnm0, htid0, ht0, hst0, hget] at h
              · match v with
                | none => simp [hnm0, htid0, ht0, hst0, hget] at h
                | some existing =>
                  simp [hnm0, htid0, ht0, hst0, hget] at h
                  subst h
                  simp at hp
                  subst hp
                  exact upsert_update_inv (normalizeTagState stored now) hinv t0 existing
                    _ hget hst0 rfl rfl (Or.inl rfl)
      · rcases nmo with _ | s
        · rw [hnm0] at h
          rcases htid0 : tagId with _ | t0
          · simp [hnm0, htid0] at h
          · by_cases ht0 : t0 = ""
            · simp [hnm0, htid0, ht0] at h
            · by_cases hst0 : t0 = STARRED_TAG_ID
              · simp +decide [hnm0, htid0, ht0, hst0] at h
              · rcases hget : jsGet (normalizeTagState stored now).tags t0 with _ | v
                · simp [hnm0, htid0, ht0, hst0, hget] at h
                · match v with
                  | none => simp [hnm0, htid0, ht0, hst0, hget] at h
                  | some existing => simp [hnm0, htid0, ht0, hst0, hget] at h
        · rw [hnm0] at h
          by_cases hemp : sanitizeTagName s = ""
          · rcases htid0 : tagId with _ | t0
            · simp [hnm0, hemp, htid0] at h
            · by_cases ht0 : t0 = ""
              · simp [hnm0, hemp, htid0, ht0] at h
              · by_cases hst0 : t0 = STARRED_TAG_ID
                · simp +decide [hnm0, hemp, htid0, ht0, hst0] at h
                · rcases hget : jsGet (normalizeTagState stored now).tags t0 with _ | v
                  · simp [hnm0, hemp, htid0, ht0, hst0, hget] at h
                  · match v with
                    | none => simp [hnm0, hemp, htid0, ht0, hst0, hget] at h
                    | some existing => simp [hnm0, hemp, htid0, ht0, hst0, hget] at h
          · by_cases hvalid : isValidTagName (sanitizeTagName s) = true
            case neg =>
              have hvalid2 : isValidTagName (sanitizeTagName s) = false := by
                simpa using hvalid
              simp [hnm0, hemp, hvalid2] at h
            case pos =>
              by_cases hs1 : jsToLower (sanitizeTagName s) = STARRED_TAG_NAME_LOWER
              · rcases htid0 : tagId with _ | t0
                · simp [hnm0, hemp, hvalid, hs1, htid0] at h
                · by_cases ht0 : t0 = ""
                  · simp [hnm0, hemp, hvalid, hs1, htid0, ht0] at h
                  · by_cases hst0 : t0 = STARRED_TAG_ID
                    · simp +decide [hnm0, hemp, hvalid, hs1, htid0, ht0, hst0] at h
                    · rcases hget : jsGet (normalizeTagState stored now).tags t0 with _ | v
                      · simp [hnm0, hemp, hvalid, hs1, htid0, ht0, hst0, hget] at h
                      · match v with
                        | none => simp [hnm0, hemp, hvalid, hs1, htid0, ht0, hst0, hget] at h
                        | some existing => simp [hnm0, hemp, hvalid, hs1, htid0, ht0, hst0, hget] at h
              · by_cases hs2 : jsToLower (sanitizeTagName s) = "favorite"
                · rcases htid0 : tagId with _ | t0
                  · simp [hnm0, hemp, hvalid, hs1, hs2, htid0] at h
                  · by_cases ht0 : t0 = ""
                    · simp [hnm0, hemp, hvalid, hs1, hs2, htid0, ht0] at h
                    · by_cases hst0 : t0 = STARRED_TAG_ID
                      · simp +decide [hnm0, hemp, hvalid, hs1, hs2, htid0, ht0, hst0] at h
                      · rcases hget : jsGet (normalizeTagState stored now).tags t0 with _ | v
                        · simp [hnm0, hemp, hvalid, hs1, hs2, htid0, ht0, hst0, hget] at h
                        · match v with
                          | none => simp [hnm0, hemp, hvalid, hs1, hs2, htid0, ht0, hst0, hget] at h
                          | some existing => simp [hnm0, hemp, hvalid, hs1, hs2, htid0, ht0, hst0, hget] at h
                · by_cases hs3 : jsToLower (sanitizeTagName s) = "starred"
                  · rcases htid0 : tagId with _ | t0
                    · simp [hnm0, hemp, hvalid, hs1, hs2, hs3, htid0] at h
                    · by_cases ht0 : t0 = ""
                      · simp [hnm0, hemp, hvalid, hs1, hs2, hs3, htid0, ht0] at h
                      · by_cases hst0 : t0 = STARRED_TAG_ID
                        · simp +decide [hnm0, hemp, hvalid, hs1, hs2, hs3, htid0, ht0, hst0] at h
                        · rcases hget : jsGet (normalizeTagState stored now).tags t0 with _ | v
                          · simp [hnm0, hemp, hvalid, hs1, hs2, hs3, htid0, ht0, hst0, hget] at h
                          · match v with
                            | none => simp [hnm0, hemp, hvalid, hs1, hs2, hs3, htid0, ht0, hst0, hget] at h
                            | some existing => simp [hnm0, hemp, hvalid, hs1, hs2, hs3, htid0, ht0, hst0, hget] at h
                  · rcases htid0 : tagId with _ | t0
                    · simp [hnm0, hemp, hvalid, hs1, hs2, hs3, htid0] at h
                      split at h
                      · simp at h
                      · rename_i hcond
                        simp only [Except.ok.injEq] at h
                        subst h
                        simp at hp
                        subst hp
                        refine upsert_create_inv (normalizeTagState stored now) hinv hdense now
                          (sanitizeTagName s) _ ?_
                        intro x hx heq
                        apply hcond
                        rw [List.any_eq_true]
                        rcases (mem_tagNamesLower (normalizeTagState stored now).tags x).mp hx with
                          ⟨kv, hm, u, hu, hlow⟩
                        refine ⟨kv, hm, ?_⟩
                        rw [hu]
                        simp [hlow, heq]
                    · by_cases ht0 : t0 = ""
                      · simp [hnm0, hemp, hvalid, hs1, hs2, hs3, htid0, ht0] at h
                        split at h
                        · simp at h
                        · rename_i hcond
                          simp only [Except.ok.injEq] at h
                          subst h
                          simp at hp
                          subst hp
                          refine upsert_create_inv (normalizeTagState stored now) hinv hdense now
                            (sanitizeTagName s) _ ?_
                          intro x hx heq
                          apply hcond
                          rw [List.any_eq_true]
                          rcases (mem_tagNamesLower (normalizeTagState stored now).tags x).mp hx with
                            ⟨kv, hm, u, hu, hlow⟩
                          refine ⟨kv, hm, ?_⟩
                          rw [hu]
                          simp [hlow, heq]
                      · by_cases hst0 : t0 = STARRED_TAG_ID
                        · simp +decide [hnm0, hemp, hvalid, hs1, hs2, hs3, htid0, ht0, hst0] at h
                        · rcases hget : jsGet (normalizeTagState stored now).tags t0 with _ | v
                          · simp [hnm0, hemp, hvalid, hs1, hs2, hs3, htid0, ht0, hst0, hget] at h
                          · match v with
                            | none =>
                              simp [hnm0, hemp, hvalid, hs1, hs2, hs3, htid0, ht0, hst0, hget] at h
                            | some existing =>
                              simp [hnm0, hemp, hvalid, hs1, hs2, hs3, htid0, ht0, hst0, hget] at h
                              split at h
                              · simp at h
                              · rename_i hcond
                                simp only [Except.ok.injEq] at h
                                subst h
                                simp at hp
                                subst hp
                                refine upsert_update_inv (normalizeTagState stored now) hinv t0 existing
                                  _ hget hst0 rfl rfl (Or.inr ?_)
                                intro kv hm u hu hne heq
                                apply hcond
                                rw [List.any_eq_true]
                                have hgetkv : jsGet (normalizeTagState stored now).tags kv.1 = some kv.2 :=
                                  jsGet_eq_some_of_mem_nodup hinv.keysNodup hm
                                obtain ⟨t1, hg1, ht1⟩ := hinv.vals kv.1 (mem_keys_of_jsGet _ _ _ hgetkv)
                                rw [hgetkv, hu] at hg1
                                simp only [Option.some.injEq] at hg1
                                have huid : u.id = kv.1 := by rw [hg1]; exact ht1
                                refine ⟨kv, hm, ?_⟩
                                rw [hu]
                                simp [huid, hne, heq]
/-! ### The stored-document invariant is preserved by every queued
operation -/

theorem stepStored_inv (stored : Option TagDocIn) (opnow : TagOp × Nat)
    (hst : StoredInv stored) : StoredInv (stepStored stored opnow) := by
  obtain ⟨op, now⟩ := opnow
  match op with
  | .upsert fields tagId =>
    rcases hrun : upsertTag fields tagId stored now with e | r
    · simp only [stepStored, runTagOp, hrun]
      exact hst
    · rcases hper : r.persisted with _ | s2
      · simp only [stepStored, runTagOp, hrun, hper]
        exact hst
      · simp only [stepStored, runTagOp, hrun, hper]
        exact Or.inr ⟨s2, rfl, upsertTag_persist_inv fields tagId stored now hst r s2 hrun hper⟩
  | .remove tagId =>
    rcases removeTag_cases tagId stored now with ⟨_, hc⟩ | ⟨_, _, hc⟩ | ⟨hne, ⟨t, hget⟩, hc⟩
    · simp only [stepStored, runTagOp, hc]
      exact hst
    · simp only [stepStored, runTagOp, hc]
      exact hst
    · simp only [stepStored, runTagOp, hc]
      refine Or.inr ⟨_, rfl, ?_⟩
      exact remove_inv (normalizeTagState stored now)
        (normalize_stored_inv stored now hst).1 tagId hne _
  | .reorder tagIds =>
    obtain ⟨st2, heq, hinv2⟩ := reorderTags_ok tagIds stored now hst
    simp only [stepStored, runTagOp, heq]
    exact Or.inr ⟨st2, rfl, hinv2⟩

theorem runOps_inv (ops : List (TagOp × Nat)) (stored : Option TagDocIn)
    (hst : StoredInv stored) : StoredInv (runOps ops stored) := by
  induction ops generalizing stored with
  | nil => exact hst
  | cons op rest ih => exact ih (stepStored stored op) (stepStored_inv stored op hst)

/-- C1 (amended: the dense-range part of the original claim fails, see the
    counterexample; positivity and distinctness of the non-starred sort
    orders hold instead).  After any sequence of upsert/remove/reorder
    operations from the initial empty document, the stored document is
    either still the untouched initial object or a persisted state with:
    a starred tag stored under the starred key at sort position 0, ids
    equal to keys (hence exactly one starred tag), unique keys, no
    case-insensitively duplicate names, positive pairwise-distinct
    non-starred sort orders, and nextId strictly above every numeric id. -/
theorem C1_tag_document_invariants (ops : List (TagOp × Nat)) :
    runOps ops (some emptyStoredDoc) = some emptyStoredDoc ∨
    ∃ s : TagState, runOps ops (some emptyStoredDoc) = some s.toInput ∧
      (∃ f, jsGet s.tags STARRED_TAG_ID = some (some f) ∧ f.id = STARRED_TAG_ID ∧
        f.sortOrder = some 0) ∧
      (jsKeys s.tags).Nodup ∧
      (∀ k ∈ jsKeys s.tags, ∃ t, jsGet s.tags k = some (some t) ∧ t.id = k) ∧
      (tagNamesLower s.tags).Nodup ∧
      (∀ o ∈ sortableOrders s.tags, ∃ m, o = some m ∧ 1 ≤ m) ∧
      (sortableOrders s.tags).Nodup ∧
      (∀ k ∈ jsKeys s.tags, ∀ m, jsStrToNumber k = some m → m < s.nextId) := by
  rcases runOps_inv ops (some emptyStoredDoc) (Or.inl rfl) with h | ⟨s, heq, hinv⟩
  · exact Or.inl h
  · right
    obtain ⟨f, hf, hid, _, _, _, _, hord⟩ := hinv.fav
    exact ⟨s, heq, ⟨f, hf, hid, hord⟩, hinv.keysNodup, hinv.vals, hinv.names,
      hinv.orders, hinv.ordersNodup, hinv.nextIdGt⟩

/-- Counterexample to the original C1: create two tags, remove the first;
    the remaining non-starred sort orders are {2}, not the dense range
    {1}. -/
theorem C1_dense_range_counterexample :
    ∃ d : TagDocIn,
      runOps [(TagOp.upsert ⟨some (some "a"), none⟩ none, 1),
              (TagOp.upsert ⟨some (some "b"), none⟩ none, 2),
              (TagOp.remove "1", 3)] (some emptyStoredDoc) = some d ∧
      sortableOrders d.tags = [some 2] ∧
      ¬ List.Perm (sortableOrders d.tags)
        ((List.range (sortableOrders d.tags).length).map
          (fun i : Nat => some ((i : Int) + 1))) := by
  refine ⟨⟨[(STARRED_TAG_ID, some
      { id := STARRED_TAG_ID, name := STARRED_TAG_NAME, color := "#ffc107",
        createdAt := some 1, updatedAt := none, locked := true, sortOrder := some 0 }),
      ("2", some
      { id := "2", name := "b", color := "#22c55e",
        createdAt := some 2, updatedAt := none, locked := false, sortOrder := some 2 })],
      [], some 3⟩, ?_, by decide, by decide⟩
  decide

/-- C6: `removeTag` on the starred tag is rejected with an error; on any
    existing non-starred tag it persists a state in which the tag is gone
    from the tag set, every surviving assignment list omits it, and no
    empty assignment entry survives. -/
theorem C6_removeTag_strips_assignments (tagId : String) (stored : Option TagDocIn)
    (now : Nat) :
    (tagId = STARRED_TAG_ID →
      removeTag tagId stored now = Except.error "Favorite tag cannot be modified.") ∧
    (∀ t : Tag, tagId ≠ STARRED_TAG_ID →
      jsGet (normalizeTagState stored now).tags tagId = some (some t) →
      ∃ st2, removeTag tagId stored now = Except.ok ⟨st2, some st2⟩ ∧
        jsGet st2.tags tagId = none ∧
        ∀ kv ∈ st2.assignments, tagId ∉ kv.2 ∧ kv.2 ≠ []) := by
  constructor
  · intro hc
    simp [removeTag, hc]
  · intro t hne hget
    rcases removeTag_cases tagId stored now with ⟨hst0, _⟩ | ⟨_, hgets, _⟩ |
      ⟨_, ⟨t2, hget2⟩, hc⟩
    · exact absurd hst0 hne
    · rcases hgets with hg | hg <;> rw [hget] at hg <;> simp at hg
    · refine ⟨_, hc, ?_, ?_⟩
      · exact jsGet_delete_self _ _
      · intro kv hkv
        rcases List.mem_filterMap.mp hkv with ⟨⟨sid, l0⟩, hmem0, hf⟩
        by_cases hl : ((l0.filter (fun id => id ≠ tagId)).length ≠ 0)
        · rw [if_pos hl] at hf
          simp only [Option.some.injEq] at hf
          subst hf
          constructor
          · intro hmem
            have := (List.mem_filter.mp hmem).2
            simp at this
          · intro he
            have he2 : List.filter (fun id => decide (id ≠ tagId)) l0 = [] := he
            rw [he2] at hl
            simp at hl
        · rw [if_neg hl] at hf
          simp at hf

/-- C7 (amended): every failing tag-document mutation leaves the stored
    document unchanged, with descriptive errors for a starred-tag
    mutation, an unknown tag id in `upsertTag` or `updateAssignment`
    (both fail with `Tag not found.`), a missing or empty name, and an
    invalid color — but `removeTag` with an unknown id is the exception
    the original claim missed: it returns successfully without persisting
    anything (and the store is likewise unchanged). -/
theorem C7_invalid_input_handling :
    (∀ op stored now e, runTagOp op stored now = Except.error e →
      stepStored stored (op, now) = stored) ∧
    (∀ stored now, removeTag STARRED_TAG_ID stored now
      = Except.error "Favorite tag cannot be modified.") ∧
    (∀ stored now tid, tid ≠ STARRED_TAG_ID →
      jsGet (normalizeTagState stored now).tags tid = none →
      removeTag tid stored now = Except.ok ⟨normalizeTagState stored now, none⟩ ∧
      stepStored stored (TagOp.remove tid, now) = stored) ∧
    (∀ sid tid b stored now, jsGet (normalizeTagState stored now).tags tid = none →
      updateAssignment sid tid b stored now = Except.error "Tag not found.") ∧
    (∀ tid stored now, tid ≠ "" → tid ≠ STARRED_TAG_ID →
      jsGet (normalizeTagState stored now).tags tid = none →
      upsertTag ⟨none, none⟩ (some tid) stored now
        = Except.error "Tag not found.") ∧
    (∀ stored now, upsertTag ⟨none, none⟩ none stored now
      = Except.error "Tag name cannot be empty.") ∧
    (∀ nm tagId stored now, upsertTag ⟨nm, some (some "xyz")⟩ tagId stored now
      = Except.error "Tag color must be a 6-digit hex value.") ∧
    (∀ stored now, upsertTag ⟨none, none⟩ (some STARRED_TAG_ID) stored now
      = Except.error "Favorite tag cannot be modified.") := by
  refine ⟨?_, ?_, ?_, ?_, ?_, ?_, ?_, ?_⟩
  · intro op stored now e h
    simp [stepStored, h]
  · intro stored now
    simp [removeTag]
  · intro stored now tid hne hget
    have heq : removeTag tid stored now
        = Except.ok ⟨normalizeTagState stored now, none⟩ := by
      simp [removeTag, hne, hget]
    exact ⟨heq, by simp [stepStored, runTagOp, heq]⟩
  · intro sid tid b stored now hget
    simp [updateAssignment, hget]
  · intro tid stored now hne0 hne hget
    simp [upsertTag, hne0, hne, hget]
  · intro stored now
    simp [upsertTag]
  · intro nm tagId stored now
    have hc : normalizeTagColorStrict (some "xyz")
        = Except.error "Tag color must be a 6-digit hex value." := rfl
    simp [upsertTag, hc]
  · intro stored now
    simp +decide [upsertTag]

/-- Counterexample to the original C7: `removeTag` with an id absent from
    the document returns successfully (no error), merely without
    persisting. -/
theorem C7_unknown_id_counterexample :
    removeTag "999" (some emptyStoredDoc) 0
      = Except.ok ⟨normalizeTagState (some emptyStoredDoc) 0, none⟩ := by
  rfl

/-- C10: `replaceAssignments` never fails: unknown ids are dropped, an
    empty surviving list deletes the entity's entry, otherwise the entry
    becomes exactly the filtered list — while `updateAssignment` throws
    'Tag not found.' for an unknown id. -/
theorem C10_replaceAssignments_total (sid : String) (tagIds : Option (List String))
    (stored : Option TagDocIn) (now : Nat) :
    (∃ st2, replaceAssignments sid tagIds stored now = Except.ok ⟨st2, some st2⟩ ∧
      st2.tags = (normalizeTagState stored now).tags ∧
      (((tagIds.getD []).filter (fun id =>
          match jsGet (normalizeTagState stored now).tags id with
          | some (some _) => true
          | _ => false)).length ≠ 0 →
        jsGet st2.assignments sid = some ((tagIds.getD []).filter (fun id =>
          match jsGet (normalizeTagState stored now).tags id with
          | some (some _) => true
          | _ => false))) ∧
      (((tagIds.getD []).filter (fun id =>
          match jsGet (normalizeTagState stored now).tags id with
          | some (some _) => true
          | _ => false)).length = 0 →
        jsGet st2.assignments sid = none)) ∧
    (∀ tid b, jsGet (normalizeTagState stored now).tags tid = none →
      updateAssignment sid tid b stored now = Except.error "Tag not found.") := by
  constructor
  · by_cases hlen : ((tagIds.getD []).filter (fun id =>
        match jsGet (normalizeTagState stored now).tags id with
        | some (some _) => true
        | _ => false)).length = 0
    · refine ⟨{ normalizeTagState stored now with
        assignments := jsDelete (normalizeTagState stored now).assignments sid },
        ?_, rfl, ?_, ?_⟩
      · simp [replaceAssignments, hlen]
      · intro hne
        exact absurd hlen hne
      · intro _
        exact jsGet_delete_self _ _
    · refine ⟨{ normalizeTagState stored now with
        assignments := jsSet (normalizeTagState stored now).assignments sid
          ((tagIds.getD []).filter (fun id =>
            match jsGet (normalizeTagState stored now).tags id with
            | some (some _) => true
            | _ => false)) }, ?_, rfl, ?_, ?_⟩
      · simp [replaceAssignments, hlen]
      · intro _
        exact jsGet_set_self _ _ _
      · intro h0
        exact absurd h0 hlen
  · intro tid b hget
    simp [updateAssignment, hget]

/-! ### Idempotence of the normalization pipeline (C8) -/

/-- Two association lists with the same key sequence, unique keys and the
    same lookups are equal. -/
theorem assoc_ext {α : Type} :
    ∀ (l1 l2 : List (String × α)), jsKeys l1 = jsKeys l2 → (jsKeys l1).Nodup →
      (∀ k, jsGet l1 k = jsGet l2 k) → l1 = l2 := by
  intro l1
  induction l1 with
  | nil =>
    intro l2 hk _ _
    match l2 with
    | [] => rfl
    | kv :: r2 => simp [jsKeys] at hk
  | cons kv r1 ih =>
    obtain ⟨k, v⟩ := kv
    intro l2 hk hnd hget
    match l2 with
    | [] => simp [jsKeys] at hk
    | (k2, v2) :: r2 =>
      simp only [jsKeys, List.map_cons, List.cons.injEq] at hk
      obtain ⟨hkk, hkr⟩ := hk
      subst hkk
      have hv : v = v2 := by
        have := hget k
        simp [jsGet] at this
        exact this
      subst hv
      simp only [List.cons.injEq, true_and]
      simp only [jsKeys, List.map_cons, List.nodup_cons] at hnd
      apply ih r2 hkr hnd.2
      intro k'
      by_cases hmem : k' ∈ jsKeys r1
      · have hne : ¬ (k = k') := by
          intro he
          rw [← he] at hmem
          exact hnd.1 hmem
        have h2 := hget k'
        simp only [jsGet] at h2
        rw [if_neg hne, if_neg hne] at h2
        exact h2
      · have hmem2 : k' ∉ jsKeys r2 := by
          rw [show jsKeys r2 = List.map Prod.fst r2 from rfl, ← hkr]
          exact hmem
        rw [jsGet_eq_none_of_not_mem_keys r1 k' hmem,
          jsGet_eq_none_of_not_mem_keys r2 k' hmem2]

theorem favok_ensureSortOrder (tags : List (String × Option Tag)) (hfav : FavOk tags) :
    FavOk (ensureSortOrder tags) := by
  intro t ht
  rcases hv : jsGet tags STARRED_TAG_ID with _ | v
  · have hb : jsGet (tags.map (assignSortOrder (sortedSortable tags))) STARRED_TAG_ID
        = none := by
      rw [jsGet_assigned, hv]
      rfl
    rw [ensureSortOrder_eq_match tags, hb] at ht
    simp only [] at ht
    rw [hb] at ht
    exact absurd ht (by simp)
  · match v with
    | none =>
      have hb : jsGet (tags.map (assignSortOrder (sortedSortable tags))) STARRED_TAG_ID
          = some none := by
        rw [jsGet_assigned, hv]
        rfl
      rw [ensureSortOrder_eq_match tags, hb] at ht
      simp only [] at ht
      rw [hb] at ht
      exact absurd ht (by simp)
    | some f =>
      have hfid := hfav f hv
      have h2 := ensureSortOrder_get_fav tags hfav f hv
      rw [h2] at ht
      simp only [Option.some.injEq] at ht
      rw [← ht]
      exact hfid

theorem assignEntry_key (sorted : List (String × Tag)) (e : String × Tag) :
    (assignEntry sorted e).1 = e.1 := by
  unfold assignEntry
  rcases h : sorted.findIdx? (fun x => x.1 = e.1) with _ | i <;> simp [h]

/-- The stamped value of the entry at position `j` of the sorted sortable
    list: its own sort order becomes `j + 1`. -/
theorem assignEntry_self (tags : List (String × Option Tag))
    (hnd : (jsKeys tags).Nodup) :
    ∀ j (hj : j < (sortedSortable tags).length),
      assignEntry (sortedSortable tags) ((sortedSortable tags)[j]) =
        (((sortedSortable tags)[j]).1,
         { ((sortedSortable tags)[j]).2 with sortOrder := some ((j : Int) + 1) }) := by
  intro j hj
  have hidx := assignIdx_get tags hnd j hj
  unfold assignIdx at hidx
  simp only [List.get_eq_getElem] at hidx
  unfold assignEntry
  rw [show stableSort pairTagLe (sortableEntries tags) = sortedSortable tags from rfl] at hidx
  rw [hidx]

/-- Sorting the freshly stamped entries returns them in stamping order:
    `ensureSortOrder` composed with itself sorts an already 1..N-stamped
    list. -/
theorem sortedSortable_ensure (tags : List (String × Option Tag))
    (hnd : (jsKeys tags).Nodup) (hfav : FavOk tags) :
    sortedSortable (ensureSortOrder tags)
      = (sortedSortable tags).map (assignEntry (sortedSortable tags)) := by
  have hperm : List.Perm (sortedSortable (ensureSortOrder tags))
      ((sortedSortable tags).map (assignEntry (sortedSortable tags))) := by
    refine ((sortedSortable_perm (ensureSortOrder tags)).trans ?_)
    rw [ensureSortOrder_sortable tags hfav]
    exact ((sortedSortable_perm tags).map _).symm
  have hEget := assignEntry_self tags hnd
  have hEpair : ((sortedSortable tags).map (assignEntry (sortedSortable tags))).Pairwise
      (fun a b => compareTagsByOrderWithCreatedAt a.2 b.2 < 0) := by
    rw [List.pairwise_iff_getElem]
    intro i j hi hj hij
    rw [List.length_map] at hi hj
    simp only [List.getElem_map]
    rw [hEget i hi, hEget j hj]
    have hc := cmpTags_of_orders
      { ((sortedSortable tags)[i]).2 with sortOrder := some ((i : Int) + 1) }
      { ((sortedSortable tags)[j]).2 with sortOrder := some ((j : Int) + 1) }
      ((i : Int) + 1) ((j : Int) + 1) rfl rfl (by omega)
    show compareTagsByOrderWithCreatedAt
      { ((sortedSortable tags)[i]).2 with sortOrder := some ((i : Int) + 1) }
      { ((sortedSortable tags)[j]).2 with sortOrder := some ((j : Int) + 1) } < 0
    rw [hc]
    omega
  have hkeysE : ((sortedSortable tags).map (assignEntry (sortedSortable tags))).map Prod.fst
      = (sortedSortable tags).map Prod.fst := by
    rw [List.map_map]
    congr 1
    funext e
    show (assignEntry (sortedSortable tags) e).1 = e.1
    unfold assignEntry
    rcases h : (sortedSortable tags).findIdx? (fun x => x.1 = e.1) with _ | i <;> simp [h]
  have hnodupE : ((sortedSortable tags).map (assignEntry (sortedSortable tags))).Nodup := by
    apply List.Nodup.of_map Prod.fst
    rw [hkeysE]
    exact sortedSortable_keys_nodup tags hnd
  have hnodup2 : (sortedSortable (ensureSortOrder tags)).Nodup :=
    hperm.nodup_iff.mpr hnodupE
  have hsortedLe := sortedSortable_pairwise (ensureSortOrder tags)
  have hsortedStrict : (sortedSortable (ensureSortOrder tags)).Pairwise
      (fun a b => compareTagsByOrderWithCreatedAt a.2 b.2 < 0) := by
    have hand := hsortedLe.and hnodup2
    refine hand.imp_of_mem ?_
    intro a b ha hb hab
    obtain ⟨hle, hne⟩ := hab
    have haE := hperm.subset ha
    have hbE := hperm.subset hb
    rcases List.mem_map.mp haE with ⟨ea, hea, haeq⟩
    rcases List.mem_map.mp hbE with ⟨eb, heb, hbeq⟩
    rcases List.mem_iff_getElem.mp hea with ⟨ia, hia, hga⟩
    rcases List.mem_iff_getElem.mp heb with ⟨ib, hib, hgb⟩
    have ha2 : a = (ea.1, { ea.2 with sortOrder := some ((ia : Int) + 1) }) := by
      rw [← haeq, ← hga]
      exact hEget ia hia
    have hb2 : b = (eb.1, { eb.2 with sortOrder := some ((ib : Int) + 1) }) := by
      rw [← hbeq, ← hgb]
      exact hEget ib hib
    by_cases hord : ia = ib
    · exfalso
      apply hne
      subst hord
      have heab : ea = eb := by
        rw [← hga, ← hgb]
      rw [ha2, hb2, heab]
    · have hcmp := cmpTags_of_orders a.2 b.2 ((ia : Int) + 1) ((ib : Int) + 1)
        (by rw [ha2]) (by rw [hb2]) (by omega)
      simp only [pairTagLe, tagLe, decide_eq_true_eq] at hle
      omega
  exact perm_pairwise_asymm_eq
    (fun a b hab => by
      have := cmpTags_antisymm a.2 b.2
      omega)
    hperm hsortedStrict hEpair

/-- `ensureSortOrder` is idempotent on maps with unique keys and a sound
    starred entry. -/
theorem ensureSortOrder_fixpoint (tags : List (String × Option Tag))
    (hnd : (jsKeys tags).Nodup) (hfav : FavOk tags) :
    ensureSortOrder (ensureSortOrder tags) = ensureSortOrder tags := by
  have hkeys3 : jsKeys (ensureSortOrder tags) = jsKeys tags := ensureSortOrder_keys tags hfav
  have hnd3 : (jsKeys (ensureSortOrder tags)).Nodup := by
    rw [hkeys3]
    exact hnd
  have hfav3 : FavOk (ensureSortOrder tags) := favok_ensureSortOrder tags hfav
  apply assoc_ext
  · rw [ensureSortOrder_keys (ensureSortOrder tags) hfav3]
  · rw [ensureSortOrder_keys (ensureSortOrder tags) hfav3]
    exact hnd3
  · intro k
    by_cases hk : k = STARRED_TAG_ID
    · subst hk
      rcases hv : jsGet tags STARRED_TAG_ID with _ | v
      · have h3 : jsGet (ensureSortOrder tags) STARRED_TAG_ID = none := by
          have hb : jsGet (tags.map (assignSortOrder (sortedSortable tags)))
              STARRED_TAG_ID = none := by
            rw [jsGet_assigned, hv]
            rfl
          rw [ensureSortOrder_eq_match tags, hb]
          simp only []
          exact hb
        have hb3 : jsGet ((ensureSortOrder tags).map
            (assignSortOrder (sortedSortable (ensureSortOrder tags)))) STARRED_TAG_ID
            = none := by
          rw [jsGet_assigned, h3]
          rfl
        rw [ensureSortOrder_eq_match (ensureSortOrder tags), hb3]
        simp only []
        rw [hb3, h3]
      · match v with
        | none =>
          have h3 : jsGet (ensureSortOrder tags) STARRED_TAG_ID = some none := by
            have hb : jsGet (tags.map (assignSortOrder (sortedSortable tags)))
                STARRED_TAG_ID = some none := by
              rw [jsGet_assigned, hv]
              rfl
            rw [ensureSortOrder_eq_match tags, hb]
            simp only []
            exact hb
          have hb3 : jsGet ((ensureSortOrder tags).map
              (assignSortOrder (sortedSortable (ensureSortOrder tags)))) STARRED_TAG_ID
              = some none := by
            rw [jsGet_assigned, h3]
            rfl
          rw [ensureSortOrder_eq_match (ensureSortOrder tags), hb3]
          simp only []
          rw [hb3, h3]
        | some f =>
          have hg3 := ensureSortOrder_get_fav tags hfav f hv
          have hgg := ensureSortOrder_get_fav (ensureSortOrder tags) hfav3 _ hg3
          rw [hgg, hg3]
    · rcases hv3 : jsGet (ensureSortOrder tags) k with _ | w
      · have hnm : k ∉ jsKeys (ensureSortOrder tags) := by
          intro hmem
          have h2 := jsGet_isSome_of_mem_keys _ k hmem
          rw [hv3] at h2
          simp at h2
        have hnm2 : k ∉ jsKeys (ensureSortOrder (ensureSortOrder tags)) := by
          rw [ensureSortOrder_keys (ensureSortOrder tags) hfav3]
          exact hnm
        rw [jsGet_eq_none_of_not_mem_keys _ _ hnm2]
      · match w with
        | none =>
          rw [ensureSortOrder_get_ne (ensureSortOrder tags) hfav3 k hk,
            jsGet_assigned, hv3]
          rfl
        | some t =>
          by_cases hid : t.id = STARRED_TAG_ID
          · rw [ensureSortOrder_get_ne (ensureSortOrder tags) hfav3 k hk,
              jsGet_assigned, hv3]
            simp only [Option.map_some']
            simp [assignSortOrder, hid]
          · obtain ⟨i3, hidx3, hget3⟩ :=
              ensureSortOrder_get_sortable (ensureSortOrder tags) hnd3 hfav3 k t hv3 hid
            have hmem : (k, t) ∈ sortableEntries (ensureSortOrder tags) :=
              (mem_sortableEntries_iff _ k t).mpr ⟨mem_of_jsGet_eq_some _ _ _ hv3, hid⟩
            have hchar := sortedSortable_ensure tags hnd hfav
            have hmem2 : (k, t) ∈ sortedSortable (ensureSortOrder tags) :=
              (sortedSortable_perm _).mem_iff.mpr hmem
            rw [hchar] at hmem2
            rcases List.mem_map.mp hmem2 with ⟨e, he, heq⟩
            rcases List.mem_iff_getElem.mp he with ⟨j2, hj2, hge⟩
            rw [← hge] at heq
            rw [assignEntry_self tags hnd j2 hj2] at heq
            have hk2 : ((sortedSortable tags)[j2]).1 = k := congrArg Prod.fst heq
            have ht2 : ({ ((sortedSortable tags)[j2]).2 with
                sortOrder := some ((j2 : Int) + 1) } : Tag) = t := congrArg Prod.snd heq
            have hstamp : t.sortOrder = some ((j2 : Int) + 1) := by
              rw [← ht2]
            have hndE : ((((sortedSortable tags).map (assignEntry (sortedSortable tags)))).map
                Prod.fst).Nodup := by
              have hmapeq : (((sortedSortable tags).map
                  (assignEntry (sortedSortable tags))).map Prod.fst)
                  = (sortedSortable tags).map Prod.fst := by
                rw [List.map_map]
                congr 1
                funext e2
                exact assignEntry_key (sortedSortable tags) e2
              rw [hmapeq]
              exact sortedSortable_keys_nodup tags hnd
            have hget2 : ((sortedSortable tags).map (assignEntry (sortedSortable tags))).get
                ⟨j2, by simpa using hj2⟩
                = (k, { ((sortedSortable tags)[j2]).2 with
                    sortOrder := some ((j2 : Int) + 1) }) := by
              simp only [List.get_eq_getElem, List.getElem_map]
              rw [assignEntry_self tags hnd j2 hj2, hk2]
            have hfind := findIdx?_key_aux
              ((sortedSortable tags).map (assignEntry (sortedSortable tags))) k
              ({ ((sortedSortable tags)[j2]).2 with sortOrder := some ((j2 : Int) + 1) })
              hndE j2 (by simpa using hj2) hget2 0
            have hidxE : assignIdx (ensureSortOrder tags) k = some j2 := by
              unfold assignIdx
              rw [show stableSort pairTagLe (sortableEntries (ensureSortOrder tags))
                = sortedSortable (ensureSortOrder tags) from rfl, hchar]
              simpa using hfind
            have hij : i3 = j2 := by
              rw [hidxE] at hidx3
              exact (Option.some.injEq j2 i3 ▸ hidx3 : (j2 : Nat) = i3).symm
            rw [hget3, hij, tag_update_sortOrder_self t _ hstamp]
theorem ensureNextId_keys_congr (tagsA tagsB : List (String × Option Tag)) (n : Int)
    (h : jsKeys tagsA = jsKeys tagsB) :
    ensureNextId tagsA n = ensureNextId tagsB n := by
  unfold ensureNextId
  rw [h]

/-- A second `ensureNextId` pass changes nothing, and the counter it
    produces is never zero (numeric keys are nonnegative). -/
theorem ensureNextId_second (tags : List (String × Option Tag)) (n0 : Int)
    (h0 : ¬ n0 = 0)
    (hids : ∀ k ∈ jsKeys tags, 0 ≤ (jsStrToNumber k).getD 0) :
    (¬ ensureNextId tags n0 = 0) ∧
    ensureNextId tags (ensureNextId tags n0) = ensureNextId tags n0 := by
  have hM : 0 ≤ (if ((jsKeys tags).filterMap jsStrToNumber).isEmpty then 0
      else listMaxInt ((jsKeys tags).filterMap jsStrToNumber)) := by
    by_cases hemp : ((jsKeys tags).filterMap jsStrToNumber).isEmpty
    · simp [hemp]
    · rw [if_neg hemp]
      rcases he : (jsKeys tags).filterMap jsStrToNumber with _ | ⟨x, rest⟩
      · rw [he] at hemp
        simp at hemp
      · have hmax := listMaxInt_mem_cons x rest
        rw [← he] at hmax
        rcases List.mem_filterMap.mp hmax with ⟨k, hk, hpk⟩
        have h2 := hids k hk
        rw [hpk] at h2
        simpa [he] using h2
  unfold ensureNextId
  simp only [if_neg h0]
  by_cases hgt : n0 > (if ((jsKeys tags).filterMap jsStrToNumber).isEmpty then 0
      else listMaxInt ((jsKeys tags).filterMap jsStrToNumber))
  · rw [if_pos hgt]
    refine ⟨h0, ?_⟩
    simp only [if_neg h0]
    rw [if_pos hgt]
  · rw [if_neg hgt]
    have hM1 : ¬ ((if ((jsKeys tags).filterMap jsStrToNumber).isEmpty then 0
        else listMaxInt ((jsKeys tags).filterMap jsStrToNumber)) + 1 = 0) := by
      omega
    refine ⟨hM1, ?_⟩
    simp only [if_neg hM1]
    rw [if_pos (by omega)]

/-- Re-cleaning already-cleaned assignments is the identity. -/
theorem cleanOrphaned_idem (tags : List (String × Option Tag))
    (A : List (String × Option (List String))) :
    cleanOrphanedAssignments tags ((cleanOrphanedAssignments tags A).map
      (fun kv => (kv.1, some kv.2))) = cleanOrphanedAssignments tags A := by
  suffices h : ∀ L : List (String × List String),
      (∀ kv ∈ L, kv.2.filter (fun tid => jsHas tags tid) = kv.2 ∧
        ¬ (kv.2.filter (fun tid => jsHas tags tid)).isEmpty) →
      cleanOrphanedAssignments tags (L.map (fun kv => (kv.1, some kv.2))) = L by
    apply h
    intro kv hkv
    obtain ⟨hne, hall⟩ := cleanOrphanedAssignments_mem tags A kv.1 kv.2 hkv
    have hfilt : kv.2.filter (fun tid => jsHas tags tid) = kv.2 :=
      List.filter_eq_self.mpr (fun a ha => by simpa using hall a ha)
    refine ⟨hfilt, ?_⟩
    rw [hfilt]
    simpa using hne
  intro L hL
  induction L with
  | nil => rfl
  | cons kv rest ih =>
    obtain ⟨sid, l⟩ := kv
    obtain ⟨hfilt, hne⟩ := hL (sid, l) (List.mem_cons_self _ _)
    simp only [List.map_cons, cleanOrphanedAssignments, List.filterMap_cons]
    simp only at hfilt hne
    rw [if_neg hne]
    have ihr := ih (fun kv hkv => hL kv (List.mem_cons_of_mem _ hkv))
    simp only [cleanOrphanedAssignments] at ihr
    rw [ihr, hfilt]

/-- `normalizeTagState` on an object input, written out as the pipeline
    composition. -/
theorem normalize_some_eq (d : TagDocIn) (t : Nat) :
    normalizeTagState (some d) t =
      { tags := ensureSortOrder (addOrNormalizeStarredTag d.tags t),
        assignments := cleanOrphanedAssignments
          (ensureSortOrder (addOrNormalizeStarredTag d.tags t)) d.assignments,
        nextId := ensureNextId (addOrNormalizeStarredTag d.tags t)
          (match d.nextId with | some n => if n = 0 then 1 else n | none => 1) } := rfl

theorem addOrNorm_keys_nodup (tags : List (String × Option Tag)) (now : Nat)
    (hnd : (jsKeys tags).Nodup) :
    (jsKeys (addOrNormalizeStarredTag tags now)).Nodup := by
  rw [addOrNormalizeStarredTag_keys]
  by_cases hhas : jsHas tags STARRED_TAG_ID
  · rw [if_pos hhas]
    exact hnd
  · rw [if_neg hhas]
    rw [List.nodup_append]
    refine ⟨hnd, List.nodup_singleton _, ?_⟩
    intro a ha hb
    rw [List.mem_singleton] at hb
    subst hb
    have h2 := jsGet_isSome_of_mem_keys tags STARRED_TAG_ID ha
    exact hhas (by simpa [jsHas] using h2)

theorem favok_addOrNorm (tags : List (String × Option Tag)) (now : Nat) :
    FavOk (addOrNormalizeStarredTag tags now) := by
  intro t ht
  obtain ⟨f, hf, hid, _⟩ := addOrNormalizeStarredTag_get_fav tags now
  rw [hf] at ht
  simp only [Option.some.injEq] at ht
  rw [← ht]
  exact hid

theorem addOrNorm_keys_ids (tags : List (String × Option Tag)) (now : Nat)
    (hids : ∀ k ∈ jsKeys tags, 0 ≤ (jsStrToNumber k).getD 0) :
    ∀ k ∈ jsKeys (addOrNormalizeStarredTag tags now), 0 ≤ (jsStrToNumber k).getD 0 := by
  intro k hk
  rw [addOrNormalizeStarredTag_keys] at hk
  by_cases hhas : jsHas tags STARRED_TAG_ID
  · rw [if_pos hhas] at hk
    exact hids k hk
  · rw [if_neg hhas] at hk
    rcases List.mem_append.mp hk with h | h
    · exact hids k h
    · rw [List.mem_singleton] at h
      subst h
      rw [show jsStrToNumber STARRED_TAG_ID = none from by decide]
      simp

/-- C8 (amended): normalization is idempotent on every object document
    with unique tag keys and nonnegative numeric keys — but not on null
    or non-object input, where the bare default is returned without the
    starred tag (see the counterexample). -/
theorem C8_normalize_idempotent (d : TagDocIn) (t1 t2 : Nat)
    (hnd : (jsKeys d.tags).Nodup)
    (hids : ∀ k ∈ jsKeys d.tags, 0 ≤ (jsStrToNumber k).getD 0) :
    normalizeTagState (some (normalizeTagState (some d) t1).toInput) t2
      = normalizeTagState (some d) t1 := by
  have hnd1 : (jsKeys (addOrNormalizeStarredTag d.tags t1)).Nodup :=
    addOrNorm_keys_nodup d.tags t1 hnd
  have hfav1 : FavOk (addOrNormalizeStarredTag d.tags t1) := favok_addOrNorm d.tags t1
  obtain ⟨f1, hf1, hid1, hname1, hlk1, hcol1, hcr1, hord1⟩ :=
    addOrNormalizeStarredTag_get_fav d.tags t1
  have hg3 := ensureSortOrder_get_fav _ hfav1 f1 hf1
  have hfixA : addOrNormalizeStarredTag
      (ensureSortOrder (addOrNormalizeStarredTag d.tags t1)) t2
      = ensureSortOrder (addOrNormalizeStarredTag d.tags t1) := by
    obtain ⟨c, hc⟩ := hcr1
    exact addOrNormalizeStarredTag_fixpoint _ t2 { f1 with sortOrder := some 0 }
      hg3 hid1 hname1 hlk1 hcol1 ⟨c, hc⟩ rfl
  rw [normalize_some_eq d t1, normalize_some_eq _ t2]
  simp only [TagState.toInput, hfixA]
  rw [ensureSortOrder_fixpoint _ hnd1 hfav1]
  have hn0 : ¬ ((match d.nextId with | some n => if n = 0 then 1 else n | none => 1) = 0) := by
    rcases d.nextId with _ | n
    · simp
    · simp only []
      split <;> omega
  have hids1 := addOrNorm_keys_ids d.tags t1 hids
  obtain ⟨hnz, hfixN⟩ := ensureNextId_second (addOrNormalizeStarredTag d.tags t1)
    (match d.nextId with | some n => if n = 0 then 1 else n | none => 1) hn0 hids1
  have hkeq : jsKeys (ensureSortOrder (addOrNormalizeStarredTag d.tags t1))
      = jsKeys (addOrNormalizeStarredTag d.tags t1) := ensureSortOrder_keys _ hfav1
  congr 1
  · exact cleanOrphaned_idem _ d.assignments
  · rw [if_neg hnz]
    rw [ensureNextId_keys_congr _ _ _ hkeq]
    exact hfixN

/-- Counterexample to C8 at null input: the bare default that
    `normalizeTagState(null)` returns lacks the starred tag, so a second
    normalization adds it and yields a different document. -/
theorem C8_null_counterexample :
    normalizeTagState (some (normalizeTagState none 0).toInput) 0
      ≠ normalizeTagState none 0 := by
  decide

theorem C8_normalize_idempotent_witness :
    normalizeTagState (some (normalizeTagState
      (some (⟨[], [], none⟩ : TagDocIn)) 4).toInput) 7
      = normalizeTagState (some (⟨[], [], none⟩ : TagDocIn)) 4 :=
  C8_normalize_idempotent ⟨[], [], none⟩ 4 7 (by decide) (by decide)

theorem jsGet_filter_pos {α : Type} (m : List (String × α)) (p : String × α → Bool)
    (k : String) (h : ∀ v : α, p (k, v) = true) :
    jsGet (m.filter p) k = jsGet m k := by
  induction m with
  | nil => rfl
  | cons kv rest ih =>
    obtain ⟨k', v⟩ := kv
    by_cases hk : k' = k
    · subst hk
      rw [List.filter_cons_of_pos (h v)]
      simp [jsGet]
    · by_cases hp : p (k', v) = true
      · rw [List.filter_cons_of_pos hp]
        simp [jsGet, hk, ih]
      · rw [List.filter_cons_of_neg (by simpa using hp)]
        simp [jsGet, hk] at ih ⊢
        exact ih

theorem jsGet_filter_neg {α : Type} (m : List (String × α)) (p : String × α → Bool)
    (k : String) (h : ∀ v : α, p (k, v) = false) :
    jsGet (m.filter p) k = none := by
  induction m with
  | nil => rfl
  | cons kv rest ih =>
    obtain ⟨k', v⟩ := kv
    by_cases hk : k' = k
    · subst hk
      rw [List.filter_cons_of_neg (by simp [h v])]
      exact ih
    · by_cases hp : p (k', v) = true
      · rw [List.filter_cons_of_pos hp]
        simpa [jsGet, hk] using ih
      · rw [List.filter_cons_of_neg (by simpa using hp)]
        exact ih

theorem mem_keys_filter {α : Type} (m : List (String × α)) (p : String × α → Bool)
    (k : String) (h : k ∈ jsKeys (m.filter p)) :
    ∃ v, (k, v) ∈ m ∧ p (k, v) = true := by
  rcases List.mem_map.mp h with ⟨kv, hkv, hfst⟩
  obtain ⟨a, b⟩ := kv
  rcases List.mem_filter.mp hkv with ⟨hm, hp⟩
  simp only at hfst
  subst hfst
  exact ⟨b, hm, hp⟩

/-- `MAX_QUEUE_SIZE` from the concurrency control in tagState.js. -/
def MAX_QUEUE_SIZE : Nat := 50

/-- Module-level queue state of tagState.js: the `isOperationInProgress` flag
    and the FIFO `operationQueue` (operations abstracted to identifiers). -/
structure QueueState where
  isOperationInProgress : Bool
  operationQueue : List Nat
deriving DecidableEq

/-- Outcome of `withConcurrencyControl`: either the operation was queued, or
    it was rejected synchronously with the capacity error. -/
structure SubmitResult where
  accepted : Bool
  error : Option String
  state : QueueState
deriving DecidableEq

/-- `withConcurrencyControl` (tagState.js): reject when the queue already
    holds `MAX_QUEUE_SIZE` entries, otherwise append the operation. -/
def withConcurrencyControl (q : QueueState) (opId : Nat) : SubmitResult :=
  if MAX_QUEUE_SIZE ≤ q.operationQueue.length then
    ⟨false, some "Too many pending tag operations. Please wait and try again.", q⟩
  else
    ⟨true, none, { q with operationQueue := q.operationQueue ++ [opId] }⟩

/-- `processQueue` (tagState.js): when no operation is in flight, shift and
    execute queued operations one after the other until the queue is empty.
    Returns the operations executed, in order, and the remaining queue. -/
def processQueue : Bool → List Nat → List Nat × List Nat
  | true, queue => ([], queue)
  | false, [] => ([], [])
  | false, op :: rest =>
    let p := processQueue false rest
    (op :: p.1, p.2)

theorem processQueue_idle (queue : List Nat) :
    processQueue false queue = (queue, []) := by
  induction queue with
  | nil => rfl
  | cons op rest ih => simp [processQueue, ih]

/-- C2: once the queue holds its capacity of 50 pending operations, a further
    submission is rejected with the capacity error and the queue state is
    unchanged; below capacity the operation is appended in FIFO position; and
    the drain loop executes every queued operation, in order, to completion. -/
theorem C2_queue_capacity (q : QueueState) (opId : Nat) :
    (MAX_QUEUE_SIZE ≤ q.operationQueue.length →
      withConcurrencyControl q opId =
        ⟨false, some "Too many pending tag operations. Please wait and try again.", q⟩) ∧
    (q.operationQueue.length < MAX_QUEUE_SIZE →
      withConcurrencyControl q opId =
        ⟨true, none, { q with operationQueue := q.operationQueue ++ [opId] }⟩) ∧
    processQueue false q.operationQueue = (q.operationQueue, []) := by
  refine ⟨?_, ?_, processQueue_idle _⟩
  · intro h
    simp [withConcurrencyControl, if_pos h]
  · intro h
    simp [withConcurrencyControl, Nat.not_le.mpr h]

/-- `FOLLOW_CACHE_TTL_MS` from config.js. -/
def FOLLOW_CACHE_TTL_MS : Int := 5 * 60 * 1000

/-- Follow cache record (followCache.js): `fetchedAt` timestamp plus the
    snapshot items (abstracted to their ids). -/
structure FollowCache where
  fetchedAt : Int
  items : List String
deriving DecidableEq

/-- Ambient state touched by `refreshFollowCache`: the stored cache, the
    signed-out flag, and a count of network fetches performed. -/
structure RefreshState where
  stored : Option FollowCache
  signedOut : Bool
  fetchCount : Nat
deriving DecidableEq

/-- `refreshFollowCache` (followCache.js). `auth` is the resolved auth status
    after `getAuthStatus` / silent `ensureAuth`; `fetch` is the outcome of
    `buildFollowSnapshot` (error carries the HTTP status). Unauthenticated
    calls return null; a fresh cached value is returned unchanged when not
    forced; otherwise the snapshot is fetched, stored with a new `fetchedAt`,
    and returned, a 401/403 signing the user out and clearing the cache before
    the error is rethrown. -/
def refreshFollowCache (force : Bool) (auth : Bool) (now : Int)
    (fetch : Except Int (List String)) (st : RefreshState) :
    Except Int (Option FollowCache) × RefreshState :=
  if auth = false then (Except.ok none, st)
  else
    let freshHit :=
      match st.stored with
      | some cached => !force && decide (cached.fetchedAt + FOLLOW_CACHE_TTL_MS > now)
      | none => false
    if freshHit then (Except.ok st.stored, st)
    else
      match fetch with
      | Except.ok items =>
        let cache : FollowCache := ⟨now, items⟩
        (Except.ok (some cache),
          { stored := some cache, signedOut := st.signedOut,
            fetchCount := st.fetchCount + 1 })
      | Except.error status =>
        if status = 401 ∨ status = 403 then
          (Except.error status,
            { stored := none, signedOut := true, fetchCount := st.fetchCount + 1 })
        else
          (Except.error status, { st with fetchCount := st.fetchCount + 1 })

/-- C5 (amended): a non-forced call with a fresh cached value returns it
    unchanged with no fetch; a forced authenticated call always fetches and on
    success returns a cache stamped with the new time, as does a non-forced
    call once the cached value is at least TTL old; unauthenticated calls
    return null without fetching; and two non-forced calls within one TTL
    window perform at most one fetch in total provided the first call's fetch
    succeeds — a failing fetch stores nothing, so the next call fetches again
    (see the counterexample). -/
theorem C5_cache_freshness (auth : Bool) (now now2 : Int)
    (fetch fetch2 : Except Int (List String)) (st : RefreshState) :
    (∀ c, st.stored = some c → c.fetchedAt + FOLLOW_CACHE_TTL_MS > now →
      refreshFollowCache false true now fetch st = (Except.ok (some c), st)) ∧
    ((refreshFollowCache true true now fetch st).2.fetchCount = st.fetchCount + 1) ∧
    (∀ items, fetch = Except.ok items →
      (refreshFollowCache true true now fetch st).1 =
        Except.ok (some ⟨now, items⟩)) ∧
    (∀ c, st.stored = some c → c.fetchedAt + FOLLOW_CACHE_TTL_MS ≤ now →
      (refreshFollowCache false true now fetch st).2.fetchCount = st.fetchCount + 1 ∧
      (∀ items, fetch = Except.ok items →
        (refreshFollowCache false true now fetch st).1 =
          Except.ok (some ⟨now, items⟩))) ∧
    (auth = false → refreshFollowCache false auth now fetch st = (Except.ok none, st)) ∧
    (∀ items, fetch = Except.ok items → now2 < now + FOLLOW_CACHE_TTL_MS → now ≤ now2 →
      (refreshFollowCache false true now2 fetch2
        (refreshFollowCache false true now fetch st).2).2.fetchCount ≤ st.fetchCount + 1) := by
  refine ⟨?_, ?_, ?_, ?_, ?_, ?_⟩
  · intro c hc hfresh
    simp [refreshFollowCache, hc, hfresh]
  · rcases hst : st.stored with _ | c <;>
      cases fetch with
      | ok items => simp [refreshFollowCache, hst]
      | error status =>
        by_cases hs : status = 401 ∨ status = 403 <;>
          simp [refreshFollowCache, hst, hs]
  · intro items hf
    subst hf
    rcases hst : st.stored with _ | c <;> simp [refreshFollowCache, hst]
  · intro c hc hstale
    have hmiss : ¬ (c.fetchedAt + FOLLOW_CACHE_TTL_MS > now) := by omega
    constructor
    · cases fetch with
      | ok items => simp [refreshFollowCache, hc, hmiss]
      | error status =>
        by_cases hs : status = 401 ∨ status = 403 <;>
          simp [refreshFollowCache, hc, hmiss, hs]
    · intro items hf
      subst hf
      simp [refreshFollowCache, hc, hmiss]
  · intro hauth
    subst hauth
    simp [refreshFollowCache]
  · intro items hf hwin hord
    subst hf
    rcases hst : st.stored with _ | c
    · have h1 : refreshFollowCache false true now (Except.ok items) st =
          (Except.ok (some ⟨now, items⟩),
            { stored := some ⟨now, items⟩, signedOut := st.signedOut,
              fetchCount := st.fetchCount + 1 }) := by
        simp [refreshFollowCache, hst]
      rw [h1]
      have hfresh2 : (⟨now, items⟩ : FollowCache).fetchedAt + FOLLOW_CACHE_TTL_MS > now2 := by
        show now + FOLLOW_CACHE_TTL_MS > now2
        omega
      simp [refreshFollowCache, hfresh2]
    · by_cases hfresh : c.fetchedAt + FOLLOW_CACHE_TTL_MS > now
      · have h1 : refreshFollowCache false true now (Except.ok items) st =
            (Except.ok st.stored, st) := by
          simp [refreshFollowCache, hst, hfresh]
        rw [h1]
        by_cases hfresh2 : c.fetchedAt + FOLLOW_CACHE_TTL_MS > now2
        · simp [refreshFollowCache, hst, hfresh2]
        · cases fetch2 with
          | ok items2 => simp [refreshFollowCache, hst, hfresh2]
          | error status =>
            by_cases hs : status = 401 ∨ status = 403 <;>
              simp [refreshFollowCache, hst, hfresh2, hs]
      · have h1 : refreshFollowCache false true now (Except.ok items) st =
            (Except.ok (some ⟨now, items⟩),
              { stored := some ⟨now, items⟩, signedOut := st.signedOut,
                fetchCount := st.fetchCount + 1 }) := by
          simp [refreshFollowCache, hst, hfresh]
        rw [h1]
        have hfresh2 : (⟨now, items⟩ : FollowCache).fetchedAt + FOLLOW_CACHE_TTL_MS > now2 := by
          show now + FOLLOW_CACHE_TTL_MS > now2
          omega
        simp [refreshFollowCache, hfresh2]

/-- Counterexample to C5's unqualified at-most-one-fetch consequence: with a
    stale stored cache and a failing network (HTTP 500), two non-forced calls
    in immediate succession each perform a fetch — two fetches within one TTL
    window. -/
theorem C5_double_fetch_counterexample :
    ¬ ((refreshFollowCache false true 1 (Except.error 500)
        (refreshFollowCache false true 0 (Except.error 500)
          ⟨some ⟨-600000, []⟩, false, 0⟩).2).2.fetchCount ≤ 1) := by
  decide

/-- One followed channel as seen by `buildFollowSnapshot` (followCache.js):
    its broadcaster id and whether its stream entry has `type === 'live'`. -/
structure FollowItem where
  broadcaster_id : String
  isLive : Bool
deriving DecidableEq

/-- The `lastSeenLive` bookkeeping inside `buildFollowSnapshot`
    (followCache.js lines 109-161): every follow currently observed live gets
    `lastSeenData[id] = now`, then entries whose ids are no longer followed
    are deleted. -/
def updateLastSeen (now : Int) (follows : List FollowItem)
    (lastSeenData : List (String × Int)) : List (String × Int) :=
  let stamped := follows.foldl
    (fun ls f => if f.isLive then jsSet ls f.broadcaster_id now else ls) lastSeenData
  stamped.filter (fun kv => (follows.map (fun f => f.broadcaster_id)).contains kv.1)

theorem stampLive_get_frame (now : Int) (x : String) (follows : List FollowItem) :
    ∀ ls : List (String × Int),
    (∀ f ∈ follows, f.broadcaster_id = x → f.isLive = false) →
    jsGet (follows.foldl
      (fun ls f => if f.isLive then jsSet ls f.broadcaster_id now else ls) ls) x
      = jsGet ls x := by
  induction follows with
  | nil => intro ls _; rfl
  | cons f rest ih =>
    intro ls h
    rw [List.foldl_cons]
    rw [ih _ (fun g hg => h g (List.mem_cons_of_mem _ hg))]
    by_cases hl : f.isLive
    · have hne : f.broadcaster_id ≠ x := by
        intro he
        have := h f (List.mem_cons_self _ _) he
        rw [this] at hl
        exact Bool.noConfusion hl
      simp [hl, jsGet_set_ne _ _ _ _ hne]
    · simp [hl]

theorem stampLive_get_now (now : Int) (x : String) (follows : List FollowItem) :
    ∀ ls : List (String × Int), jsGet ls x = some now →
    jsGet (follows.foldl
      (fun ls f => if f.isLive then jsSet ls f.broadcaster_id now else ls) ls) x
      = some now := by
  induction follows with
  | nil => intro ls h; exact h
  | cons f rest ih =>
    intro ls h
    rw [List.foldl_cons]
    apply ih
    by_cases hl : f.isLive
    · by_cases he : f.broadcaster_id = x
      · simp [hl, he, jsGet_set_self]
      · simp [hl, jsGet_set_ne _ _ _ _ he, h]
    · simpa [hl] using h

theorem stampLive_get_live (now : Int) (x : String) (follows : List FollowItem) :
    ∀ ls : List (String × Int),
    (∃ f ∈ follows, f.broadcaster_id = x ∧ f.isLive = true) →
    jsGet (follows.foldl
      (fun ls f => if f.isLive then jsSet ls f.broadcaster_id now else ls) ls) x
      = some now := by
  induction follows with
  | nil =>
    intro ls h
    rcases h with ⟨f, hf, _⟩
    simp at hf
  | cons f rest ih =>
    intro ls h
    rcases h with ⟨g, hg, hid, hl⟩
    rcases List.mem_cons.mp hg with hg | hg
    · subst hg
      rw [List.foldl_cons]
      apply stampLive_get_now
      simp [hl, hid, jsGet_set_self]
    · rw [List.foldl_cons]
      exact ih _ ⟨g, hg, hid, hl⟩

/-- C9 (amended): during a follow-cache rebuild, every entity observed live
    has its `lastSeenLive` record stamped to the current time — on every live
    observation, not only on a transition to live; records of followed
    entities not observed live are carried forward unchanged; and records for
    entities no longer followed are pruned. -/
theorem C9_lastSeenLive_stamping (now : Int) (follows : List FollowItem)
    (lastSeenData : List (String × Int)) :
    (∀ f ∈ follows, f.isLive = true →
      jsGet (updateLastSeen now follows lastSeenData) f.broadcaster_id = some now) ∧
    (∀ x, x ∈ follows.map (fun f => f.broadcaster_id) →
      (∀ f ∈ follows, f.broadcaster_id = x → f.isLive = false) →
      jsGet (updateLastSeen now follows lastSeenData) x = jsGet lastSeenData x) ∧
    (∀ x, x ∉ follows.map (fun f => f.broadcaster_id) →
      jsGet (updateLastSeen now follows lastSeenData) x = none) := by
  refine ⟨?_, ?_, ?_⟩
  · intro f hf hl
    unfold updateLastSeen
    rw [jsGet_filter_pos]
    · exact stampLive_get_live now f.broadcaster_id follows lastSeenData ⟨f, hf, rfl, hl⟩
    · intro v
      have hmem : f.broadcaster_id ∈ follows.map (fun f => f.broadcaster_id) :=
        List.mem_map.mpr ⟨f, hf, rfl⟩
      simpa using hmem
  · intro x hx hdead
    unfold updateLastSeen
    rw [jsGet_filter_pos]
    · exact stampLive_get_frame now x follows lastSeenData hdead
    · intro v
      simpa using hx
  · intro x hx
    unfold updateLastSeen
    apply jsGet_filter_neg
    intro v
    simpa using hx

/-- Counterexample to C9: an entity that is already live and stays live has
    its `lastSeenLive` record rewritten to the newer time on the second
    rebuild — a repeated observation does not leave it unchanged. -/
theorem C9_restamp_counterexample :
    jsGet (updateLastSeen 2 [⟨"a", true⟩]
        (updateLastSeen 1 [⟨"a", true⟩] [])) "a"
      ≠ jsGet (updateLastSeen 1 [⟨"a", true⟩] []) "a" := by
  decide

/-- Persisted live-state entry (liveTracking.js): `{ isLive, startedAt }`,
    with `startedAt` the parsed broadcast start in milliseconds or null. -/
structure LiveEntry where
  isLive : Bool
  startedAt : Option Int
deriving DecidableEq

/-- A cached streamer as consumed by the live-check and sync loops
    (liveTracking.js): id, login, live flag, and parsed `startedAt`
    (`parseStartedAtMs` applied to the cached string; `none` for an absent or
    unparseable value). Fields not used by the live-state logic are omitted. -/
structure StreamerView where
  id : String
  login : String
  isLive : Bool
  startedAt : Option Int
deriving DecidableEq

/-- `DEFAULT_NOTIFICATION_MAX_STREAM_AGE_MINUTES` from storage/index.js. -/
def DEFAULT_NOTIFICATION_MAX_STREAM_AGE_MINUTES : Int := 30

/-- `MAX_NOTIFICATION_MAX_STREAM_AGE_MINUTES` from storage/index.js. -/
def MAX_NOTIFICATION_MAX_STREAM_AGE_MINUTES : Int := 720

/-- The `maxAgeMinutes` computation in `runLiveCheck` (liveTracking.js):
    a finite positive preference value is capped at the maximum, anything
    else falls back to the default. `none` models a non-finite `Number(...)`
    result. -/
def resolveMaxAgeMinutes (raw : Option Int) : Int :=
  match raw with
  | some r =>
    if r > 0 then min r MAX_NOTIFICATION_MAX_STREAM_AGE_MINUTES
    else DEFAULT_NOTIFICATION_MAX_STREAM_AGE_MINUTES
  | none => DEFAULT_NOTIFICATION_MAX_STREAM_AGE_MINUTES

/-- Notification eligibility for one starred streamer (liveTracking.js):
    notifications enabled, currently live, stream age within the window
    (a missing `startedAt` counts as infinitely old), and either not
    previously live or a genuinely fresh `startedAt`. -/
def isEligibleForNotification (shouldNotify : Bool) (maxAgeMs now : Int)
    (previousEntry : LiveEntry) (streamer : StreamerView) : Bool :=
  shouldNotify && streamer.isLive &&
    (match streamer.startedAt with
     | some t => decide (now - t ≤ maxAgeMs)
     | none => false) &&
    (!previousEntry.isLive ||
      (streamer.startedAt.isSome &&
        (previousEntry.startedAt.isNone ||
          decide (previousEntry.startedAt ≠ streamer.startedAt))))

/-- The per-streamer loop of `runLiveCheck` (liveTracking.js): for each
    starred streamer compute eligibility; an eligible streamer whose login
    fails validation is skipped entirely (`continue`), leaving even its
    live-state entry untouched; otherwise the notification is queued when
    eligible and the live-state entry is rewritten. Pending notifications are
    recorded as streamer ids. -/
def runNotifLoop (shouldNotify : Bool) (maxAgeMs now : Int) :
    List StreamerView → List (String × LiveEntry) → List String →
    List (String × LiveEntry) × List String
  | [], ls, pending => (ls, pending)
  | streamer :: rest, ls, pending =>
    if isEligibleForNotification shouldNotify maxAgeMs now
        ((jsGet ls streamer.id).getD ⟨false, none⟩) streamer
        && !isValidTwitchUsername streamer.login then
      runNotifLoop shouldNotify maxAgeMs now rest ls pending
    else
      runNotifLoop shouldNotify maxAgeMs now rest
        (jsSet ls streamer.id
          ⟨streamer.isLive, if streamer.isLive then streamer.startedAt else none⟩)
        (if isEligibleForNotification shouldNotify maxAgeMs now
            ((jsGet ls streamer.id).getD ⟨false, none⟩) streamer
         then pending ++ [streamer.id] else pending)

/-- The prune step at the end of `runLiveCheck` (liveTracking.js): delete
    live-state entries whose id is not a currently starred id. -/
def pruneNonStarred (starredIds : List String)
    (ls : List (String × LiveEntry)) : List (String × LiveEntry) :=
  ls.filter (fun kv => starredIds.contains kv.1)

/-- The live-state portion of one `runLiveCheck` run (liveTracking.js):
    resolve the notification window, process every starred streamer, then
    prune entries for ids that are not starred. Returns the new live-state
    map and the pending notification ids. -/
def runLiveCheckState (notificationsEnabled : Bool)
    (notificationMaxStreamAgeMinutes : Option Int) (now : Int)
    (starredStreamers : List StreamerView)
    (liveState0 : List (String × LiveEntry)) :
    List (String × LiveEntry) × List String :=
  (pruneNonStarred (starredStreamers.map (fun s => s.id))
      (runNotifLoop notificationsEnabled
        (resolveMaxAgeMinutes notificationMaxStreamAgeMinutes * 60 * 1000) now
        starredStreamers liveState0 []).1,
    (runNotifLoop notificationsEnabled
      (resolveMaxAgeMinutes notificationMaxStreamAgeMinutes * 60 * 1000) now
      starredStreamers liveState0 []).2)

/-- The starred-id set of `syncLiveAssignments` (liveTracking.js): ids whose
    assignment list includes the starred tag. -/
def computeStarredIds (assignments : List (String × List String)) :
    List String :=
  (assignments.filter (fun kv => kv.2.contains "favorite")).map Prod.fst

/-- The starred-streamer selection of `runLiveCheck` (liveTracking.js):
    cached streamers whose assignment list includes the starred tag. -/
def starredStreamersOf (assignments : List (String × List String))
    (streamers : List StreamerView) : List StreamerView :=
  streamers.filter
    (fun s => ((jsGet assignments s.id).getD []).contains "favorite")

/-- `cacheItemsById` (liveTracking.js): a `Map` built with `set`, so a later
    duplicate id overwrites an earlier one. -/
def mapFromItems (items : List StreamerView) : List (String × StreamerView) :=
  items.foldl (fun m s => jsSet m s.id s) []

/-- `syncLiveAssignments` (liveTracking.js), with the cache-refresh prelude
    represented by the `cacheItems` input: drop live-state entries whose id
    is no longer starred, refresh the entries of starred ids against the
    cache, then add starred ids that are currently live and untracked. -/
def syncLiveAssignments (assignments : List (String × List String))
    (cacheItems : List StreamerView)
    (liveState0 : List (String × LiveEntry)) : List (String × LiveEntry) :=
  (computeStarredIds assignments).foldl
    (fun ls id =>
      if jsHas ls id then ls
      else
        match jsGet (mapFromItems cacheItems) id with
        | some streamer =>
          if streamer.isLive then ls ++ [(id, ⟨true, streamer.startedAt⟩)]
          else ls
        | none => ls)
    (liveState0.filterMap (fun kv =>
      if (computeStarredIds assignments).contains kv.1 then
        match jsGet (mapFromItems cacheItems) kv.1 with
        | some streamer =>
          if kv.2.isLive && !streamer.isLive then some (kv.1, ⟨false, none⟩)
          else if streamer.isLive then some (kv.1, ⟨true, streamer.startedAt⟩)
          else some kv
        | none => some kv
      else none))

theorem syncAdd_keys (cacheItemsById : List (String × StreamerView)) :
    ∀ (ids : List String) (acc : List (String × LiveEntry)) (id : String),
    id ∈ jsKeys (ids.foldl
      (fun ls i =>
        if jsHas ls i then ls
        else
          match jsGet cacheItemsById i with
          | some streamer =>
            if streamer.isLive then ls ++ [(i, ⟨true, streamer.startedAt⟩)]
            else ls
          | none => ls) acc) →
    id ∈ jsKeys acc ∨ id ∈ ids := by
  intro ids
  induction ids with
  | nil =>
    intro acc id h
    exact Or.inl h
  | cons i rest ih =>
    intro acc id h
    rw [List.foldl_cons] at h
    rcases ih _ id h with h2 | h2
    · by_cases hhas : jsHas acc i
      · rw [if_pos hhas] at h2
        exact Or.inl h2
      · rw [if_neg hhas] at h2
        rcases hget : jsGet cacheItemsById i with _ | s
        · simp only [hget] at h2
          exact Or.inl h2
        · simp only [hget] at h2
          by_cases hl : s.isLive
          · rw [if_pos hl] at h2
            simp only [jsKeys, List.map_append, List.map_cons, List.map_nil,
              List.mem_append, List.mem_singleton] at h2
            rcases h2 with h2 | h2
            · exact Or.inl h2
            · exact Or.inr (by rw [h2]; exact List.mem_cons_self _ _)
          · rw [if_neg hl] at h2
            exact Or.inl h2
    · exact Or.inr (List.mem_cons_of_mem _ h2)

theorem syncPhase1_step_key (assignments : List (String × List String))
    (cacheItems : List StreamerView) (orig kv : String × LiveEntry)
    (hstep : (if (computeStarredIds assignments).contains orig.1 then
        (match jsGet (mapFromItems cacheItems) orig.1 with
        | some streamer =>
          if orig.2.isLive && !streamer.isLive then some (orig.1, ⟨false, none⟩)
          else if streamer.isLive then some (orig.1, ⟨true, streamer.startedAt⟩)
          else some orig
        | none => some orig)
      else none) = some kv) :
    kv.1 = orig.1 ∧ (computeStarredIds assignments).contains orig.1 = true := by
  split at hstep
  · rename_i hc
    split at hstep
    · split at hstep
      · injection hstep with h3
        exact ⟨by rw [← h3], hc⟩
      · split at hstep
        · injection hstep with h3
          exact ⟨by rw [← h3], hc⟩
        · injection hstep with h3
          exact ⟨by rw [← h3], hc⟩
    · injection hstep with h3
      exact ⟨by rw [← h3], hc⟩
  · exact Option.noConfusion hstep

/-- C4: after `syncLiveAssignments` and after the live-state update of
    `runLiveCheck`, every id present in the live-state map is a
    currently-starred id: entries of no-longer-starred entities are deleted
    and entries are never created for non-starred entities. -/
theorem C4_live_state_subset (assignments : List (String × List String))
    (cacheItems : List StreamerView) (liveState0 : List (String × LiveEntry))
    (notificationsEnabled : Bool) (maxAgeRaw : Option Int) (now : Int) :
    (∀ id ∈ jsKeys (syncLiveAssignments assignments cacheItems liveState0),
      id ∈ computeStarredIds assignments) ∧
    (∀ id ∈ jsKeys (runLiveCheckState notificationsEnabled maxAgeRaw now
        (starredStreamersOf assignments cacheItems) liveState0).1,
      id ∈ computeStarredIds assignments) := by
  constructor
  · intro id hid
    unfold syncLiveAssignments at hid
    rcases syncAdd_keys (mapFromItems cacheItems)
        (computeStarredIds assignments) _ id hid with h | h
    · rcases List.mem_map.mp h with ⟨kv, hkv, hfst⟩
      rcases List.mem_filterMap.mp hkv with ⟨orig, horig, hstep⟩
      obtain ⟨hkey, hc⟩ := syncPhase1_step_key assignments cacheItems orig kv hstep
      rw [← hfst, hkey]
      simpa using hc
    · exact h
  · intro id hid
    unfold runLiveCheckState pruneNonStarred at hid
    rcases mem_keys_filter _ _ _ hid with ⟨v, _, hp⟩
    have hmm : id ∈ (starredStreamersOf assignments cacheItems).map
        (fun s => s.id) := by
      simpa using hp
    rcases List.mem_map.mp hmm with ⟨s, hs, hsid⟩
    rcases List.mem_filter.mp hs with ⟨hsmem, hfav⟩
    rcases hga : jsGet assignments s.id with _ | l
    · rw [hga] at hfav
      simp at hfav
    · rw [hga] at hfav
      simp only [Option.getD_some] at hfav
      have hm := mem_of_jsGet_eq_some _ _ _ hga
      rw [← hsid]
      exact List.mem_map.mpr ⟨(s.id, l), List.mem_filter.mpr ⟨hm, hfav⟩, rfl⟩

theorem runNotifLoop_cons (n : Bool) (m now : Int) (s : StreamerView)
    (rest : List StreamerView) (ls : List (String × LiveEntry))
    (p : List String) :
    runNotifLoop n m now (s :: rest) ls p =
      if isEligibleForNotification n m now
          ((jsGet ls s.id).getD ⟨false, none⟩) s
          && !isValidTwitchUsername s.login then
        runNotifLoop n m now rest ls p
      else
        runNotifLoop n m now rest
          (jsSet ls s.id ⟨s.isLive, if s.isLive then s.startedAt else none⟩)
          (if isEligibleForNotification n m now
              ((jsGet ls s.id).getD ⟨false, none⟩) s
           then p ++ [s.id] else p) := rfl

theorem runNotifLoop_append (n : Bool) (m now : Int) (A B : List StreamerView) :
    ∀ (ls : List (String × LiveEntry)) (p : List String),
    runNotifLoop n m now (A ++ B) ls p =
      runNotifLoop n m now B (runNotifLoop n m now A ls p).1
        (runNotifLoop n m now A ls p).2 := by
  induction A with
  | nil =>
    intro ls p
    rfl
  | cons s rest ih =>
    intro ls p
    rw [List.cons_append, runNotifLoop_cons, runNotifLoop_cons]
    split
    · exact ih ls p
    · exact ih _ _

theorem runNotifLoop_frame (n : Bool) (m now : Int) (x : String) :
    ∀ (views : List StreamerView) (ls : List (String × LiveEntry))
      (p : List String),
    (∀ v ∈ views, v.id ≠ x) →
    jsGet (runNotifLoop n m now views ls p).1 x = jsGet ls x ∧
    (runNotifLoop n m now views ls p).2.count x = p.count x := by
  intro views
  induction views with
  | nil =>
    intro ls p _
    exact ⟨rfl, rfl⟩
  | cons s rest ih =>
    intro ls p h
    have hne : s.id ≠ x := h s (List.mem_cons_self _ _)
    have hrest : ∀ v ∈ rest, v.id ≠ x :=
      fun v hv => h v (List.mem_cons_of_mem _ hv)
    rw [runNotifLoop_cons]
    split
    · exact ih ls p hrest
    · rcases ih (jsSet ls s.id ⟨s.isLive, if s.isLive then s.startedAt else none⟩)
        (if isEligibleForNotification n m now
            ((jsGet ls s.id).getD ⟨false, none⟩) s
         then p ++ [s.id] else p) hrest with ⟨h1, h2⟩
      refine ⟨?_, ?_⟩
      · rw [h1, jsGet_set_ne _ _ _ _ hne]
      · rw [h2]
        split
        · simp [List.count_append, List.count_cons, hne]
        · rfl

/-- C3 (amended): for a starred entity with a login that passes validation,
    notifications enabled, both observations within the stream-age window,
    and no pre-existing live record with the same `startedAt`: two
    consecutive live-check runs that both observe the entity live dispatch
    exactly one notification across the two runs (on the first) when
    `startedAt` is unchanged, and a second notification when `startedAt`
    differs. A streamer whose login fails validation is skipped and never
    notified (see the counterexample). -/
theorem C3_notification_dedup
    (raw : Option Int) (now1 now2 S S2 : Int)
    (ls0 : List (String × LiveEntry))
    (s1 s2 : StreamerView) (A1 B1 A2 B2 : List StreamerView)
    (hid : s2.id = s1.id)
    (hA1 : ∀ v ∈ A1, v.id ≠ s1.id) (hB1 : ∀ v ∈ B1, v.id ≠ s1.id)
    (hA2 : ∀ v ∈ A2, v.id ≠ s1.id) (hB2 : ∀ v ∈ B2, v.id ≠ s1.id)
    (hlive1 : s1.isLive = true) (hS1 : s1.startedAt = some S)
    (hage1 : now1 - S ≤ resolveMaxAgeMinutes raw * 60 * 1000)
    (hval1 : isValidTwitchUsername s1.login = true)
    (hfresh : ((jsGet ls0 s1.id).getD ⟨false, none⟩).isLive = false ∨
      ((jsGet ls0 s1.id).getD ⟨false, none⟩).startedAt ≠ some S)
    (hlive2 : s2.isLive = true) (hS2 : s2.startedAt = some S2)
    (hage2 : now2 - S2 ≤ resolveMaxAgeMinutes raw * 60 * 1000)
    (hval2 : isValidTwitchUsername s2.login = true) :
    (runLiveCheckState true raw now1 (A1 ++ s1 :: B1) ls0).2.count s1.id = 1 ∧
    (S2 = S →
      (runLiveCheckState true raw now2 (A2 ++ s2 :: B2)
        (runLiveCheckState true raw now1 (A1 ++ s1 :: B1) ls0).1).2.count s1.id = 0) ∧
    (S2 ≠ S →
      (runLiveCheckState true raw now2 (A2 ++ s2 :: B2)
        (runLiveCheckState true raw now1 (A1 ++ s1 :: B1) ls0).1).2.count s1.id = 1) := by
  set M : Int := resolveMaxAgeMinutes raw * 60 * 1000 with hMdef
  obtain ⟨hgA1, hcA1⟩ := runNotifLoop_frame true M now1 s1.id A1 ls0 [] hA1
  have helig1 : isEligibleForNotification true M now1
      ((jsGet (runNotifLoop true M now1 A1 ls0 []).1 s1.id).getD ⟨false, none⟩) s1
      = true := by
    rw [hgA1]
    rcases hfresh with hf | hf
    · simp [isEligibleForNotification, hlive1, hS1, hage1, hf]
    · simp [isEligibleForNotification, hlive1, hS1, hage1, hf]
  have hstep1 : runNotifLoop true M now1 (s1 :: B1)
      (runNotifLoop true M now1 A1 ls0 []).1 (runNotifLoop true M now1 A1 ls0 []).2
      = runNotifLoop true M now1 B1
          (jsSet (runNotifLoop true M now1 A1 ls0 []).1 s1.id ⟨true, some S⟩)
          ((runNotifLoop true M now1 A1 ls0 []).2 ++ [s1.id]) := by
    rw [runNotifLoop_cons, helig1, hval1, hlive1, hS1]
    simp
  have hrun1eq : runNotifLoop true M now1 (A1 ++ s1 :: B1) ls0 []
      = runNotifLoop true M now1 B1
          (jsSet (runNotifLoop true M now1 A1 ls0 []).1 s1.id ⟨true, some S⟩)
          ((runNotifLoop true M now1 A1 ls0 []).2 ++ [s1.id]) := by
    rw [runNotifLoop_append, hstep1]
  obtain ⟨hgB1, hcB1⟩ := runNotifLoop_frame true M now1 s1.id B1
    (jsSet (runNotifLoop true M now1 A1 ls0 []).1 s1.id ⟨true, some S⟩)
    ((runNotifLoop true M now1 A1 ls0 []).2 ++ [s1.id]) hB1
  have hcount1 : (runNotifLoop true M now1 (A1 ++ s1 :: B1) ls0 []).2.count s1.id
      = 1 := by
    rw [hrun1eq, hcB1, List.count_append, hcA1]
    simp [List.count_cons]
  have hget1 : jsGet (runNotifLoop true M now1 (A1 ++ s1 :: B1) ls0 []).1 s1.id
      = some ⟨true, some S⟩ := by
    rw [hrun1eq, hgB1, jsGet_set_self]
  have hprune1 : jsGet (pruneNonStarred ((A1 ++ s1 :: B1).map (fun s => s.id))
      (runNotifLoop true M now1 (A1 ++ s1 :: B1) ls0 []).1) s1.id
      = some ⟨true, some S⟩ := by
    unfold pruneNonStarred
    rw [jsGet_filter_pos]
    · exact hget1
    · intro v
      have hmem : s1.id ∈ (A1 ++ s1 :: B1).map (fun s => s.id) :=
        List.mem_map.mpr ⟨s1, by simp, rfl⟩
      simpa using hmem
  obtain ⟨hgA2, hcA2⟩ := runNotifLoop_frame true M now2 s1.id A2
    (pruneNonStarred ((A1 ++ s1 :: B1).map (fun s => s.id))
      (runNotifLoop true M now1 (A1 ++ s1 :: B1) ls0 []).1) [] hA2
  have hprev2 : (jsGet (runNotifLoop true M now2 A2
      (pruneNonStarred ((A1 ++ s1 :: B1).map (fun s => s.id))
        (runNotifLoop true M now1 (A1 ++ s1 :: B1) ls0 []).1) []).1 s1.id).getD
      ⟨false, none⟩ = ⟨true, some S⟩ := by
    rw [hgA2, hprune1]
    rfl
  refine ⟨?_, ?_, ?_⟩
  · show (runNotifLoop true M now1 (A1 ++ s1 :: B1) ls0 []).2.count s1.id = 1
    exact hcount1
  · intro heq
    subst heq
    have helig2f : isEligibleForNotification true M now2 ⟨true, some S2⟩ s2
        = false := by
      simp [isEligibleForNotification, hlive2, hS2]
    show (runNotifLoop true M now2 (A2 ++ s2 :: B2)
      (pruneNonStarred ((A1 ++ s1 :: B1).map (fun s => s.id))
        (runNotifLoop true M now1 (A1 ++ s1 :: B1) ls0 []).1) []).2.count s1.id = 0
    rw [runNotifLoop_append, runNotifLoop_cons, hid, hprev2, helig2f]
    simp only [Bool.false_and, Bool.false_eq_true, if_false]
    rw [(runNotifLoop_frame true M now2 s1.id B2 _ _ hB2).2]
    rw [hcA2]
    simp
  · intro hne
    have helig2t : isEligibleForNotification true M now2 ⟨true, some S⟩ s2
        = true := by
      simp [isEligibleForNotification, hlive2, hS2, hage2]
      exact Ne.symm hne
    show (runNotifLoop true M now2 (A2 ++ s2 :: B2)
      (pruneNonStarred ((A1 ++ s1 :: B1).map (fun s => s.id))
        (runNotifLoop true M now1 (A1 ++ s1 :: B1) ls0 []).1) []).2.count s1.id = 1
    rw [runNotifLoop_append, runNotifLoop_cons, hid, hprev2, helig2t, hval2]
    simp only [Bool.not_true, Bool.and_false, Bool.false_eq_true, if_false]
    rw [(runNotifLoop_frame true M now2 s1.id B2 _ _ hB2).2]
    simp only [if_true]
    rw [List.count_append, hcA2]
    simp [List.count_cons]

/-- Counterexample to C3: a starred streamer whose login fails validation
    (`"ab"` is shorter than three characters) is observed live with the same
    `startedAt` on two consecutive runs with notifications enabled and the
    stream inside the age window, yet no notification is ever dispatched —
    not exactly one. -/
theorem C3_invalid_login_counterexample :
    ¬ ((runLiveCheckState true none 0
          [⟨"42", "ab", true, some 0⟩] []).2.count "42" +
        (runLiveCheckState true none 0 [⟨"42", "ab", true, some 0⟩]
          (runLiveCheckState true none 0
            [⟨"42", "ab", true, some 0⟩] []).1).2.count "42" = 1) := by
  decide

/-- Witness: a valid-login streamer live with the same `startedAt` across two
    runs is notified exactly once, on the first run. -/
theorem C3_notification_dedup_witness :
    (runLiveCheckState true none 0
        [⟨"42", "abc", true, some 0⟩] []).2.count "42" = 1 ∧
    (runLiveCheckState true none 0 [⟨"42", "abc", true, some 0⟩]
        (runLiveCheckState true none 0
          [⟨"42", "abc", true, some 0⟩] []).1).2.count "42" = 0 := by
  have h := C3_notification_dedup none 0 0 0 0 []
    ⟨"42", "abc", true, some 0⟩ ⟨"42", "abc", true, some 0⟩ [] [] [] []
    rfl (by simp) (by simp) (by simp) (by simp)
    rfl rfl (by decide) (by decide)
    (Or.inl rfl) rfl rfl (by decide) (by decide)
  exact ⟨h.1, h.2.1 rfl⟩

end TTagger
